import Mathlib

set_option maxHeartbeats 1600000

/- `Rat.add` is shipped `@[irreducible]`, which stops `decide` from
evaluating the cost arithmetic of concrete search runs; restore the
default reducibility locally. -/
attribute [local semireducible] Rat.add

/-! Verification development for the ship_frame repository: a 3D frame
graph of beams and vertices, with edit operations, a connectivity-split
search, and a server/client replication layer. The Rust sources are
embedded shallowly: machine integers become `Nat` (with explicit modulus
where overflow matters), `f32` positions become rational triples with the
floating point Euclidean metric abstracted as an explicit function
parameter, fallible code returns `Except String` (the error carries the
panic message), and the slotmap / IndexMap stores become counter-indexed
association lists. -/

deriving instance DecidableEq for Except

/-- Three dimensional position. The source stores `f32` components
(`bevy::math::Vec3`); the embedding uses exact rationals for the
coordinates and keeps the metric abstract where distances are computed. -/
abbrev Vec3 : Type := ℚ × ℚ × ℚ

/-- Enumerated direction on a beam (src/src/lib.rs `BeamDirection`). -/
inductive BeamDirection where
  | Up
  | Down
deriving DecidableEq

/-- Direction swap (src/src/lib.rs `BeamDirection::opposite`). -/
def BeamDirection.opposite : BeamDirection → BeamDirection
  | .Up => .Down
  | .Down => .Up

/-- Key lookup in an association list; embeds map `get` for both the
`IndexMap` stores of src/src/graph.rs and the `HashMap` tables used by
src/src/server.rs and src/src/lib.rs. -/
def lookupA {K V : Type} [DecidableEq K] : List (K × V) → K → Option V
  | [], _ => none
  | (k, v) :: rest, key => if k = key then some v else lookupA rest key

/-- Map `insert`: an existing key has its value replaced in place (the
old value is returned), a new key is appended at the end. -/
def insertA {K V : Type} [DecidableEq K] : List (K × V) → K → V → List (K × V) × Option V
  | [], key, v => ([(key, v)], none)
  | (k, w) :: rest, key, v =>
    if k = key then ((k, v) :: rest, some w)
    else
      let p := insertA rest key v
      ((k, w) :: p.1, p.2)

/-- In-place value update for an existing key; embeds mutation through
map `get_mut`. A missing key leaves the list unchanged. -/
def setValA {K V : Type} [DecidableEq K] : List (K × V) → K → V → List (K × V)
  | [], _, _ => []
  | (k, w) :: rest, key, v =>
    if k = key then (k, v) :: rest else (k, w) :: setValA rest key v

/-- `IndexMap::swap_remove`: the removed entry's slot is filled with the
last entry, which keeps removal constant time but perturbs the order. -/
def swapRemoveA {K V : Type} [DecidableEq K] (l : List (K × V)) (key : K) :
    Option (V × List (K × V)) :=
  match l.findIdx? (fun p => decide (p.1 = key)) with
  | none => none
  | some i =>
    match l.get? i, l.getLast? with
    | some kv, some lastEntry => some (kv.2, (l.set i lastEntry).dropLast)
    | _, _ => none

namespace Keyed

/-- Modelled from the spec: `VertexId` is an opaque, totally ordered
identifier wrapping an unsigned 64 bit counter value (the constructor
`VertexId(u64)` is visible in src/src/server.rs but the type's own
definition is not under src/); the wrapper is elided. -/
abbrev VertexId : Type := Nat

/-- Modelled from the spec: `BeamId` is derived from an unordered pair of
vertex ids, canonically stored as `(down, up)` with `down` the smaller
ordered id. The type's implementation is not under src/; only its uses
in src/src/graph.rs and src/src/server.rs are. -/
structure BeamId where
  down : VertexId
  up : VertexId
deriving DecidableEq

/-- Modelled from the spec: the canonical constructor places the smaller
vertex id in the `down` slot, so `BeamId(a,b) = BeamId(b,a)`. -/
def BeamId.from_vertices (a b : VertexId) : BeamId :=
  if a ≤ b then ⟨a, b⟩ else ⟨b, a⟩

/-- Modelled from the spec: accessor for the canonical smaller endpoint. -/
def BeamId.down_vertex (b : BeamId) : VertexId := b.down

/-- Modelled from the spec: accessor for the canonical larger endpoint. -/
def BeamId.up_vertex (b : BeamId) : VertexId := b.up

/-- Modelled from the spec: both endpoints of a beam id, canonical order. -/
def BeamId.vertices (b : BeamId) : VertexId × VertexId := (b.down, b.up)

/-- A (beam id, direction) pair stored in a vertex's connection list
(the `BeamEnd` shape used by src/src/graph.rs, fields `beam_id` and
`beam_end`). -/
structure BeamEnd where
  beam_id : BeamId
  beam_end : BeamDirection
deriving DecidableEq

/-- The vertex id a beam end points at, recovered from its beam id. -/
def BeamEnd.endpoint (c : BeamEnd) : VertexId :=
  match c.beam_end with
  | .Down => c.beam_id.down_vertex
  | .Up => c.beam_id.up_vertex

/-- A vertex: position plus the beam ends touching it
(src/src/graph.rs `Vertex`). -/
structure Vertex where
  position : Vec3
  connections : List BeamEnd
deriving DecidableEq

/-- The core data structure used by the server and client
(src/src/graph.rs `Graph<B>`): two insertion ordered maps, embedded as
association lists. -/
structure Graph (B : Type) where
  vertices : List (VertexId × Vertex)
  beams : List (BeamId × B)
deriving DecidableEq

/-- The `Default` impl for `Graph<B>`: both maps empty. -/
def Graph.empty {B : Type} : Graph B := ⟨[], []⟩

/-- One pass of the endpoint loop inside `add_beam`
(src/src/graph.rs lines 51-72): a supplied position creates the vertex
with a single connection, an omitted position appends to an existing
vertex's connection list. Panics become errors. -/
def addEnd (verts : List (VertexId × Vertex)) (beam_id : BeamId) (id : VertexId)
    (position : Option Vec3) (beam_end : BeamDirection) :
    Except String (List (VertexId × Vertex)) :=
  match position with
  | some p =>
    let r := insertA verts id ⟨p, [⟨beam_id, beam_end⟩]⟩
    match r.2 with
    | some _ => .error "Tried to insert a vertex twice."
    | none => .ok r.1
  | none =>
    match lookupA verts id with
    | none => .error "Tried to connect a beam to a vertex that doesn't exist."
    | some v =>
      .ok (setValA verts id { v with connections := v.connections ++ [⟨beam_id, beam_end⟩] })

/-- Inserts a beam between existing or new vertices
(src/src/graph.rs `Graph::add_beam`). The endpoints are canonically
ordered first; every Rust panic is surfaced as an error carrying the
panic message. -/
def Graph.add_beam {B : Type} (g : Graph B) (vertex_a : VertexId) (position_a : Option Vec3)
    (vertex_b : VertexId) (position_b : Option Vec3) (beam_data : B) :
    Except String (Graph B) :=
  if vertex_a = vertex_b then
    .error "Tried to insert a beam between a vertex and itself."
  else
    let q :=
      if vertex_a < vertex_b then (vertex_a, position_a, vertex_b, position_b)
      else (vertex_b, position_b, vertex_a, position_a)
    let down_id := q.1
    let down_position := q.2.1
    let up_id := q.2.2.1
    let up_position := q.2.2.2
    let beam_id := BeamId.from_vertices down_id up_id
    match addEnd g.vertices beam_id down_id down_position .Down with
    | .error e => .error e
    | .ok verts1 =>
      match addEnd verts1 beam_id up_id up_position .Up with
      | .error e => .error e
      | .ok verts2 =>
        let r := insertA g.beams beam_id beam_data
        match r.2 with
        | some _ => .error "Tried to insert a beam twice."
        | none => .ok { vertices := verts2, beams := r.1 }

/-- One iteration of the endpoint loop inside `remove_beam`
(src/src/graph.rs lines 88-106): drop the matching connection and delete
the vertex when its connection list empties. -/
def removeEndOf (verts : List (VertexId × Vertex)) (beam : BeamId) (id : VertexId) :
    Except String (List (VertexId × Vertex)) :=
  match lookupA verts id with
  | none => .error "Vertex should exist if beam exists."
  | some vertex =>
    match vertex.connections.findIdx? (fun c => decide (c.beam_id = beam)) with
    | none => .error "Vertex should have a connection to the beam."
    | some index =>
      let conns := vertex.connections.eraseIdx index
      if conns.isEmpty then
        match swapRemoveA verts id with
        | some r => .ok r.2
        | none => .ok verts
      else .ok (setValA verts id { vertex with connections := conns })

/-- Removes a beam, removing its vertices from the graph when this beam
was their last remaining connection (src/src/graph.rs
`Graph::remove_beam`). -/
def Graph.remove_beam {B : Type} (g : Graph B) (beam : BeamId) :
    Except String (Graph B × B) :=
  match swapRemoveA g.beams beam with
  | none => .error "Tried to remove a beam that doesn't exist."
  | some r =>
    match removeEndOf g.vertices beam beam.down_vertex with
    | .error e => .error e
    | .ok verts1 =>
      match removeEndOf verts1 beam beam.up_vertex with
      | .error e => .error e
      | .ok verts2 => .ok ({ vertices := verts2, beams := r.2 }, r.1)

/-- Wire snapshot of a graph (src/src/messages.rs `SerializedGraph<B>`). -/
structure SerializedGraph (B : Type) where
  vertices : List (VertexId × Vec3)
  beams : List (BeamId × B)
deriving DecidableEq

/-- Conversion `From<&Graph<B>> for SerializedGraph<B>`
(src/src/messages.rs lines 21-38): vertices become (id, position) pairs,
beams are copied with their payloads, in map order. -/
def SerializedGraph.from_graph {B : Type} (g : Graph B) : SerializedGraph B :=
  { vertices := g.vertices.map (fun p => (p.1, p.2.position)),
    beams := g.beams }

/-- First pass of `From<SerializedGraph<B>> for Graph<B>`: every listed
vertex is inserted with an empty connection list. -/
def insertVerts (verts : List (VertexId × Vertex)) :
    List (VertexId × Vec3) → List (VertexId × Vertex)
  | [] => verts
  | (id, position) :: rest => insertVerts (insertA verts id ⟨position, []⟩).1 rest

/-- Connection push used by the deserialization beam pass; a missing
endpoint vertex reproduces the `expect` panic. -/
def pushEnd (verts : List (VertexId × Vertex)) (id : VertexId) (c : BeamEnd) :
    Except String (List (VertexId × Vertex)) :=
  match lookupA verts id with
  | none => .error "Invalid serialized graph structure."
  | some v => .ok (setValA verts id { v with connections := v.connections ++ [c] })

/-- Second pass of the deserialization: every beam pushes a `Down` end
onto its down vertex and an `Up` end onto its up vertex, then the beam
itself is inserted. -/
def insertBeams {B : Type} (verts : List (VertexId × Vertex)) (beams : List (BeamId × B)) :
    List (BeamId × B) → Except String (List (VertexId × Vertex) × List (BeamId × B))
  | [] => .ok (verts, beams)
  | (id, beam_data) :: rest =>
    match pushEnd verts id.down_vertex ⟨id, .Down⟩ with
    | .error e => .error e
    | .ok verts1 =>
      match pushEnd verts1 id.up_vertex ⟨id, .Up⟩ with
      | .error e => .error e
      | .ok verts2 => insertBeams verts2 (insertA beams id beam_data).1 rest

/-- Conversion `From<SerializedGraph<B>> for Graph<B>`
(src/src/messages.rs lines 40-80). -/
def Graph.from_serialized {B : Type} (s : SerializedGraph B) : Except String (Graph B) :=
  match insertBeams (insertVerts [] s.vertices) [] s.beams with
  | .error e => .error e
  | .ok r => .ok { vertices := r.1, beams := r.2 }

/-- Incremental replication message (src/src/messages.rs `FrameUpdate`). -/
inductive FrameUpdate (B : Type) where
  | AddBeam (vertex_a : VertexId) (position_a : Option Vec3)
      (vertex_b : VertexId) (position_b : Option Vec3) (beam_data : B)
  | RemoveBeam (id : BeamId)
deriving DecidableEq

namespace Server

/-- Allocator of fresh vertex ids (src/src/server.rs `FrameIdWorld`).
The counter is a `u64`, so its increment is taken modulo `2 ^ 64`. -/
structure FrameIdWorld where
  next_id : Nat
deriving DecidableEq

/-- The `u64` modulus. -/
def U64 : Nat := 2 ^ 64

/-- Issues the next fresh id (src/src/server.rs `FrameIdWorld::next`). -/
def FrameIdWorld.next (w : FrameIdWorld) : VertexId × FrameIdWorld :=
  (w.next_id, ⟨(w.next_id + 1) % U64⟩)

/-- The memoized remap step `map.entry(id).or_insert_with(|| self.next())`
used by `map_frame`. -/
def entryOrNext (m : List (VertexId × VertexId)) (w : FrameIdWorld) (id : VertexId) :
    VertexId × List (VertexId × VertexId) × FrameIdWorld :=
  match lookupA m id with
  | some nid => (nid, m, w)
  | none =>
    let p := w.next
    (p.1, m ++ [(id, p.1)], p.2)

/-- Vertex pass of `map_frame`: every listed vertex id is replaced by its
memoized fresh id. -/
def remapVertices (w : FrameIdWorld) (m : List (VertexId × VertexId)) :
    List (VertexId × Vec3) → List (VertexId × Vec3) × List (VertexId × VertexId) × FrameIdWorld
  | [] => ([], m, w)
  | (id, p) :: rest =>
    let r1 := entryOrNext m w id
    let r2 := remapVertices r1.2.2 r1.2.1 rest
    ((r1.1, p) :: r2.1, r2.2.1, r2.2.2)

/-- Beam pass of `map_frame`: both endpoints are remapped through the same
memo table and the beam id is recomputed from the remapped pair. -/
def remapBeams {B : Type} (w : FrameIdWorld) (m : List (VertexId × VertexId)) :
    List (BeamId × B) → List (BeamId × B) × List (VertexId × VertexId) × FrameIdWorld
  | [] => ([], m, w)
  | (id, dat) :: rest =>
    let ab := id.vertices
    let r1 := entryOrNext m w ab.1
    let r2 := entryOrNext r1.2.1 r1.2.2 ab.2
    let r3 := remapBeams r2.2.2 r2.2.1 rest
    ((BeamId.from_vertices r1.1 r2.1, dat) :: r3.1, r3.2.1, r3.2.2)

/-- Server side frame component (src/src/server.rs `ShipFrame<B>`). -/
structure ShipFrame (B : Type) where
  graph : Graph B
deriving DecidableEq

/-- Remaps a serialized fragment into this id world's scope
(src/src/server.rs `FrameIdWorld::map_frame`). The final `graph.into()`
conversion can panic on a malformed fragment; that panic is surfaced as
an error after the allocator has already advanced. -/
def FrameIdWorld.map_frame {B : Type} (w : FrameIdWorld) (graph : SerializedGraph B) :
    FrameIdWorld × Except String (ShipFrame B) :=
  let rv := remapVertices w [] graph.vertices
  let rb := remapBeams (B := B) rv.2.2 rv.2.1 graph.beams
  (rb.2.2, (Graph.from_serialized ⟨rv.1, rb.1⟩).map (fun g => ⟨g⟩))

/-- Adds a beam from an existing vertex to a freshly allocated vertex and
returns the replication message (src/src/server.rs
`ShipFrame::add_beam_extend`). -/
def ShipFrame.add_beam_extend {B : Type} (f : ShipFrame B) (w : FrameIdWorld)
    (existing_vertex : VertexId) (position : Vec3) (beam_data : B) :
    Except String (ShipFrame B × FrameIdWorld × FrameUpdate B) :=
  let p := w.next
  match f.graph.add_beam existing_vertex none p.1 (some position) beam_data with
  | .error e => .error e
  | .ok g1 =>
    .ok (⟨g1⟩, p.2, .AddBeam existing_vertex none p.1 (some position) beam_data)

/-- Adds a beam between two existing vertices and returns the replication
message (src/src/server.rs `ShipFrame::add_beam_join`). -/
def ShipFrame.add_beam_join {B : Type} (f : ShipFrame B)
    (vertex_a vertex_b : VertexId) (beam_data : B) :
    Except String (ShipFrame B × FrameUpdate B) :=
  match f.graph.add_beam vertex_a none vertex_b none beam_data with
  | .error e => .error e
  | .ok g1 => .ok (⟨g1⟩, .AddBeam vertex_a none vertex_b none beam_data)

end Server

namespace Client

/-- Client side mirror frame (src/src/client.rs `ShipFrame<B>`). -/
structure ShipFrame (B : Type) where
  graph : Graph B
deriving DecidableEq

/-- Builds a mirror from a snapshot (src/src/client.rs `ShipFrame::new`). -/
def ShipFrame.new {B : Type} (s : SerializedGraph B) : Except String (ShipFrame B) :=
  (Graph.from_serialized s).map (fun g => ⟨g⟩)

/-- Applies one replication message by replaying the corresponding graph
operation (src/src/client.rs `ShipFrame::apply_update`). -/
def ShipFrame.apply_update {B : Type} (f : ShipFrame B) (u : FrameUpdate B) :
    Except String (ShipFrame B) :=
  match u with
  | .AddBeam vertex_a position_a vertex_b position_b beam_data =>
    (f.graph.add_beam vertex_a position_a vertex_b position_b beam_data).map (fun g => ⟨g⟩)
  | .RemoveBeam id =>
    (f.graph.remove_beam id).map (fun r => ⟨r.1⟩)

end Client

end Keyed

namespace Arena

/-- A specific end on a beam (src/src/lib.rs `BeamEnd`, fields `beam` and
`end`; the second field is spelled `end_` because `end` is a Lean
keyword). Slotmap keys are embedded as natural numbers. -/
structure BeamEnd where
  beam : Nat
  end_ : BeamDirection
deriving DecidableEq

/-- A vertex of the arena variant (src/src/lib.rs `Vertex`). -/
structure Vertex where
  connections : List BeamEnd
  position : Vec3
deriving DecidableEq

/-- A beam of the arena variant (src/src/lib.rs `Beam`): explicit up and
down vertex ids. -/
structure Beam where
  up : Nat
  down : Nat
deriving DecidableEq

/-- Embedding of `slotmap::HopSlotMap`: entries keyed by ever-fresh
natural numbers. Real slotmap keys carry version counters so a key is
never reissued; the monotone counter realizes the same guarantee. -/
structure SlotMap (α : Type) where
  nextKey : Nat
  entries : List (Nat × α)
deriving DecidableEq

/-- The empty slotmap. -/
def SlotMap.empty {α : Type} : SlotMap α := ⟨0, []⟩

/-- `HopSlotMap::insert`: returns the fresh key and the updated map. -/
def SlotMap.insert {α : Type} (m : SlotMap α) (a : α) : Nat × SlotMap α :=
  (m.nextKey, ⟨m.nextKey + 1, m.entries ++ [(m.nextKey, a)]⟩)

/-- `HopSlotMap::get`. -/
def SlotMap.get {α : Type} (m : SlotMap α) (k : Nat) : Option α := lookupA m.entries k

/-- Mutation through `get_mut`: replace the value stored at a live key. -/
def SlotMap.set {α : Type} (m : SlotMap α) (k : Nat) (a : α) : SlotMap α :=
  ⟨m.nextKey, setValA m.entries k a⟩

/-- `HopSlotMap::remove`: returns the removed value when present. -/
def SlotMap.remove {α : Type} (m : SlotMap α) (k : Nat) : Option α × SlotMap α :=
  match lookupA m.entries k with
  | none => (none, m)
  | some a => (some a, ⟨m.nextKey, m.entries.filter (fun p => decide (p.1 ≠ k))⟩)

/-- A frame graph (src/src/lib.rs `FrameGraph`): slotmap arenas of
vertices and beams. -/
structure FrameGraph where
  vertices : SlotMap Vertex
  beams : SlotMap Beam
deriving DecidableEq

/-- `FrameGraph::new`. -/
def FrameGraph.new : FrameGraph := ⟨.empty, .empty⟩

/-- `FrameGraph::get_vertex`. -/
def FrameGraph.get_vertex (g : FrameGraph) (k : Nat) : Option Vertex := g.vertices.get k

/-- `FrameGraph::get_beam`. -/
def FrameGraph.get_beam (g : FrameGraph) (k : Nat) : Option Beam := g.beams.get k

/-- `Beam::get_vertex`. -/
def Beam.get_vertex (b : Beam) : BeamDirection → Nat
  | .Up => b.up
  | .Down => b.down

/-- Mutation through `Beam::get_vertex_mut` (src/src/lib.rs lines
517-523): the beam with the vertex id in the given direction replaced. -/
def Beam.set_vertex (b : Beam) : BeamDirection → Nat → Beam
  | .Up, v => { b with up := v }
  | .Down, v => { b with down := v }

/-- Attempts to remove a connected beam end (src/src/lib.rs
`Vertex::remove_connection`): `none` when the connection is absent, and
the Bool reports whether it was the last remaining connection. -/
def Vertex.remove_connection (v : Vertex) (connection : BeamEnd) : Option (Vertex × Bool) :=
  match v.connections.findIdx? (fun c => decide (c = connection)) with
  | none => none
  | some index =>
    let conns := v.connections.eraseIdx index
    some ({ v with connections := conns }, conns.isEmpty)

/-- Creates a new beam and two vertices between two points
(src/src/lib.rs `FrameGraph::create_beam`); returns the graph, the beam
id, and the up and down vertex ids in that order. -/
def FrameGraph.create_beam (g : FrameGraph) (up_position down_position : Vec3) :
    FrameGraph × Nat × Nat × Nat :=
  let ru := g.vertices.insert ⟨[], up_position⟩
  let rd := ru.2.insert ⟨[], down_position⟩
  let rb := g.beams.insert ⟨ru.1, rd.1⟩
  let verts1 :=
    match rd.2.get ru.1 with
    | some v => rd.2.set ru.1 { v with connections := v.connections ++ [(⟨rb.1, .Up⟩ : BeamEnd)] }
    | none => rd.2
  let verts2 :=
    match verts1.get rd.1 with
    | some v => verts1.set rd.1 { v with connections := v.connections ++ [(⟨rb.1, .Down⟩ : BeamEnd)] }
    | none => verts1
  ({ vertices := verts2, beams := rb.2 }, rb.1, ru.1, rd.1)

/-- Removes a beam, removing its vertices when this beam was their last
remaining connection (src/src/lib.rs `FrameGraph::remove_beam`). Returns
whether the beam existed; the internal `expect`s surface as errors. -/
def FrameGraph.remove_beam (g : FrameGraph) (beam_id : Nat) :
    Except String (FrameGraph × Bool) :=
  let r := g.beams.remove beam_id
  match r.1 with
  | none => .ok (g, false)
  | some beam =>
    match g.vertices.get beam.up with
    | none => .error "Beam should point to a valid vertex"
    | some up_vertex =>
      match up_vertex.remove_connection ⟨beam_id, .Up⟩ with
      | none => .error "Vertex should contain a connection to the beam"
      | some ru =>
        let verts1 :=
          let vs := (g.vertices.set beam.up ru.1)
          if ru.2 then (vs.remove beam.up).2 else vs
        match verts1.get beam.down with
        | none => .error "Beam should point to a valid vertex"
        | some down_vertex =>
          match down_vertex.remove_connection ⟨beam_id, .Down⟩ with
          | none => .error "Vertex should contain a connection to the beam"
          | some rd =>
            let verts2 :=
              let vs := verts1.set beam.down rd.1
              if rd.2 then (vs.remove beam.down).2 else vs
            .ok ({ vertices := verts2, beams := r.2 }, true)

/-- Endpoint rewrite loop of `merge_vertices` (src/src/lib.rs lines
152-155): each moved connection's beam gets its endpoint in that
connection's direction repointed. -/
def rewriteBeams (into : Nat) : SlotMap Beam → List BeamEnd → Except String (SlotMap Beam)
  | beams, [] => .ok beams
  | beams, c :: rest =>
    match beams.get c.beam with
    | none => .error "unwrap"
    | some b => rewriteBeams into (beams.set c.beam (b.set_vertex c.end_ into)) rest

/-- Merges all connections on one vertex onto another vertex, removing
the first vertex (src/src/lib.rs `FrameGraph::merge_vertices`). Returns
the id of the vertex now holding all connections (the source returns a
mutable reference to it); `none` mirrors the `?` early returns. -/
def FrameGraph.merge_vertices (g : FrameGraph) (from_vertex_id into_vertex_id : Nat) :
    Except String (FrameGraph × Option Nat) :=
  match g.get_vertex into_vertex_id with
  | none => .ok (g, none)
  | some _ =>
    let r := g.vertices.remove from_vertex_id
    match r.1 with
    | none => .ok (g, none)
    | some fromV =>
      match rewriteBeams into_vertex_id g.beams fromV.connections with
      | .error e => .error e
      | .ok beams1 =>
        match r.2.get into_vertex_id with
        | none => .error "unwrap"
        | some intoV =>
          .ok ({ vertices := r.2.set into_vertex_id
                   { intoV with connections := intoV.connections ++ fromV.connections },
                 beams := beams1 }, some into_vertex_id)

/-- Splits a vertex in two by a predicate over its connections
(src/src/lib.rs `FrameGraph::split_vertex`). `retain` keeps exactly the
connections the predicate rejects and collects the selected ones in
order. Note that the source moves the selected connections onto the new
vertex without rewriting the affected beams' stored endpoint ids. -/
def FrameGraph.split_vertex (g : FrameGraph) (vertex_id : Nat)
    (predicate : BeamEnd → Bool) : FrameGraph × Option (Option Nat) :=
  match g.get_vertex vertex_id with
  | none => (g, none)
  | some vertex =>
    let selected := vertex.connections.filter predicate
    let kept := vertex.connections.filter (fun c => !(predicate c))
    if selected.isEmpty then
      (⟨g.vertices.set vertex_id { vertex with connections := kept }, g.beams⟩, some none)
    else if kept.isEmpty then
      (⟨g.vertices.set vertex_id { vertex with connections := selected }, g.beams⟩,
       some (some vertex_id))
    else
      let r := (g.vertices.set vertex_id { vertex with connections := kept }).insert
        ⟨selected, vertex.position⟩
      (⟨r.2, g.beams⟩, some (some r.1))

/-- Priority queue item of the search loop in `try_split`
(src/src/lib.rs `QueueItem`): priority `f`, accumulated cost, vertex id.
The `f32` fields are embedded as rationals. -/
structure QueueItem where
  f : ℚ
  cost : ℚ
  vertex_id : Nat
deriving DecidableEq

/-- The `f32::MAX` constant used as infinity by the cost table, written
as its exact integer value `2 ^ 128 - 2 ^ 104`. -/
def fMAX : ℚ := 340282346638528859811704183484516925440

/-- Observable outcome of `try_split`: `noSplit` is the `None` return,
`panicTodo` is the unimplemented `todo!()` ending the split branch,
`panicked` is any other panic (failed `unwrap` or `expect` on an
ill-formed graph), and `fuelOut` reports exhaustion of the loop fuel,
an artifact of the embedding (the Rust loop is unbounded). -/
inductive SplitOutcome where
  | noSplit
  | panicTodo
  | panicked (msg : String)
  | fuelOut
deriving DecidableEq

/-- Fuel indexed body of the sift down pass (src/src/lib.rs lines
327-352); `heap.swap(i, j)` becomes the double `List.set` on the two
fetched items. The recursion strictly increases the index while the
length is fixed, so `heap.length` fuel (supplied by `siftDown`) never
runs out before the source loop breaks. -/
def siftDownGo : Nat → List QueueItem → Nat → List QueueItem
  | 0, heap, _ => heap
  | fuel + 1, heap, parent_index =>
    match heap.get? parent_index with
    | none => heap
    | some parent =>
      let left_child_index := parent_index * 2 + 1
      let right_child_index := parent_index * 2 + 2
      match heap.get? left_child_index with
      | some left_child =>
        if parent.f < left_child.f then
          siftDownGo fuel ((heap.set parent_index left_child).set left_child_index parent)
            left_child_index
        else
          match heap.get? right_child_index with
          | some right_child =>
            if parent.f < right_child.f then
              siftDownGo fuel ((heap.set parent_index right_child).set right_child_index parent)
                right_child_index
            else heap
          | none => heap
      | none =>
        match heap.get? right_child_index with
        | some right_child =>
          if parent.f < right_child.f then
            siftDownGo fuel ((heap.set parent_index right_child).set right_child_index parent)
              right_child_index
          else heap
        | none => heap

/-- The sift down pass restoring the heap after a pop (src/src/lib.rs
lines 327-352). -/
def siftDown (heap : List QueueItem) (parent_index : Nat) : List QueueItem :=
  siftDownGo heap.length heap parent_index

/-- Fuel indexed body of the sift up pass (src/src/lib.rs lines
399-412); the index strictly decreases, so `child_index` fuel (supplied
by `siftUp`) never runs out before the source loop breaks. -/
def siftUpGo : Nat → List QueueItem → Nat → List QueueItem
  | 0, heap, _ => heap
  | fuel + 1, heap, child_index =>
    if child_index = 0 then heap
    else
      let parent_index := (child_index - 1) / 2
      match heap.get? child_index, heap.get? parent_index with
      | some child, some parent =>
        if child.f < parent.f then
          siftUpGo fuel ((heap.set child_index parent).set parent_index child) parent_index
        else heap
      | _, _ => heap

/-- The sift up pass after a push (src/src/lib.rs lines 399-412);
`heap.swap(i, j)` becomes the double `List.set` on the two fetched
items. -/
def siftUp (heap : List QueueItem) (child_index : Nat) : List QueueItem :=
  siftUpGo child_index heap child_index

/-- The pop-and-restore step at the top of the search loop
(src/src/lib.rs lines 313-353): the first item is read off, the last
item is popped into its slot, and the heap shape is re-established by
sifting down from the root. -/
def popRestore (heap : List QueueItem) : List QueueItem :=
  match heap.getLast? with
  | none => heap
  | some lastItem =>
    let rest := heap.dropLast
    if rest.isEmpty then rest
    else siftDown (rest.set 0 lastItem) 0

/-- Mutable state of the `try_split` search loop: frontier heap, visited
set (insertion ordered), and best cost table. -/
structure SearchState where
  heap : List QueueItem
  visited : List Nat
  best_costs : List (Nat × ℚ)
deriving DecidableEq

/-- `HashSet::insert` embedded with insertion order retained. -/
def insertSet (s : List Nat) (v : Nat) : List Nat :=
  if v ∈ s then s else s ++ [v]

/-- The neighbor relaxation loop of one explored vertex (src/src/lib.rs
lines 376-414). `d` abstracts the `f32` Euclidean metric
`Vec3::distance`; unwrap panics surface as errors. -/
def exploreConnections (d : Vec3 → Vec3 → ℚ) (g : FrameGraph) (end_position : Vec3)
    (path_cost : ℚ) (vpos : Vec3) :
    List BeamEnd → List QueueItem → List (Nat × ℚ) →
      Except String (List QueueItem × List (Nat × ℚ))
  | [], heap, best_costs => .ok (heap, best_costs)
  | connection :: rest, heap, best_costs =>
    match g.get_beam connection.beam with
    | none => .error "unwrap"
    | some beam =>
      let opposite_vertex_id := beam.get_vertex connection.end_.opposite
      match g.get_vertex opposite_vertex_id with
      | none => .error "unwrap"
      | some opposite_vertex =>
        let beam_length := d vpos opposite_vertex.position
        let possible_cost := path_cost + beam_length
        let best1 :=
          match lookupA best_costs opposite_vertex_id with
          | some _ => best_costs
          | none => best_costs ++ [(opposite_vertex_id, fMAX)]
        let current_cost := (lookupA best1 opposite_vertex_id).getD fMAX
        if possible_cost < current_cost then
          exploreConnections d g end_position path_cost vpos rest
            (siftUp (heap ++ [⟨possible_cost + d opposite_vertex.position end_position,
              possible_cost, opposite_vertex_id⟩]) heap.length)
            (setValA best1 opposite_vertex_id possible_cost)
        else
          exploreConnections d g end_position path_cost vpos rest heap best1

/-- Beam ids touching the visited vertices, deduplicated in first-seen
order (the `visited_beams` hash set of src/src/lib.rs lines 422-435). -/
def collectBeams (g : FrameGraph) : List Nat → List Nat → List Nat
  | acc, [] => acc
  | acc, v :: rest =>
    match g.get_vertex v with
    | none => collectBeams g acc rest
    | some vert =>
      collectBeams g (vert.connections.foldl (fun a c => insertSet a c.beam) acc) rest

/-- The split extraction phase entered when the frontier is exhausted
(src/src/lib.rs lines 417-465). The source copies the visited vertices
and the beams touching them into a local graph and then hits `todo!()`,
so the branch can only panic: the embedding keeps the unwrap checks
(whose panics would fire first, in iteration order) and collapses the
discarded local construction into the `panicTodo` outcome. -/
def splitPhase (g : FrameGraph) (visited : List Nat) : SplitOutcome :=
  if visited.all (fun v => (g.get_vertex v).isSome) then
    let visited_beams := collectBeams g [] visited
    if visited_beams.all (fun b =>
        match g.get_beam b with
        | some beam => decide (beam.up ∈ visited) && decide (beam.down ∈ visited)
        | none => false) then
      .panicTodo
    else .panicked "unwrap"
  else .panicked "unwrap"

/-- Result of one loop iteration: a terminal outcome or the next state. -/
inductive StepResult where
  | done (out : SplitOutcome)
  | next (st : SearchState)
deriving DecidableEq

/-- One iteration of the `try_split` loop body (src/src/lib.rs lines
305-415), in source order: the debug print's per-item unwraps, the
frontier emptiness check, pop and heap restore, the goal test, the
visited insert, the vertex and cost table lookups, the stale entry
check, and the neighbor relaxation loop. -/
def searchStep (d : Vec3 → Vec3 → ℚ) (g : FrameGraph) (end_vertex_id : Nat)
    (end_position : Vec3) (st : SearchState) : StepResult :=
  if st.heap.all (fun i => (g.get_vertex i.vertex_id).isSome) then
    match st.heap.head? with
    | none => .done (splitPhase g st.visited)
    | some item =>
      let heap1 := popRestore st.heap
      if item.vertex_id = end_vertex_id then .done .noSplit
      else
        let visited1 := insertSet st.visited item.vertex_id
        match g.get_vertex item.vertex_id with
        | none => .done (.panicked "unwrap")
        | some vertex =>
          match lookupA st.best_costs item.vertex_id with
          | none => .done (.panicked "Vertex should not be in queue if it is in map.")
          | some path_cost =>
            if path_cost < item.cost then
              .next { heap := heap1, visited := visited1, best_costs := st.best_costs }
            else
              match exploreConnections d g end_position path_cost vertex.position
                  vertex.connections heap1 st.best_costs with
              | .error e => .done (.panicked e)
              | .ok r => .next { heap := r.1, visited := visited1, best_costs := r.2 }
  else .done (.panicked "unwrap")

/-- The fuel indexed search loop of `try_split`. -/
def searchLoop (d : Vec3 → Vec3 → ℚ) (g : FrameGraph) (end_vertex_id : Nat)
    (end_position : Vec3) : Nat → SearchState → SplitOutcome
  | 0, _ => .fuelOut
  | fuel + 1, st =>
    match searchStep d g end_vertex_id end_position st with
    | .done out => out
    | .next st1 => searchLoop d g end_vertex_id end_position fuel st1

/-- Checks whether two vertices are in separate sub graphs
(src/src/lib.rs `FrameGraph::try_split`). The returned graph mirrors
`&mut self`; the implemented portion of the source never mutates it.
`d` abstracts `Vec3::distance` and `fuel` bounds the loop. -/
def FrameGraph.try_split (g : FrameGraph) (d : Vec3 → Vec3 → ℚ) (fuel : Nat)
    (start_vertex_id end_vertex_id : Nat) : SplitOutcome × FrameGraph :=
  match g.get_vertex start_vertex_id with
  | none => (.noSplit, g)
  | some sv =>
    match g.get_vertex end_vertex_id with
    | none => (.noSplit, g)
    | some ev =>
      (searchLoop d g end_vertex_id ev.position fuel
        { heap := [⟨d sv.position ev.position, 0, start_vertex_id⟩],
          visited := [],
          best_costs := [(start_vertex_id, 0)] },
       g)

end Arena

/-! ### Association list lemmas shared by the developments below -/

theorem lookupA_eq_none_iff {K V : Type} [DecidableEq K] (l : List (K × V)) (k : K) :
    lookupA l k = none ↔ k ∉ l.map Prod.fst := by
  induction l with
  | nil => simp [lookupA]
  | cons x t ih =>
    obtain ⟨a, b⟩ := x
    by_cases h : a = k
    · subst h
      simp [lookupA]
    · simp [lookupA, h, ih, Ne.symm h]

theorem lookupA_mem {K V : Type} [DecidableEq K] {l : List (K × V)} {k : K} {v : V}
    (h : lookupA l k = some v) : (k, v) ∈ l := by
  induction l with
  | nil => cases h
  | cons x t ih =>
    obtain ⟨a, b⟩ := x
    by_cases hak : a = k
    · subst hak
      have hbv : b = v := by simpa [lookupA] using h
      subst hbv
      exact List.mem_cons_self _ _
    · simp only [lookupA, if_neg hak] at h
      exact List.mem_cons_of_mem _ (ih h)

theorem lookupA_isSome_iff {K V : Type} [DecidableEq K] (l : List (K × V)) (k : K) :
    (lookupA l k).isSome ↔ k ∈ l.map Prod.fst := by
  rcases h : lookupA l k with _ | v
  · simpa using (lookupA_eq_none_iff l k).mp h
  · simp only [Option.isSome_some, true_iff]
    exact List.mem_map.mpr ⟨(k, v), lookupA_mem h, rfl⟩

theorem lookupA_of_mem {K V : Type} [DecidableEq K] {l : List (K × V)} {k : K} {v : V}
    (hm : (k, v) ∈ l) (hn : (l.map Prod.fst).Nodup) : lookupA l k = some v := by
  induction l with
  | nil => cases hm
  | cons x t ih =>
    obtain ⟨a, b⟩ := x
    simp only [List.map_cons, List.nodup_cons] at hn
    rcases List.mem_cons.mp hm with heq | ht
    · cases heq
      simp [lookupA]
    · have hak : a ≠ k := by
        rintro rfl
        exact hn.1 (List.mem_map.mpr ⟨(a, v), ht, rfl⟩)
      simp only [lookupA, if_neg hak]
      exact ih ht hn.2

theorem lookupA_perm {K V : Type} [DecidableEq K] {l l' : List (K × V)} (hp : l.Perm l')
    (hn : (l.map Prod.fst).Nodup) (k : K) : lookupA l k = lookupA l' k := by
  have hn' : (l'.map Prod.fst).Nodup := ((hp.map Prod.fst).nodup_iff).mp hn
  rcases h : lookupA l k with _ | v
  · rcases h' : lookupA l' k with _ | w
    · rfl
    · exact absurd (List.mem_map.mpr ⟨(k, w), hp.mem_iff.mpr (lookupA_mem h'), rfl⟩)
        ((lookupA_eq_none_iff l k).mp h)
  · exact (lookupA_of_mem (hp.mem_iff.mp (lookupA_mem h)) hn').symm

theorem insertA_snd {K V : Type} [DecidableEq K] (l : List (K × V)) (k : K) (v : V) :
    (insertA l k v).2 = lookupA l k := by
  induction l with
  | nil => rfl
  | cons x t ih =>
    obtain ⟨a, b⟩ := x
    by_cases h : a = k <;> simp [insertA, lookupA, h, ih]

theorem insertA_fst_of_none {K V : Type} [DecidableEq K] {l : List (K × V)} {k : K}
    (h : lookupA l k = none) (v : V) : (insertA l k v).1 = l ++ [(k, v)] := by
  induction l with
  | nil => rfl
  | cons x t ih =>
    obtain ⟨a, b⟩ := x
    by_cases hak : a = k
    · subst hak
      simp [lookupA] at h
    · simp only [lookupA, if_neg hak] at h
      simp [insertA, hak, ih h]

theorem setValA_map_fst {K V : Type} [DecidableEq K] (l : List (K × V)) (k : K) (v : V) :
    (setValA l k v).map Prod.fst = l.map Prod.fst := by
  induction l with
  | nil => rfl
  | cons x t ih =>
    obtain ⟨a, b⟩ := x
    by_cases h : a = k <;> simp [setValA, h, ih]

theorem mem_setValA {K V : Type} [DecidableEq K] {l : List (K × V)} {k : K} {v : V}
    {p : K × V} (h : p ∈ setValA l k v) : p ∈ l ∨ p = (k, v) := by
  induction l with
  | nil => cases h
  | cons x t ih =>
    obtain ⟨a, b⟩ := x
    by_cases hak : a = k
    · subst hak
      rcases List.mem_cons.mp (by simpa [setValA] using h) with heq | ht
      · exact Or.inr heq
      · exact Or.inl (List.mem_cons_of_mem _ ht)
    · rcases List.mem_cons.mp (by simpa [setValA, hak] using h) with heq | ht
      · exact Or.inl (heq ▸ List.mem_cons_self _ _)
      · rcases ih ht with h1 | h2
        · exact Or.inl (List.mem_cons_of_mem _ h1)
        · exact Or.inr h2

theorem lookupA_setValA_self {K V : Type} [DecidableEq K] {l : List (K × V)} {k : K} (v : V)
    (h : k ∈ l.map Prod.fst) : lookupA (setValA l k v) k = some v := by
  induction l with
  | nil => cases h
  | cons x t ih =>
    obtain ⟨a, b⟩ := x
    by_cases hak : a = k
    · subst hak
      simp [setValA, lookupA]
    · have ht : k ∈ t.map Prod.fst := by
        rcases (by simpa using h : k = a ∨ k ∈ t.map Prod.fst) with h1 | h2
        · exact absurd h1.symm hak
        · exact h2
      simp only [setValA, if_neg hak, lookupA, if_neg hak]
      exact ih ht

theorem lookupA_setValA_ne {K V : Type} [DecidableEq K] (l : List (K × V)) {k k' : K} (v : V)
    (h : k' ≠ k) : lookupA (setValA l k v) k' = lookupA l k' := by
  induction l with
  | nil => rfl
  | cons x t ih =>
    obtain ⟨a, b⟩ := x
    by_cases hak : a = k
    · subst hak
      simp [setValA, lookupA, Ne.symm h]
    · by_cases hak' : a = k'
      · subst hak'
        simp [setValA, lookupA, hak]
      · simp [setValA, lookupA, hak, hak', ih]

theorem setValA_of_not_mem {K V : Type} [DecidableEq K] {l : List (K × V)} {k : K} (v : V)
    (h : k ∉ l.map Prod.fst) : setValA l k v = l := by
  induction l with
  | nil => rfl
  | cons x t ih =>
    obtain ⟨a, b⟩ := x
    simp only [List.map_cons, List.mem_cons] at h
    push_neg at h
    simp [setValA, Ne.symm h.1, ih h.2]

theorem setValA_append_of_not_mem {K V : Type} [DecidableEq K] {l1 : List (K × V)}
    (l2 : List (K × V)) {k : K} (v : V) (h : k ∉ l1.map Prod.fst) :
    setValA (l1 ++ l2) k v = l1 ++ setValA l2 k v := by
  induction l1 with
  | nil => rfl
  | cons x t ih =>
    obtain ⟨a, b⟩ := x
    simp only [List.map_cons, List.mem_cons] at h
    push_neg at h
    simp [setValA, Ne.symm h.1, ih h.2]

theorem cons_set_dropLast_perm {α : Type} (l : List α) :
    ∀ (i : Nat) (a lastE : α), l.get? i = some a → l.getLast? = some lastE →
      (a :: (l.set i lastE).dropLast).Perm l := by
  induction l with
  | nil => intro i a lastE hg _; cases hg
  | cons x t ih =>
    intro i a lastE hg hl
    cases i with
    | zero =>
      have hx : x = a := by simpa using hg
      subst hx
      cases t with
      | nil =>
        have hle : x = lastE := by simpa using hl
        subst hle
        simp
      | cons y u =>
        have hl' : (y :: u).getLast? = some lastE := by
          simpa [List.getLast?_cons_cons] using hl
        have hdecomp : (y :: u).dropLast ++ [lastE] = y :: u :=
          List.dropLast_append_getLast? lastE hl'
        simp only [List.set_cons_zero, List.dropLast_cons₂]
        refine List.Perm.cons x ?_
        have hperm := (List.perm_append_singleton lastE ((y :: u).dropLast)).symm
        rwa [hdecomp] at hperm
    | succ i =>
      have hgt : t.get? i = some a := by simpa using hg
      have hlt : t.getLast? = some lastE := by
        cases t with
        | nil => cases hgt
        | cons y u => simpa [List.getLast?_cons_cons] using hl
      have ihh := ih i a lastE hgt hlt
      have hset : (x :: t).set (i + 1) lastE = x :: t.set i lastE := rfl
      rw [hset]
      cases hts : t.set i lastE with
      | nil =>
        have : t = [] := by
          have hlen := congrArg List.length hts
          simp only [List.length_set, List.length_nil] at hlen
          exact List.eq_nil_of_length_eq_zero hlen
        subst this
        cases hgt
      | cons z w =>
        rw [hts] at ihh
        rw [List.dropLast_cons₂]
        exact (List.Perm.swap x a _).trans (List.Perm.cons x ihh)

theorem lookupA_eq_of_getIdx {K V : Type} [DecidableEq K] :
    ∀ (l : List (K × V)) (i : Nat) {k : K} {kv : K × V},
      l.get? i = some kv → kv.1 = k →
      (∀ j, j < i → ∀ kv' : K × V, l.get? j = some kv' → kv'.1 ≠ k) →
      lookupA l k = some kv.2 := by
  intro l
  induction l with
  | nil => intro i k kv hg _ _; cases hg
  | cons x t ih =>
    intro i k kv hg hk hfirst
    cases i with
    | zero =>
      have hx : x = kv := by simpa using hg
      subst hx
      simp [lookupA, hk]
    | succ i =>
      have hx : x.1 ≠ k := hfirst 0 (Nat.succ_pos _) x rfl
      simp only [lookupA]
      rw [if_neg hx]
      exact ih i (by simpa using hg) hk
        (fun j hj kv' hg' => hfirst (j + 1) (Nat.succ_lt_succ hj) kv' (by simpa using hg'))

theorem swapRemoveA_some_spec {K V : Type} [DecidableEq K] {l : List (K × V)} {k : K}
    {v : V} {rest : List (K × V)} (h : swapRemoveA l k = some (v, rest)) :
    ((k, v) :: rest).Perm l ∧ lookupA l k = some v := by
  unfold swapRemoveA at h
  rcases hf : l.findIdx? (fun p => decide (p.1 = k)) with _ | i
  · rw [hf] at h; cases h
  · rw [hf] at h
    have h' : (match l.get? i, l.getLast? with
        | some kv, some lastEntry => some (kv.2, (l.set i lastEntry).dropLast)
        | _, _ => none) = some (v, rest) := h
    clear h
    obtain ⟨hlen, hpi, hfirst⟩ := List.findIdx?_eq_some_iff_getElem.mp hf
    have hki : l[i].1 = k := of_decide_eq_true hpi
    rcases hg : l.get? i with _ | kv
    · rw [hg] at h'; cases h'
    · rcases hlast : l.getLast? with _ | lastE
      · rw [hg, hlast] at h'; cases h'
      · rw [hg, hlast] at h'
        injection h' with h1
        injection h1 with h2 h3
        have hkv : kv = l[i] := by
          have := List.get?_eq_getElem? l i
          rw [List.getElem?_eq_getElem hlen] at this
          rw [this] at hg
          exact (Option.some.injEq _ _ ▸ hg : l[i] = kv).symm
        have hkvp : kv = (k, v) := by
          have e1 : kv.1 = k := hkv ▸ hki
          have e2 : kv.2 = v := h2
          calc kv = (kv.1, kv.2) := rfl
            _ = (k, v) := by rw [e1, e2]
        constructor
        · rw [← h3]
          have := cons_set_dropLast_perm l i kv lastE hg hlast
          rwa [hkvp] at this
        · have := lookupA_eq_of_getIdx l i hg (hkvp ▸ rfl : kv.1 = k)
            (fun j hj kv' hg' => by
              have hjlen : j < l.length := Nat.lt_trans hj hlen
              have : kv' = l[j] := by
                have hx := List.get?_eq_getElem? l j
                rw [List.getElem?_eq_getElem hjlen] at hx
                rw [hx] at hg'
                exact (Option.some.injEq _ _ ▸ hg' : l[j] = kv').symm
              rw [this]
              intro hcon
              exact (hfirst j hj) (decide_eq_true hcon)
            )
          rw [h2] at this
          exact this

theorem swapRemoveA_eq_none_iff {K V : Type} [DecidableEq K] (l : List (K × V)) (k : K) :
    swapRemoveA l k = none ↔ k ∉ l.map Prod.fst := by
  constructor
  · intro h hmem
    obtain ⟨p, hp, hpk⟩ := List.mem_map.mp hmem
    have hsome : (l.findIdx? (fun p => decide (p.1 = k))).isSome = true := by
      rw [List.findIdx?_isSome]
      exact List.any_eq_true.mpr ⟨p, hp, decide_eq_true hpk⟩
    obtain ⟨i, hf⟩ := Option.isSome_iff_exists.mp hsome
    obtain ⟨hlen, _, _⟩ := List.findIdx?_eq_some_iff_getElem.mp hf
    have hg : l.get? i = some l[i] := by
      rw [List.get?_eq_getElem?, List.getElem?_eq_getElem hlen]
    have hne : l ≠ [] := by
      intro hc
      subst hc
      cases hg
    obtain ⟨lastE, hlast⟩ := Option.isSome_iff_exists.mp
      (by rw [List.getLast?_isSome]; exact hne)
    unfold swapRemoveA at h
    rw [hf] at h
    have h' : (match l.get? i, l.getLast? with
        | some kv, some lastEntry => some (kv.2, (l.set i lastEntry).dropLast)
        | _, _ => none) = none := h
    rw [hg, hlast] at h'
    cases h'
  · intro h
    rcases hr : swapRemoveA l k with _ | p
    · rfl
    · obtain ⟨v, rest⟩ := p
      exact absurd (List.mem_map.mpr ⟨(k, v), lookupA_mem (swapRemoveA_some_spec hr).2, rfl⟩) h

theorem swapRemoveA_mem_sub {K V : Type} [DecidableEq K] {l : List (K × V)} {k : K}
    {v : V} {rest : List (K × V)} (h : swapRemoveA l k = some (v, rest)) :
    ∀ p ∈ rest, p ∈ l :=
  fun p hp => (swapRemoveA_some_spec h).1.subset (List.mem_cons_of_mem _ hp)

theorem swapRemoveA_keys_of_nodup {K V : Type} [DecidableEq K] {l : List (K × V)} {k : K}
    {v : V} {rest : List (K × V)} (h : swapRemoveA l k = some (v, rest))
    (hn : (l.map Prod.fst).Nodup) :
    (rest.map Prod.fst).Nodup ∧ k ∉ rest.map Prod.fst := by
  have hperm := ((swapRemoveA_some_spec h).1.map Prod.fst)
  have : ((k, v) :: rest ).map Prod.fst = k :: rest.map Prod.fst := rfl
  rw [this] at hperm
  have hnodup : (k :: rest.map Prod.fst).Nodup := hperm.nodup_iff.mpr hn
  exact ⟨(List.nodup_cons.mp hnodup).2, (List.nodup_cons.mp hnodup).1⟩

theorem swapRemoveA_lookup_self {K V : Type} [DecidableEq K] {l : List (K × V)} {k : K}
    {v : V} {rest : List (K × V)} (h : swapRemoveA l k = some (v, rest))
    (hn : (l.map Prod.fst).Nodup) : lookupA rest k = none :=
  (lookupA_eq_none_iff rest k).mpr (swapRemoveA_keys_of_nodup h hn).2

theorem swapRemoveA_lookup_ne {K V : Type} [DecidableEq K] {l : List (K × V)} {k : K}
    {v : V} {rest : List (K × V)} (h : swapRemoveA l k = some (v, rest))
    (hn : (l.map Prod.fst).Nodup) {k' : K} (hk : k' ≠ k) :
    lookupA rest k' = lookupA l k' := by
  have hrn : (rest.map Prod.fst).Nodup := (swapRemoveA_keys_of_nodup h hn).1
  have hperm := (swapRemoveA_some_spec h).1
  rcases hr : lookupA rest k' with _ | w
  · rcases hl2 : lookupA l k' with _ | w'
    · rfl
    · have hmem : (k', w') ∈ (k, v) :: rest := hperm.mem_iff.mpr (lookupA_mem hl2)
      rcases List.mem_cons.mp hmem with heq | ht
      · exact absurd (congrArg Prod.fst heq) hk
      · rw [lookupA_of_mem ht hrn] at hr
        cases hr
  · have hmem : (k', w) ∈ l := hperm.subset (List.mem_cons_of_mem _ (lookupA_mem hr))
    exact (lookupA_of_mem hmem hn).symm

namespace Keyed

/-- The well-formedness invariant of the keyed graph store (spec section
3): stored ids are unique, beams are canonical (`down < up`) with both
endpoints present, and every vertex's connection list is nonempty,
duplicate free, sound (each connection names a stored beam whose
endpoint in that direction is this vertex) and complete (every beam's
two ends appear on its endpoint vertices). -/
def WF {B : Type} (g : Graph B) : Prop :=
  (g.vertices.map Prod.fst).Nodup ∧
  (g.beams.map Prod.fst).Nodup ∧
  (∀ p ∈ g.beams, p.1.down < p.1.up ∧
    p.1.down ∈ g.vertices.map Prod.fst ∧ p.1.up ∈ g.vertices.map Prod.fst) ∧
  (∀ q ∈ g.vertices, q.2.connections ≠ [] ∧ q.2.connections.Nodup ∧
    ∀ c ∈ q.2.connections, c.beam_id ∈ g.beams.map Prod.fst ∧ c.endpoint = q.1) ∧
  (∀ p ∈ g.beams, ∃ q ∈ g.vertices, q.1 = p.1.down ∧
    (⟨p.1, .Down⟩ : BeamEnd) ∈ q.2.connections) ∧
  (∀ p ∈ g.beams, ∃ q ∈ g.vertices, q.1 = p.1.up ∧
    (⟨p.1, .Up⟩ : BeamEnd) ∈ q.2.connections)

instance {B : Type} [DecidableEq B] (g : Graph B) : Decidable (WF g) := by
  unfold WF
  infer_instance

/-- Concrete keyed graph with vertices 0 and 1 joined by one beam,
exactly the value produced by `add_beam` from the empty graph. -/
def exG1 : Graph Nat :=
  ⟨[(0, ⟨(0, 0, 0), [⟨⟨0, 1⟩, .Down⟩]⟩), (1, ⟨(1, 0, 0), [⟨⟨0, 1⟩, .Up⟩]⟩)],
   [(⟨0, 1⟩, 7)]⟩

end Keyed

namespace Arena

/-- Concrete arena graph with one beam between two vertices, exactly the
value produced by `create_beam` from the empty frame graph. -/
def exA1 : FrameGraph :=
  ⟨⟨2, [(0, ⟨[⟨0, .Up⟩], (0, 0, 0)⟩), (1, ⟨[⟨0, .Down⟩], (1, 0, 0)⟩)]⟩,
   ⟨1, [(0, ⟨0, 1⟩)]⟩⟩

end Arena

open Keyed in
/-- C8: `remove_beam` on an absent beam id surfaces an explicit failure
to the caller in both variants: the map keyed `Graph::remove_beam`
panics (embedded as the error carrying its panic message), and the arena
`FrameGraph::remove_beam` returns `false` and leaves the graph
unchanged. -/
theorem C8_remove_beam_missing_fails :
    (∀ (B : Type) (g : Graph B) (beam : BeamId), beam ∉ g.beams.map Prod.fst →
      g.remove_beam beam = .error "Tried to remove a beam that doesn't exist.") ∧
    (∀ (ga : Arena.FrameGraph) (beam_id : Nat), ga.get_beam beam_id = none →
      ga.remove_beam beam_id = .ok (ga, false)) := by
  constructor
  · intro B g beam h
    unfold Graph.remove_beam
    rw [(swapRemoveA_eq_none_iff g.beams beam).mpr h]
  · intro ga beam_id h
    have h' : lookupA ga.beams.entries beam_id = none := h
    unfold Arena.FrameGraph.remove_beam Arena.SlotMap.remove
    rw [h']

open Keyed in
/-- Witness for C8 at concrete inputs: a missing key on the keyed graph
and a missing arena key. -/
theorem C8_remove_beam_missing_fails_witness :
    ((⟨5, 6⟩ : BeamId) ∉ exG1.beams.map Prod.fst ∧
      exG1.remove_beam ⟨5, 6⟩ = .error "Tried to remove a beam that doesn't exist.") ∧
    (Arena.exA1.get_beam 99 = none ∧ Arena.exA1.remove_beam 99 = .ok (Arena.exA1, false)) :=
  ⟨⟨by decide, C8_remove_beam_missing_fails.1 Nat exG1 ⟨5, 6⟩ (by decide)⟩,
   ⟨by decide, C8_remove_beam_missing_fails.2 Arena.exA1 99 (by decide)⟩⟩

open Keyed in
/-- C7 counterexample: on a concrete well-formed graph holding exactly
one beam, `remove_beam` on that beam does not signal any distinct fatal
condition: both variants return successfully and leave a graph with zero
vertices and zero beams. -/
theorem C7_counterexample :
    WF exG1 ∧ exG1.beams.length = 1 ∧
    exG1.remove_beam ⟨0, 1⟩ = .ok ((⟨[], []⟩ : Graph Nat), 7) ∧
    Arena.exA1.remove_beam 0 = .ok (⟨⟨2, []⟩, ⟨1, []⟩⟩, true) := by decide

theorem eq_singleton_of_all_eq {α : Type} {l : List α} {x : α} (hne : l ≠ [])
    (hn : l.Nodup) (hall : ∀ c ∈ l, c = x) : l = [x] := by
  cases l with
  | nil => exact absurd rfl hne
  | cons a t =>
    have ha : a = x := hall a (List.mem_cons_self _ _)
    subst ha
    cases t with
    | nil => rfl
    | cons b u =>
      have hb : b = a := hall b (List.mem_cons_of_mem _ (List.mem_cons_self _ _))
      subst hb
      simp at hn

open Keyed in
/-- C7 amended: removing the only beam of a well-formed keyed graph does
not signal any distinct fatal condition: it succeeds, returns the beam
payload, and silently leaves a graph with zero vertices and zero beams. -/
theorem C7_remove_last_beam_silently_empties {B : Type} (g : Graph B) (bid : BeamId)
    (dat : B) (hwf : WF g) (hbeams : g.beams = [(bid, dat)]) :
    g.remove_beam bid = .ok ((⟨[], []⟩ : Graph B), dat) := by
  obtain ⟨hvn, _hbn, hbeam, hvert, hdown, hup⟩ := hwf
  have hbmem : (bid, dat) ∈ g.beams := by
    rw [hbeams]
    exact List.mem_cons_self _ _
  obtain ⟨hlt, hdmem, _humem⟩ := hbeam _ hbmem
  have hdu : bid.down ≠ bid.up := Nat.ne_of_lt hlt
  obtain ⟨qd, hqd_mem, hqd_key, _⟩ := hdown _ hbmem
  obtain ⟨qu, hqu_mem, hqu_key, _⟩ := hup _ hbmem
  -- every connection in the graph references the single beam
  have honly : ∀ q ∈ g.vertices, ∀ c ∈ q.2.connections,
      c.beam_id = bid ∧ c.endpoint = q.1 := by
    intro q hq c hc
    obtain ⟨_, _, hsound⟩ := hvert _ hq
    obtain ⟨hcb, hce⟩ := hsound c hc
    rw [hbeams] at hcb
    simp only [List.map_cons, List.map_nil, List.mem_singleton] at hcb
    exact ⟨hcb, hce⟩
  -- every vertex sits at one of the two endpoints
  have hkeys : ∀ q ∈ g.vertices, q.1 = bid.down ∨ q.1 = bid.up := by
    intro q hq
    obtain ⟨hne, _, _⟩ := hvert _ hq
    cases hc : q.2.connections with
    | nil => exact absurd hc hne
    | cons c cs =>
      obtain ⟨hcb, hce⟩ := honly _ hq c (hc ▸ List.mem_cons_self _ _)
      obtain ⟨cb, ce⟩ := c
      have hcb' : cb = bid := hcb
      cases ce
      · right
        have hce' : cb.up = q.1 := hce
        rw [← hce', hcb']
      · left
        have hce' : cb.down = q.1 := hce
        rw [← hce', hcb']
  -- the two endpoint vertices hold exactly their own beam end
  have hconns_d : qd.2.connections = [⟨bid, .Down⟩] := by
    obtain ⟨hne, hnd, _⟩ := hvert _ hqd_mem
    refine eq_singleton_of_all_eq hne hnd ?_
    intro c hc
    obtain ⟨hcb, hce⟩ := honly _ hqd_mem c hc
    obtain ⟨cb, ce⟩ := c
    have hcb' : cb = bid := hcb
    cases ce
    · exfalso
      have hce' : cb.up = qd.1 := hce
      rw [hcb'] at hce'
      have hud : bid.up = bid.down := by
        rw [hce']
        exact hqd_key
      exact hdu hud.symm
    · rw [hcb']
  have hconns_u : qu.2.connections = [⟨bid, .Up⟩] := by
    obtain ⟨hne, hnd, _⟩ := hvert _ hqu_mem
    refine eq_singleton_of_all_eq hne hnd ?_
    intro c hc
    obtain ⟨hcb, hce⟩ := honly _ hqu_mem c hc
    obtain ⟨cb, ce⟩ := c
    have hcb' : cb = bid := hcb
    cases ce
    · rw [hcb']
    · exfalso
      have hce' : cb.down = qu.1 := hce
      rw [hcb'] at hce'
      have hdu2 : bid.down = bid.up := by
        rw [hce']
        exact hqu_key
      exact hdu hdu2
  -- lookups of the two endpoint vertices
  have hqd_pair : (bid.down, qd.2) ∈ g.vertices := by
    have heq : qd = (bid.down, qd.2) := by
      obtain ⟨q1, q2⟩ := qd
      simp only at hqd_key ⊢
      rw [hqd_key]
    rw [← heq]
    exact hqd_mem
  have hqu_pair : (bid.up, qu.2) ∈ g.vertices := by
    have heq : qu = (bid.up, qu.2) := by
      obtain ⟨q1, q2⟩ := qu
      simp only at hqu_key ⊢
      rw [hqu_key]
    rw [← heq]
    exact hqu_mem
  have hlook_d : lookupA g.vertices bid.down = some qd.2 := lookupA_of_mem hqd_pair hvn
  have hlook_u : lookupA g.vertices bid.up = some qu.2 := lookupA_of_mem hqu_pair hvn
  -- removing the beam from the beam map
  have h1 : swapRemoveA g.beams bid = some (dat, []) := by
    rw [hbeams]
    simp [swapRemoveA]
  -- first endpoint pass
  rcases hsw0 : swapRemoveA g.vertices bid.down with _ | pr
  · rw [swapRemoveA_eq_none_iff] at hsw0
    exact absurd hdmem hsw0
  obtain ⟨vd', rest0⟩ := pr
  have hvd' : vd' = qd.2 := by
    have hs := (swapRemoveA_some_spec hsw0).2
    rw [hlook_d] at hs
    injection hs with hs'
    exact hs'.symm
  subst hvd'
  have hnd0 := (swapRemoveA_keys_of_nodup hsw0 hvn).1
  have hk0 := (swapRemoveA_keys_of_nodup hsw0 hvn).2
  have hre1 : removeEndOf g.vertices bid bid.down = .ok rest0 := by
    simp [removeEndOf, hlook_d, hconns_d, hsw0]
  -- second endpoint pass
  have hlook_u0 : lookupA rest0 bid.up = some qu.2 := by
    rw [swapRemoveA_lookup_ne hsw0 hvn (Ne.symm hdu)]
    exact hlook_u
  rcases hsw1 : swapRemoveA rest0 bid.up with _ | pr1
  · rw [swapRemoveA_eq_none_iff] at hsw1
    exact absurd (List.mem_map.mpr ⟨(bid.up, qu.2), lookupA_mem hlook_u0, rfl⟩) hsw1
  obtain ⟨vu', rest1⟩ := pr1
  have hvu' : vu' = qu.2 := by
    have hs := (swapRemoveA_some_spec hsw1).2
    rw [hlook_u0] at hs
    injection hs with hs'
    exact hs'.symm
  subst hvu'
  have hre2 : removeEndOf rest0 bid bid.up = .ok rest1 := by
    simp [removeEndOf, hlook_u0, hconns_u, hsw1]
  -- nothing remains after both endpoint vertices are gone
  have hrest1 : rest1 = [] := by
    have hsub0 := swapRemoveA_mem_sub hsw0
    have hsub1 := swapRemoveA_mem_sub hsw1
    have hk1 := (swapRemoveA_keys_of_nodup hsw1 hnd0).2
    cases hr : rest1 with
    | nil => rfl
    | cons p t =>
      exfalso
      have hp1 : p ∈ rest1 := hr ▸ List.mem_cons_self _ _
      have hp0 : p ∈ rest0 := hsub1 p hp1
      have hpg : p ∈ g.vertices := hsub0 p hp0
      rcases hkeys p hpg with hkd | hku
      · exact hk0 (List.mem_map.mpr ⟨p, hp0, hkd⟩)
      · exact hk1 (List.mem_map.mpr ⟨p, hp1, hku⟩)
  subst hrest1
  simp [Graph.remove_beam, h1, BeamId.down_vertex, BeamId.up_vertex, hre1, hre2]

open Keyed in
/-- Witness for the amended C7 theorem on the concrete one beam graph. -/
theorem C7_remove_last_beam_silently_empties_witness :
    WF exG1 ∧ exG1.beams = [(⟨0, 1⟩, 7)] ∧
      exG1.remove_beam ⟨0, 1⟩ = .ok ((⟨[], []⟩ : Graph Nat), 7) :=
  ⟨by decide, rfl,
    C7_remove_last_beam_silently_empties exG1 ⟨0, 1⟩ 7 (by decide) rfl⟩

theorem lookupA_append_right {K V : Type} [DecidableEq K] {l1 : List (K × V)}
    (l2 : List (K × V)) {k : K} (h : k ∉ l1.map Prod.fst) :
    lookupA (l1 ++ l2) k = lookupA l2 k := by
  induction l1 with
  | nil => rfl
  | cons x t ih =>
    obtain ⟨a, b⟩ := x
    simp only [List.map_cons, List.mem_cons] at h
    push_neg at h
    simp only [List.cons_append, lookupA, if_neg (Ne.symm h.1)]
    exact ih h.2

namespace Keyed

/-- The zero-degree elimination invariant for the keyed store: every
stored vertex has at least one connection. -/
def NoEmpty {B : Type} (g : Graph B) : Prop :=
  ∀ p ∈ g.vertices, p.2.connections ≠ []

instance {B : Type} (g : Graph B) : Decidable (NoEmpty g) := by
  unfold NoEmpty
  infer_instance

end Keyed

namespace Arena

/-- The zero-degree elimination invariant for the arena store. -/
def NoEmpty (g : FrameGraph) : Prop :=
  ∀ p ∈ g.vertices.entries, p.2.connections ≠ []

instance (g : FrameGraph) : Decidable (NoEmpty g) := by
  unfold NoEmpty
  infer_instance

/-- Slotmap key freshness for the vertex arena: every live key is below
the allocation counter (which the slotmap guarantees by construction). -/
def FreshKeys (g : FrameGraph) : Prop :=
  ∀ p ∈ g.vertices.entries, p.1 < g.vertices.nextKey

instance (g : FrameGraph) : Decidable (FreshKeys g) := by
  unfold FreshKeys
  infer_instance

end Arena

open Keyed in
theorem addEnd_preserves {verts : List (VertexId × Vertex)} {bid : BeamId} {id : VertexId}
    {pos : Option Vec3} {dir : BeamDirection} {verts' : List (VertexId × Vertex)}
    (h : addEnd verts bid id pos dir = .ok verts')
    (hne : ∀ p ∈ verts, p.2.connections ≠ []) : ∀ p ∈ verts', p.2.connections ≠ [] := by
  rcases pos with _ | p
  · rcases hl : lookupA verts id with _ | v
    · simp only [addEnd, hl] at h
      exact Except.noConfusion h
    · simp only [addEnd, hl, Except.ok.injEq] at h
      subst h
      intro q hq
      rcases mem_setValA hq with hin | heq
      · exact hne q hin
      · rw [heq]
        simp
  · rcases hl : lookupA verts id with _ | v
    · have hsnd : (insertA verts id ⟨p, [⟨bid, dir⟩]⟩).2 = none := by
        rw [insertA_snd, hl]
      simp only [addEnd, hsnd, Except.ok.injEq] at h
      subst h
      rw [insertA_fst_of_none hl]
      intro q hq
      rcases List.mem_append.mp hq with hin | hnew
      · exact hne q hin
      · simp only [List.mem_singleton] at hnew
        rw [hnew]
        simp
    · have hsnd : (insertA verts id ⟨p, [⟨bid, dir⟩]⟩).2 = some v := by
        rw [insertA_snd, hl]
      simp only [addEnd, hsnd] at h
      exact Except.noConfusion h

open Keyed in
theorem removeEndOf_preserves {verts : List (VertexId × Vertex)} {beam : BeamId}
    {id : VertexId} {verts' : List (VertexId × Vertex)}
    (h : removeEndOf verts beam id = .ok verts')
    (hne : ∀ p ∈ verts, p.2.connections ≠ []) : ∀ p ∈ verts', p.2.connections ≠ [] := by
  rcases hl : lookupA verts id with _ | vertex
  · simp only [removeEndOf, hl] at h
    exact Except.noConfusion h
  · rcases hf : vertex.connections.findIdx? (fun c => decide (c.beam_id = beam)) with _ | index
    · simp only [removeEndOf, hl, hf] at h
      exact Except.noConfusion h
    · by_cases hemp : (vertex.connections.eraseIdx index).isEmpty = true
      · rcases hsw : swapRemoveA verts id with _ | r
        · simp only [removeEndOf, hl, hf, hemp, if_true, hsw, Except.ok.injEq] at h
          subst h
          exact hne
        · simp only [removeEndOf, hl, hf, hemp, if_true, hsw, Except.ok.injEq] at h
          subst h
          intro p hp
          exact hne p (swapRemoveA_mem_sub hsw p hp)
      · have hemp' : (vertex.connections.eraseIdx index).isEmpty = false :=
          Bool.eq_false_iff.mpr hemp
        simp only [removeEndOf, hl, hf, hemp', Bool.false_eq_true, if_false,
          Except.ok.injEq] at h
        subst h
        intro p hp
        rcases mem_setValA hp with hin | heq
        · exact hne p hin
        · rw [heq]
          simp only
          intro hcon
          rw [hcon] at hemp'
          simp at hemp'

open Arena in
theorem remove_connection_spec {v : Arena.Vertex} {c : Arena.BeamEnd} {v' : Arena.Vertex}
    {b : Bool} (h : v.remove_connection c = some (v', b)) :
    v'.connections.isEmpty = b ∧ v'.position = v.position ∧
    ∃ index, v.connections.findIdx? (fun x => decide (x = c)) = some index ∧
      v'.connections = v.connections.eraseIdx index := by
  unfold Arena.Vertex.remove_connection at h
  rcases hf : v.connections.findIdx? (fun x => decide (x = c)) with _ | index
  · rw [hf] at h
    cases h
  · rw [hf] at h
    injection h with h'
    injection h' with h1 h2
    subst h1
    subst h2
    exact ⟨rfl, rfl, index, rfl, rfl⟩

open Arena in
theorem create_beam_spec (ga : Arena.FrameGraph) (hwf : Arena.FreshKeys ga)
    (up_position down_position : Vec3) :
    ga.create_beam up_position down_position =
      ({ vertices := ⟨ga.vertices.nextKey + 1 + 1,
           ga.vertices.entries ++
             [(ga.vertices.nextKey, ⟨[⟨ga.beams.nextKey, .Up⟩], up_position⟩),
              (ga.vertices.nextKey + 1, ⟨[⟨ga.beams.nextKey, .Down⟩], down_position⟩)]⟩,
         beams := ⟨ga.beams.nextKey + 1,
           ga.beams.entries ++
             [(ga.beams.nextKey, ⟨ga.vertices.nextKey, ga.vertices.nextKey + 1⟩)]⟩ },
       ga.beams.nextKey, ga.vertices.nextKey, ga.vertices.nextKey + 1) := by
  have hnk : ga.vertices.nextKey ∉ ga.vertices.entries.map Prod.fst := by
    intro hmem
    obtain ⟨p, hp, hpk⟩ := List.mem_map.mp hmem
    exact absurd (hpk ▸ hwf p hp) (lt_irrefl _)
  have hnk1 : ga.vertices.nextKey + 1 ∉ ga.vertices.entries.map Prod.fst := by
    intro hmem
    obtain ⟨p, hp, hpk⟩ := List.mem_map.mp hmem
    have := hwf p hp
    omega
  have hne01 : ga.vertices.nextKey ≠ ga.vertices.nextKey + 1 := by omega
  have h1 : lookupA ((ga.vertices.entries ++
        [(ga.vertices.nextKey, (⟨[], up_position⟩ : Arena.Vertex))]) ++
        [(ga.vertices.nextKey + 1, (⟨[], down_position⟩ : Arena.Vertex))])
        ga.vertices.nextKey = some ⟨[], up_position⟩ := by
    rw [List.append_assoc, lookupA_append_right _ hnk]
    simp [lookupA]
  have h2 : setValA ((ga.vertices.entries ++
        [(ga.vertices.nextKey, (⟨[], up_position⟩ : Arena.Vertex))]) ++
        [(ga.vertices.nextKey + 1, (⟨[], down_position⟩ : Arena.Vertex))])
        ga.vertices.nextKey (⟨[⟨ga.beams.nextKey, .Up⟩], up_position⟩ : Arena.Vertex) =
      ga.vertices.entries ++
        [(ga.vertices.nextKey, (⟨[⟨ga.beams.nextKey, .Up⟩], up_position⟩ : Arena.Vertex)),
         (ga.vertices.nextKey + 1, (⟨[], down_position⟩ : Arena.Vertex))] := by
    rw [List.append_assoc, setValA_append_of_not_mem _ _ hnk]
    simp [setValA]
  have h3 : lookupA (ga.vertices.entries ++
        [(ga.vertices.nextKey, (⟨[⟨ga.beams.nextKey, .Up⟩], up_position⟩ : Arena.Vertex)),
         (ga.vertices.nextKey + 1, (⟨[], down_position⟩ : Arena.Vertex))])
        (ga.vertices.nextKey + 1) = some ⟨[], down_position⟩ := by
    rw [lookupA_append_right _ hnk1]
    simp [lookupA, hne01]
  have h4 : setValA (ga.vertices.entries ++
        [(ga.vertices.nextKey, (⟨[⟨ga.beams.nextKey, .Up⟩], up_position⟩ : Arena.Vertex)),
         (ga.vertices.nextKey + 1, (⟨[], down_position⟩ : Arena.Vertex))])
        (ga.vertices.nextKey + 1)
        (⟨[⟨ga.beams.nextKey, .Down⟩], down_position⟩ : Arena.Vertex) =
      ga.vertices.entries ++
        [(ga.vertices.nextKey, (⟨[⟨ga.beams.nextKey, .Up⟩], up_position⟩ : Arena.Vertex)),
         (ga.vertices.nextKey + 1, (⟨[⟨ga.beams.nextKey, .Down⟩], down_position⟩ : Arena.Vertex))] := by
    rw [setValA_append_of_not_mem _ _ hnk1]
    simp [setValA, hne01]
  unfold Arena.FrameGraph.create_beam Arena.SlotMap.insert Arena.SlotMap.get Arena.SlotMap.set
  simp only [h1, List.nil_append, h2, h3, h4]

open Keyed in
theorem add_beam_preserves_NoEmpty {B : Type} (g : Graph B) (va : VertexId)
    (pa : Option Vec3) (vb : VertexId) (pb : Option Vec3) (dat : B) (g' : Graph B)
    (h : g.add_beam va pa vb pb dat = .ok g') (hne : NoEmpty g) : NoEmpty g' := by
  by_cases heq : va = vb
  · simp only [Graph.add_beam, if_pos heq] at h
    exact Except.noConfusion h
  · simp only [Graph.add_beam, if_neg heq] at h
    by_cases hlt : va < vb
    all_goals simp only [hlt, if_true, if_false, ite_true, ite_false, reduceIte] at h
    case pos =>
      rcases hA : addEnd g.vertices (BeamId.from_vertices va vb) va pa .Down with _ | verts1
      · simp only [hA] at h
        exact Except.noConfusion h
      · simp only [hA] at h
        rcases hB : addEnd verts1 (BeamId.from_vertices va vb) vb pb .Up with _ | verts2
        · simp only [hB] at h
          exact Except.noConfusion h
        · simp only [hB] at h
          rcases hC : (insertA g.beams (BeamId.from_vertices va vb) dat).2 with _ | old
          · simp only [hC, Except.ok.injEq] at h
            subst h
            intro p hp
            exact addEnd_preserves hB (addEnd_preserves hA hne) p hp
          · simp only [hC] at h
            exact Except.noConfusion h
    case neg =>
      rcases hA : addEnd g.vertices (BeamId.from_vertices vb va) vb pb .Down with _ | verts1
      · simp only [hA] at h
        exact Except.noConfusion h
      · simp only [hA] at h
        rcases hB : addEnd verts1 (BeamId.from_vertices vb va) va pa .Up with _ | verts2
        · simp only [hB] at h
          exact Except.noConfusion h
        · simp only [hB] at h
          rcases hC : (insertA g.beams (BeamId.from_vertices vb va) dat).2 with _ | old
          · simp only [hC, Except.ok.injEq] at h
            subst h
            intro p hp
            exact addEnd_preserves hB (addEnd_preserves hA hne) p hp
          · simp only [hC] at h
            exact Except.noConfusion h

open Keyed in
theorem remove_beam_preserves_NoEmpty {B : Type} (g : Graph B) (bid : BeamId)
    (g' : Graph B) (dat : B) (h : g.remove_beam bid = .ok (g', dat)) (hne : NoEmpty g) :
    NoEmpty g' := by
  rcases hs : swapRemoveA g.beams bid with _ | r
  · simp only [Graph.remove_beam, hs] at h
    exact Except.noConfusion h
  · rcases hr1 : removeEndOf g.vertices bid bid.down_vertex with e | verts1
    · simp only [Graph.remove_beam, hs, hr1] at h
      exact Except.noConfusion h
    · rcases hr2 : removeEndOf verts1 bid bid.up_vertex with e | verts2
      · simp only [Graph.remove_beam, hs, hr1, hr2] at h
        exact Except.noConfusion h
      · simp only [Graph.remove_beam, hs, hr1, hr2, Except.ok.injEq, Prod.mk.injEq] at h
        obtain ⟨h1, _⟩ := h
        subst h1
        intro p hp
        exact removeEndOf_preserves hr2 (removeEndOf_preserves hr1 hne) p hp

open Keyed in
theorem removeEndOf_keys_sub {verts : List (VertexId × Vertex)} {beam : BeamId}
    {id : VertexId} {verts' : List (VertexId × Vertex)}
    (h : removeEndOf verts beam id = .ok verts') :
    ∀ k, k ∈ verts'.map Prod.fst → k ∈ verts.map Prod.fst := by
  rcases hl : lookupA verts id with _ | vertex
  · simp only [removeEndOf, hl] at h
    exact Except.noConfusion h
  · rcases hf : vertex.connections.findIdx? (fun c => decide (c.beam_id = beam)) with _ | index
    · simp only [removeEndOf, hl, hf] at h
      exact Except.noConfusion h
    · by_cases hemp : (vertex.connections.eraseIdx index).isEmpty = true
      · rcases hsw : swapRemoveA verts id with _ | r
        · simp only [removeEndOf, hl, hf, hemp, if_true, hsw, Except.ok.injEq] at h
          subst h
          exact fun k hk => hk
        · simp only [removeEndOf, hl, hf, hemp, if_true, hsw, Except.ok.injEq] at h
          subst h
          intro k hk
          obtain ⟨p, hp, hpk⟩ := List.mem_map.mp hk
          exact List.mem_map.mpr ⟨p, swapRemoveA_mem_sub hsw p hp, hpk⟩
      · have hemp' : (vertex.connections.eraseIdx index).isEmpty = false :=
          Bool.eq_false_iff.mpr hemp
        simp only [removeEndOf, hl, hf, hemp', Bool.false_eq_true, if_false,
          Except.ok.injEq] at h
        subst h
        intro k hk
        rwa [setValA_map_fst] at hk

open Keyed in
theorem remove_beam_deletes_emptied {B : Type} (g : Graph B) (bid : BeamId)
    (g' : Graph B) (dat : B) (vert : Vertex)
    (h : g.remove_beam bid = .ok (g', dat))
    (hnd : (g.vertices.map Prod.fst).Nodup)
    (hlk : lookupA g.vertices bid.down = some vert)
    (hone : vert.connections.length = 1) :
    bid.down ∉ g'.vertices.map Prod.fst := by
  rcases hs : swapRemoveA g.beams bid with _ | r
  · simp only [Graph.remove_beam, hs] at h
    exact Except.noConfusion h
  · rcases hr1 : removeEndOf g.vertices bid bid.down_vertex with e | verts1
    · simp only [Graph.remove_beam, hs, hr1] at h
      exact Except.noConfusion h
    · rcases hr2 : removeEndOf verts1 bid bid.up_vertex with e | verts2
      · simp only [Graph.remove_beam, hs, hr1, hr2] at h
        exact Except.noConfusion h
      · simp only [Graph.remove_beam, hs, hr1, hr2, Except.ok.injEq, Prod.mk.injEq] at h
        obtain ⟨h1, _⟩ := h
        subst h1
        have hdv : bid.down_vertex = bid.down := rfl
        rw [hdv] at hr1
        rcases hf : vert.connections.findIdx? (fun c => decide (c.beam_id = bid)) with _ | index
        · simp only [removeEndOf, hlk, hf] at hr1
          exact Except.noConfusion hr1
        · have hidx : index < vert.connections.length :=
            (List.findIdx?_eq_some_iff_getElem.mp hf).1
          have hemp : (vert.connections.eraseIdx index).isEmpty = true := by
            rw [List.isEmpty_iff_length_eq_zero, List.length_eraseIdx_of_lt hidx, hone]
          rcases hsw : swapRemoveA g.vertices bid.down with _ | rr
          · rw [swapRemoveA_eq_none_iff] at hsw
            exact absurd (List.mem_map.mpr ⟨(bid.down, vert), lookupA_mem hlk, rfl⟩) hsw
          · obtain ⟨v', rest⟩ := rr
            simp only [removeEndOf, hlk, hf, hemp, if_true, hsw, Except.ok.injEq] at hr1
            subst hr1
            intro hmem
            exact (swapRemoveA_keys_of_nodup hsw hnd).2 (removeEndOf_keys_sub hr2 _ hmem)

namespace Arena

theorem SlotMap.remove_fst {α : Type} (m : SlotMap α) (k : Nat) :
    (m.remove k).1 = lookupA m.entries k := by
  unfold SlotMap.remove
  rcases h : lookupA m.entries k with _ | a <;> simp [h]

theorem SlotMap.mem_set_entries {α : Type} {m : SlotMap α} {k : Nat} {v : α}
    {p : Nat × α} (h : p ∈ (m.set k v).entries) : p ∈ m.entries ∨ p = (k, v) :=
  mem_setValA h

theorem SlotMap.mem_remove_sub {α : Type} {m : SlotMap α} {k : Nat} {p : Nat × α}
    (h : p ∈ (m.remove k).2.entries) : p ∈ m.entries := by
  unfold SlotMap.remove at h
  rcases hl : lookupA m.entries k with _ | a
  · simp only [hl] at h
    exact h
  · simp only [hl] at h
    exact (List.mem_filter.mp h).1

theorem SlotMap.mem_remove_ne {α : Type} {m : SlotMap α} {k : Nat} {p : Nat × α}
    (hs : (lookupA m.entries k).isSome = true) (h : p ∈ (m.remove k).2.entries) :
    p.1 ≠ k := by
  unfold SlotMap.remove at h
  rcases hl : lookupA m.entries k with _ | a
  · rw [hl] at hs
    cases hs
  · simp only [hl] at h
    exact of_decide_eq_true (List.mem_filter.mp h).2

theorem SlotMap.set_map_fst {α : Type} (m : SlotMap α) (k : Nat) (v : α) :
    (m.set k v).entries.map Prod.fst = m.entries.map Prod.fst :=
  setValA_map_fst _ _ _

end Arena

open Arena in
theorem create_beam_preserves_NoEmpty (ga : Arena.FrameGraph) (hwf : Arena.FreshKeys ga)
    (up_position down_position : Vec3) (hne : Arena.NoEmpty ga) :
    Arena.NoEmpty (ga.create_beam up_position down_position).1 := by
  rw [create_beam_spec ga hwf]
  intro p hp
  simp only [List.mem_append, List.mem_cons, List.mem_singleton,
    List.not_mem_nil, or_false] at hp
  rcases hp with hin | h1 | h2
  · exact hne p hin
  · rw [h1]
    simp
  · rw [h2]
    simp

open Arena in
theorem arena_remove_beam_preserves_NoEmpty (ga : Arena.FrameGraph) (bid : Nat)
    (g' : Arena.FrameGraph) (tf : Bool) (h : ga.remove_beam bid = .ok (g', tf))
    (hne : Arena.NoEmpty ga) : Arena.NoEmpty g' := by
  rcases hr : lookupA ga.beams.entries bid with _ | beam
  · have hr1 : (ga.beams.remove bid).1 = none := by rw [SlotMap.remove_fst, hr]
    simp only [FrameGraph.remove_beam, hr1, Except.ok.injEq, Prod.mk.injEq] at h
    obtain ⟨h1, _⟩ := h
    subst h1
    exact hne
  · have hr1 : (ga.beams.remove bid).1 = some beam := by rw [SlotMap.remove_fst, hr]
    simp only [FrameGraph.remove_beam, hr1] at h
    rcases hv1 : ga.vertices.get beam.up with _ | up_vertex
    · simp only [hv1] at h
      exact Except.noConfusion h
    · simp only [hv1] at h
      rcases hrc1 : up_vertex.remove_connection ⟨bid, .Up⟩ with _ | ru
      · simp only [hrc1] at h
        exact Except.noConfusion h
      · obtain ⟨u', bu⟩ := ru
        simp only [hrc1] at h
        have hu' : bu = false → u'.connections ≠ [] := by
          intro hbu
          have hspec := (remove_connection_spec hrc1).1
          rw [hbu] at hspec
          exact List.isEmpty_eq_false.mp hspec
        -- the vertex table after the up pass, and why it keeps the invariant
        have hpass1 : ∀ V : SlotMap Vertex,
            (V = (if bu = true then ((ga.vertices.set beam.up u').remove beam.up).2
              else ga.vertices.set beam.up u')) →
            ∀ p ∈ V.entries, p.2.connections ≠ [] := by
          intro V hV p hp
          cases bu
          · simp only [Bool.false_eq_true, if_false] at hV
            subst hV
            rcases SlotMap.mem_set_entries hp with hin | heq
            · exact hne p hin
            · rw [heq]
              exact hu' rfl
          · simp only [if_true] at hV
            subst hV
            rcases SlotMap.mem_set_entries (SlotMap.mem_remove_sub hp) with hin | heq
            · exact hne p hin
            · exfalso
              have hmemup : beam.up ∈ ga.vertices.entries.map Prod.fst := by
                rw [← lookupA_isSome_iff]
                have hv1' : lookupA ga.vertices.entries beam.up = some up_vertex := hv1
                rw [hv1']
                rfl
              have hsomeset : (lookupA (ga.vertices.set beam.up u').entries beam.up).isSome
                  = true := by
                have : lookupA (ga.vertices.set beam.up u').entries beam.up = some u' :=
                  lookupA_setValA_self _ hmemup
                rw [this]
                rfl
              exact SlotMap.mem_remove_ne hsomeset hp (by rw [heq])
        cases bu
        all_goals
          simp only [Bool.false_eq_true, if_false, if_true] at h
        -- in both cases name the pass-one table and continue with the down pass
        case false =>
          rcases hv2 : (ga.vertices.set beam.up u').get beam.down with _ | down_vertex
          · simp only [hv2] at h
            exact Except.noConfusion h
          · simp only [hv2] at h
            rcases hrc2 : down_vertex.remove_connection ⟨bid, .Down⟩ with _ | rd
            · simp only [hrc2] at h
              exact Except.noConfusion h
            · obtain ⟨d', bd⟩ := rd
              simp only [hrc2] at h
              have hd' : bd = false → d'.connections ≠ [] := by
                intro hbd
                have hspec := (remove_connection_spec hrc2).1
                rw [hbd] at hspec
                exact List.isEmpty_eq_false.mp hspec
              have hp1 := hpass1 (ga.vertices.set beam.up u')
                (by simp only [Bool.false_eq_true, if_false])
              cases bd
              · simp only [Bool.false_eq_true, if_false, Except.ok.injEq,
                  Prod.mk.injEq] at h
                obtain ⟨h1, _⟩ := h
                subst h1
                intro p hp
                rcases SlotMap.mem_set_entries hp with hin | heq
                · exact hp1 p hin
                · rw [heq]
                  exact hd' rfl
              · simp only [if_true, Except.ok.injEq, Prod.mk.injEq] at h
                obtain ⟨h1, _⟩ := h
                subst h1
                intro p hp
                rcases SlotMap.mem_set_entries (SlotMap.mem_remove_sub hp) with hin | heq
                · exact hp1 p hin
                · rw [heq]
                  -- the emptied down vertex entry cannot survive its removal
                  exfalso
                  have hmemdown : beam.down ∈
                      (ga.vertices.set beam.up u').entries.map Prod.fst := by
                    rw [← lookupA_isSome_iff]
                    have hv2' : lookupA (ga.vertices.set beam.up u').entries beam.down =
                        some down_vertex := hv2
                    rw [hv2']
                    rfl
                  have hsomeset : (lookupA ((ga.vertices.set beam.up u').set beam.down
                      d').entries beam.down).isSome = true := by
                    have : lookupA ((ga.vertices.set beam.up u').set beam.down d').entries
                        beam.down = some d' := lookupA_setValA_self _ hmemdown
                    rw [this]
                    rfl
                  exact SlotMap.mem_remove_ne hsomeset hp (by rw [heq])
        case true =>
          rcases hv2 : ((ga.vertices.set beam.up u').remove beam.up).2.get beam.down
              with _ | down_vertex
          · simp only [hv2] at h
            exact Except.noConfusion h
          · simp only [hv2] at h
            rcases hrc2 : down_vertex.remove_connection ⟨bid, .Down⟩ with _ | rd
            · simp only [hrc2] at h
              exact Except.noConfusion h
            · obtain ⟨d', bd⟩ := rd
              simp only [hrc2] at h
              have hd' : bd = false → d'.connections ≠ [] := by
                intro hbd
                have hspec := (remove_connection_spec hrc2).1
                rw [hbd] at hspec
                exact List.isEmpty_eq_false.mp hspec
              have hp1 := hpass1 ((ga.vertices.set beam.up u').remove beam.up).2
                (by simp only [if_true])
              cases bd
              · simp only [Bool.false_eq_true, if_false, Except.ok.injEq,
                  Prod.mk.injEq] at h
                obtain ⟨h1, _⟩ := h
                subst h1
                intro p hp
                rcases SlotMap.mem_set_entries hp with hin | heq
                · exact hp1 p hin
                · rw [heq]
                  exact hd' rfl
              · simp only [if_true, Except.ok.injEq, Prod.mk.injEq] at h
                obtain ⟨h1, _⟩ := h
                subst h1
                intro p hp
                rcases SlotMap.mem_set_entries (SlotMap.mem_remove_sub hp) with hin | heq
                · exact hp1 p hin
                · exfalso
                  have hmemdown : beam.down ∈
                      ((ga.vertices.set beam.up u').remove beam.up).2.entries.map
                        Prod.fst := by
                    rw [← lookupA_isSome_iff]
                    have hv2' : lookupA ((ga.vertices.set beam.up u').remove
                        beam.up).2.entries beam.down = some down_vertex := hv2
                    rw [hv2']
                    rfl
                  have hsomeset : (lookupA (((ga.vertices.set beam.up u').remove
                      beam.up).2.set beam.down d').entries beam.down).isSome = true := by
                    have : lookupA (((ga.vertices.set beam.up u').remove beam.up).2.set
                        beam.down d').entries beam.down = some d' :=
                      lookupA_setValA_self _ hmemdown
                    rw [this]
                    rfl
                  exact SlotMap.mem_remove_ne hsomeset hp (by rw [heq])

open Arena in
theorem merge_vertices_preserves_NoEmpty (ga : Arena.FrameGraph)
    (from_vertex_id into_vertex_id : Nat) (g' : Arena.FrameGraph) (r : Option Nat)
    (h : ga.merge_vertices from_vertex_id into_vertex_id = .ok (g', r))
    (hne : Arena.NoEmpty ga) : Arena.NoEmpty g' := by
  rcases h1 : ga.get_vertex into_vertex_id with _ | intoV0
  · simp only [FrameGraph.merge_vertices, h1, Except.ok.injEq, Prod.mk.injEq] at h
    obtain ⟨h2, _⟩ := h
    subst h2
    exact hne
  · simp only [FrameGraph.merge_vertices, h1] at h
    rcases h2 : (ga.vertices.remove from_vertex_id).1 with _ | fromV
    · simp only [h2, Except.ok.injEq, Prod.mk.injEq] at h
      obtain ⟨h3, _⟩ := h
      subst h3
      exact hne
    · simp only [h2] at h
      rcases h3 : rewriteBeams into_vertex_id ga.beams fromV.connections with e | beams1
      · simp only [h3] at h
        exact Except.noConfusion h
      · simp only [h3] at h
        rcases h4 : (ga.vertices.remove from_vertex_id).2.get into_vertex_id with _ | intoV
        · simp only [h4] at h
          exact Except.noConfusion h
        · simp only [h4, Except.ok.injEq, Prod.mk.injEq] at h
          obtain ⟨h5, _⟩ := h
          subst h5
          intro p hp
          rcases Arena.SlotMap.mem_set_entries hp with hin | heq
          · exact hne p (Arena.SlotMap.mem_remove_sub hin)
          · rw [heq]
            simp only
            intro hcon
            have hinto_mem : (into_vertex_id, intoV) ∈ ga.vertices.entries :=
              Arena.SlotMap.mem_remove_sub (lookupA_mem h4)
            have : intoV.connections = [] := (List.append_eq_nil.mp hcon).1
            exact hne _ hinto_mem this

open Arena in
theorem split_vertex_preserves_NoEmpty (ga : Arena.FrameGraph) (vertex_id : Nat)
    (predicate : Arena.BeamEnd → Bool) (hne : Arena.NoEmpty ga) :
    Arena.NoEmpty (ga.split_vertex vertex_id predicate).1 := by
  rcases h1 : ga.get_vertex vertex_id with _ | vertex
  · simp only [FrameGraph.split_vertex, h1]
    exact hne
  · have hvm : (vertex_id, vertex) ∈ ga.vertices.entries := lookupA_mem h1
    simp only [FrameGraph.split_vertex, h1]
    by_cases hsel : (vertex.connections.filter predicate).isEmpty = true
    · -- predicate selected nothing: retain keeps the whole list
      have hkept : vertex.connections.filter (fun c => !(predicate c)) =
          vertex.connections := by
        rw [List.filter_eq_self]
        intro c hc
        have := List.filter_eq_nil_iff.mp (List.isEmpty_iff.mp hsel) c hc
        simp [this]
      simp only [hsel, if_true]
      intro p hp
      rcases Arena.SlotMap.mem_set_entries hp with hin | heq
      · exact hne p hin
      · rw [heq]
        simp only [hkept]
        exact hne _ hvm
    · simp only [hsel, Bool.false_eq_true, if_false]
      by_cases hkept : (vertex.connections.filter (fun c => !(predicate c))).isEmpty = true
      · -- predicate selected everything: the original list is restored
        have hselall : vertex.connections.filter predicate = vertex.connections := by
          rw [List.filter_eq_self]
          intro c hc
          have := List.filter_eq_nil_iff.mp (List.isEmpty_iff.mp hkept) c hc
          simpa using this
        simp only [hkept, if_true]
        intro p hp
        rcases Arena.SlotMap.mem_set_entries hp with hin | heq
        · exact hne p hin
        · rw [heq]
          simp only [hselall]
          exact hne _ hvm
      · -- a proper split: both halves are nonempty
        simp only [hkept, Bool.false_eq_true, if_false]
        intro p hp
        simp only [Arena.SlotMap.insert, List.mem_append, List.mem_singleton] at hp
        rcases hp with hin | hnew
        · rcases Arena.SlotMap.mem_set_entries hin with hold | heq
          · exact hne p hold
          · rw [heq]
            simp only
            intro hcon
            rw [hcon] at hkept
            simp at hkept
        · rw [hnew]
          simp only
          intro hcon
          rw [hcon] at hsel
          simp at hsel

open Arena in
theorem arena_remove_beam_deletes_emptied (ga : Arena.FrameGraph) (bid : Nat)
    (g' : Arena.FrameGraph) (tf : Bool) (beam : Arena.Beam) (up_vertex : Arena.Vertex)
    (h : ga.remove_beam bid = .ok (g', tf))
    (hbeam : ga.get_beam bid = some beam)
    (hv : ga.get_vertex beam.up = some up_vertex)
    (hone : up_vertex.connections = [⟨bid, .Up⟩]) :
    g'.get_vertex beam.up = none := by
  have hr : lookupA ga.beams.entries bid = some beam := hbeam
  have hr1 : (ga.beams.remove bid).1 = some beam := by rw [SlotMap.remove_fst, hr]
  have hv1 : ga.vertices.get beam.up = some up_vertex := hv
  simp only [FrameGraph.remove_beam, hr1, hv1] at h
  -- removing the only connection empties the vertex
  have hrc1 : up_vertex.remove_connection ⟨bid, .Up⟩ =
      some (⟨[], up_vertex.position⟩, true) := by
    simp [Arena.Vertex.remove_connection, hone]
  simp only [hrc1, if_true] at h
  -- after the up pass the up key is gone
  have hmemup : beam.up ∈ ga.vertices.entries.map Prod.fst := by
    rw [← lookupA_isSome_iff]
    have hv' : lookupA ga.vertices.entries beam.up = some up_vertex := hv
    rw [hv']
    rfl
  have hgone : beam.up ∉
      ((ga.vertices.set beam.up ⟨[], up_vertex.position⟩).remove beam.up).2.entries.map
        Prod.fst := by
    intro hmem
    obtain ⟨p, hp, hpk⟩ := List.mem_map.mp hmem
    have hsomeset : (lookupA (ga.vertices.set beam.up
        ⟨[], up_vertex.position⟩).entries beam.up).isSome = true := by
      have : lookupA (ga.vertices.set beam.up ⟨[], up_vertex.position⟩).entries beam.up =
          some ⟨[], up_vertex.position⟩ := lookupA_setValA_self _ hmemup
      rw [this]
      rfl
    exact Arena.SlotMap.mem_remove_ne hsomeset hp hpk
  -- the down pass cannot resurrect the key
  rcases hv2 : ((ga.vertices.set beam.up ⟨[], up_vertex.position⟩).remove
      beam.up).2.get beam.down with _ | down_vertex
  · simp only [hv2] at h
    exact Except.noConfusion h
  · simp only [hv2] at h
    rcases hrc2 : down_vertex.remove_connection ⟨bid, .Down⟩ with _ | rd
    · simp only [hrc2] at h
      exact Except.noConfusion h
    · obtain ⟨d', bd⟩ := rd
      simp only [hrc2] at h
      cases bd
      · simp only [Bool.false_eq_true, if_false, Except.ok.injEq, Prod.mk.injEq] at h
        obtain ⟨h1, _⟩ := h
        subst h1
        have : beam.up ∉ (((ga.vertices.set beam.up ⟨[], up_vertex.position⟩).remove
            beam.up).2.set beam.down d').entries.map Prod.fst := by
          rw [Arena.SlotMap.set_map_fst]
          exact hgone
        exact (lookupA_eq_none_iff _ _).mpr this
      · simp only [if_true, Except.ok.injEq, Prod.mk.injEq] at h
        obtain ⟨h1, _⟩ := h
        subst h1
        have : beam.up ∉ ((((ga.vertices.set beam.up ⟨[], up_vertex.position⟩).remove
            beam.up).2.set beam.down d').remove beam.down).2.entries.map Prod.fst := by
          intro hmem
          obtain ⟨p, hp, hpk⟩ := List.mem_map.mp hmem
          have hp2 := Arena.SlotMap.mem_remove_sub hp
          rcases Arena.SlotMap.mem_set_entries hp2 with hin | heq
          · exact hgone (List.mem_map.mpr ⟨p, hin, hpk⟩)
          · -- p is the down entry; then beam.up = beam.down, but that key was
            -- already gone before the set, contradiction with hv2
            rw [heq] at hpk
            simp only at hpk
            rw [hpk] at hv2
            have : lookupA ((ga.vertices.set beam.up
                ⟨[], up_vertex.position⟩).remove beam.up).2.entries beam.up =
                some down_vertex := hv2
            exact hgone (List.mem_map.mpr ⟨(beam.up, down_vertex), lookupA_mem this, rfl⟩)
        exact (lookupA_eq_none_iff _ _).mpr this

namespace Keyed

/-- The keyed example graph after extending vertex 1 with a new vertex 2. -/
def exG2 : Graph Nat :=
  ⟨[(0, ⟨(0, 0, 0), [⟨⟨0, 1⟩, .Down⟩]⟩),
    (1, ⟨(1, 0, 0), [⟨⟨0, 1⟩, .Up⟩, ⟨⟨1, 2⟩, .Down⟩]⟩),
    (2, ⟨(2, 0, 0), [⟨⟨1, 2⟩, .Up⟩]⟩)],
   [(⟨0, 1⟩, 7), (⟨1, 2⟩, 8)]⟩

end Keyed

namespace Arena

/-- Concrete arena graph with two disconnected beams. -/
def exA2 : FrameGraph :=
  ⟨⟨4, [(0, ⟨[⟨0, .Up⟩], (0, 0, 0)⟩), (1, ⟨[⟨0, .Down⟩], (1, 0, 0)⟩),
        (2, ⟨[⟨1, .Up⟩], (2, 0, 0)⟩), (3, ⟨[⟨1, .Down⟩], (3, 0, 0)⟩)]⟩,
   ⟨2, [(0, ⟨0, 1⟩), (1, ⟨2, 3⟩)]⟩⟩

/-- The arena graph `exA2` after merging vertex 2 into vertex 1: vertex 1
holds both connections and beam 1's up endpoint is rewritten to 1. -/
def exA2m : FrameGraph :=
  ⟨⟨4, [(0, ⟨[⟨0, .Up⟩], (0, 0, 0)⟩), (1, ⟨[⟨0, .Down⟩, ⟨1, .Up⟩], (1, 0, 0)⟩),
        (3, ⟨[⟨1, .Down⟩], (3, 0, 0)⟩)]⟩,
   ⟨2, [(0, ⟨0, 1⟩), (1, ⟨1, 3⟩)]⟩⟩

end Arena

open Keyed in
/-- C9: every successful edit operation preserves the zero-degree
elimination invariant (no stored vertex has an empty connection list),
and a vertex whose last connection is removed is deleted by the same
operation, in both graph variants. The arena `create_beam` case assumes
the slotmap key freshness that the real slotmap provides by
construction, and the keyed deletion case assumes the key uniqueness the
`IndexMap` guarantees. -/
theorem C9_zero_degree_elimination :
    (∀ (B : Type) (g : Graph B) (va : VertexId) (pa : Option Vec3) (vb : VertexId)
        (pb : Option Vec3) (dat : B) (g' : Graph B),
      g.add_beam va pa vb pb dat = .ok g' → NoEmpty g → NoEmpty g') ∧
    (∀ (B : Type) (g : Graph B) (bid : BeamId) (g' : Graph B) (dat : B),
      g.remove_beam bid = .ok (g', dat) → NoEmpty g → NoEmpty g') ∧
    (∀ (ga : Arena.FrameGraph) (up_position down_position : Vec3),
      Arena.FreshKeys ga → Arena.NoEmpty ga →
      Arena.NoEmpty (ga.create_beam up_position down_position).1) ∧
    (∀ (ga : Arena.FrameGraph) (bid : Nat) (g' : Arena.FrameGraph) (tf : Bool),
      ga.remove_beam bid = .ok (g', tf) → Arena.NoEmpty ga → Arena.NoEmpty g') ∧
    (∀ (ga : Arena.FrameGraph) (fv iv : Nat) (g' : Arena.FrameGraph) (r : Option Nat),
      ga.merge_vertices fv iv = .ok (g', r) → Arena.NoEmpty ga → Arena.NoEmpty g') ∧
    (∀ (ga : Arena.FrameGraph) (v : Nat) (predicate : Arena.BeamEnd → Bool),
      Arena.NoEmpty ga → Arena.NoEmpty (ga.split_vertex v predicate).1) ∧
    (∀ (B : Type) (g : Graph B) (bid : BeamId) (g' : Graph B) (dat : B) (vert : Vertex),
      g.remove_beam bid = .ok (g', dat) → (g.vertices.map Prod.fst).Nodup →
      lookupA g.vertices bid.down = some vert → vert.connections.length = 1 →
      bid.down ∉ g'.vertices.map Prod.fst) ∧
    (∀ (ga : Arena.FrameGraph) (bid : Nat) (g' : Arena.FrameGraph) (tf : Bool)
        (beam : Arena.Beam) (up_vertex : Arena.Vertex),
      ga.remove_beam bid = .ok (g', tf) → ga.get_beam bid = some beam →
      ga.get_vertex beam.up = some up_vertex →
      up_vertex.connections = [⟨bid, .Up⟩] → g'.get_vertex beam.up = none) :=
  ⟨fun _ g va pa vb pb dat g' h hne => add_beam_preserves_NoEmpty g va pa vb pb dat g' h hne,
   fun _ g bid g' dat h hne => remove_beam_preserves_NoEmpty g bid g' dat h hne,
   fun ga up down hwf hne => create_beam_preserves_NoEmpty ga hwf up down hne,
   fun ga bid g' tf h hne => arena_remove_beam_preserves_NoEmpty ga bid g' tf h hne,
   fun ga fv iv g' r h hne => merge_vertices_preserves_NoEmpty ga fv iv g' r h hne,
   fun ga v p hne => split_vertex_preserves_NoEmpty ga v p hne,
   fun _ g bid g' dat vert h hnd hlk hone =>
     remove_beam_deletes_emptied g bid g' dat vert h hnd hlk hone,
   fun ga bid g' tf beam uv h hb hv hone =>
     arena_remove_beam_deletes_emptied ga bid g' tf beam uv h hb hv hone⟩

open Keyed in
/-- Witness for C9 at concrete inputs exercising all eight conjuncts. -/
theorem C9_zero_degree_elimination_witness :
    (exG1.add_beam 1 none 2 (some (2, 0, 0)) 8 = .ok exG2 ∧ NoEmpty exG1 ∧ NoEmpty exG2) ∧
    (exG1.remove_beam ⟨0, 1⟩ = .ok ((⟨[], []⟩ : Graph Nat), 7) ∧
      NoEmpty (⟨[], []⟩ : Graph Nat)) ∧
    (Arena.FreshKeys Arena.exA1 ∧ Arena.NoEmpty Arena.exA1 ∧
      Arena.NoEmpty (Arena.exA1.create_beam (5, 0, 0) (6, 0, 0)).1) ∧
    (Arena.exA1.remove_beam 0 = .ok (⟨⟨2, []⟩, ⟨1, []⟩⟩, true) ∧
      Arena.NoEmpty (⟨⟨2, []⟩, ⟨1, []⟩⟩ : Arena.FrameGraph)) ∧
    (Arena.exA2.merge_vertices 2 1 = .ok (Arena.exA2m, some 1) ∧
      Arena.NoEmpty Arena.exA2m) ∧
    (Arena.NoEmpty (Arena.exA2.split_vertex 0 (fun c => decide (c.beam = 0))).1) ∧
    ((⟨0, 1⟩ : BeamId).down ∉ (⟨[], []⟩ : Graph Nat).vertices.map Prod.fst) ∧
    ((⟨⟨2, []⟩, ⟨1, []⟩⟩ : Arena.FrameGraph).get_vertex 0 = none) :=
  ⟨⟨by decide, by decide,
     C9_zero_degree_elimination.1 Nat exG1 1 none 2 (some (2, 0, 0)) 8 exG2
       (by decide) (by decide)⟩,
   ⟨by decide,
     C9_zero_degree_elimination.2.1 Nat exG1 ⟨0, 1⟩ (⟨[], []⟩ : Graph Nat) 7
       (by decide) (by decide)⟩,
   ⟨by decide, by decide,
     C9_zero_degree_elimination.2.2.1 Arena.exA1 (5, 0, 0) (6, 0, 0)
       (by decide) (by decide)⟩,
   ⟨by decide,
     C9_zero_degree_elimination.2.2.2.1 Arena.exA1 0 ⟨⟨2, []⟩, ⟨1, []⟩⟩ true
       (by decide) (by decide)⟩,
   ⟨by decide,
     C9_zero_degree_elimination.2.2.2.2.1 Arena.exA2 2 1 Arena.exA2m (some 1)
       (by decide) (by decide)⟩,
   C9_zero_degree_elimination.2.2.2.2.2.1 Arena.exA2 0 (fun c => decide (c.beam = 0))
     (by decide),
   C9_zero_degree_elimination.2.2.2.2.2.2.1 Nat exG1 ⟨0, 1⟩ (⟨[], []⟩ : Graph Nat) 7
     ⟨(0, 0, 0), [⟨⟨0, 1⟩, .Down⟩]⟩ (by decide) (by decide) (by decide) (by decide),
   C9_zero_degree_elimination.2.2.2.2.2.2.2 Arena.exA1 0 ⟨⟨2, []⟩, ⟨1, []⟩⟩ true
     ⟨0, 1⟩ ⟨[⟨0, .Up⟩], (0, 0, 0)⟩ (by decide) (by decide) (by decide) (by decide)⟩

namespace Keyed

/-- The keyed example graph after joining vertices 0 and 2 with a beam. -/
def exG3 : Graph Nat :=
  ⟨[(0, ⟨(0, 0, 0), [⟨⟨0, 1⟩, .Down⟩, ⟨⟨0, 2⟩, .Down⟩]⟩),
    (1, ⟨(1, 0, 0), [⟨⟨0, 1⟩, .Up⟩, ⟨⟨1, 2⟩, .Down⟩]⟩),
    (2, ⟨(2, 0, 0), [⟨⟨1, 2⟩, .Up⟩, ⟨⟨0, 2⟩, .Up⟩]⟩)],
   [(⟨0, 1⟩, 7), (⟨1, 2⟩, 8), (⟨0, 2⟩, 9)]⟩

end Keyed

open Keyed in
/-- C5: incremental replication keeps an equal mirror in sync: when the
server performs `add_beam_extend` or `add_beam_join` successfully,
applying the emitted `FrameUpdate` to a client whose graph equals the
server's pre-edit graph succeeds and reproduces exactly the server's
post-edit graph. -/
theorem C5_replication_preserves_equality :
    (∀ (B : Type) (f : Server.ShipFrame B) (w : Server.FrameIdWorld) (ev : VertexId)
        (pos : Vec3) (dat : B) (f' : Server.ShipFrame B) (w' : Server.FrameIdWorld)
        (upd : FrameUpdate B) (c : Client.ShipFrame B),
      f.add_beam_extend w ev pos dat = .ok (f', w', upd) → c.graph = f.graph →
      ∃ c', c.apply_update upd = .ok c' ∧ c'.graph = f'.graph) ∧
    (∀ (B : Type) (f : Server.ShipFrame B) (va vb : VertexId) (dat : B)
        (f' : Server.ShipFrame B) (upd : FrameUpdate B) (c : Client.ShipFrame B),
      f.add_beam_join va vb dat = .ok (f', upd) → c.graph = f.graph →
      ∃ c', c.apply_update upd = .ok c' ∧ c'.graph = f'.graph) := by
  constructor
  · intro B f w ev pos dat f' w' upd c h hc
    rcases hadd : f.graph.add_beam ev none (w.next).1 (some pos) dat with e | g1
    · simp only [Server.ShipFrame.add_beam_extend, hadd] at h
      exact Except.noConfusion h
    · simp only [Server.ShipFrame.add_beam_extend, hadd, Except.ok.injEq,
        Prod.mk.injEq] at h
      obtain ⟨hf', _, hupd⟩ := h
      refine ⟨⟨g1⟩, ?_, by rw [← hf']⟩
      rw [← hupd]
      simp only [Client.ShipFrame.apply_update, hc, hadd]
      rfl
  · intro B f va vb dat f' upd c h hc
    rcases hadd : f.graph.add_beam va none vb none dat with e | g1
    · simp only [Server.ShipFrame.add_beam_join, hadd] at h
      exact Except.noConfusion h
    · simp only [Server.ShipFrame.add_beam_join, hadd, Except.ok.injEq,
        Prod.mk.injEq] at h
      obtain ⟨hf', hupd⟩ := h
      refine ⟨⟨g1⟩, ?_, by rw [← hf']⟩
      rw [← hupd]
      simp only [Client.ShipFrame.apply_update, hc, hadd]
      rfl

open Keyed in
/-- Witness for C5 at concrete server edits mirrored by a client. -/
theorem C5_replication_preserves_equality_witness :
    ((Server.ShipFrame.mk exG1).add_beam_extend ⟨2⟩ 1 (2, 0, 0) 8 =
        .ok (⟨exG2⟩, ⟨3⟩, .AddBeam 1 none 2 (some (2, 0, 0)) 8) ∧
      (Client.ShipFrame.mk exG1).graph = (Server.ShipFrame.mk exG1).graph ∧
      (∃ c', (Client.ShipFrame.mk exG1).apply_update
          (.AddBeam 1 none 2 (some (2, 0, 0)) 8) = .ok c' ∧
        c'.graph = (Server.ShipFrame.mk exG2).graph)) ∧
    ((Server.ShipFrame.mk exG2).add_beam_join 0 2 9 =
        .ok (⟨exG3⟩, .AddBeam 0 none 2 none 9) ∧
      (∃ c', (Client.ShipFrame.mk exG2).apply_update (.AddBeam 0 none 2 none 9) =
          .ok c' ∧ c'.graph = (Server.ShipFrame.mk exG3).graph)) :=
  ⟨⟨by decide, rfl,
     C5_replication_preserves_equality.1 Nat ⟨exG1⟩ ⟨2⟩ 1 (2, 0, 0) 8 ⟨exG2⟩ ⟨3⟩
       (.AddBeam 1 none 2 (some (2, 0, 0)) 8) ⟨exG1⟩ (by decide) rfl⟩,
   ⟨by decide,
     C5_replication_preserves_equality.2 Nat ⟨exG2⟩ 0 2 9 ⟨exG3⟩
       (.AddBeam 0 none 2 none 9) ⟨exG2⟩ (by decide) rfl⟩⟩

namespace Keyed

/-- Connection list stored for a vertex id ([] when the id is absent). -/
def connsIn (verts : List (VertexId × Vertex)) (v : VertexId) : List BeamEnd :=
  match lookupA verts v with
  | some vert => vert.connections
  | none => []

/-- The beam ends the deserialization pass contributes to vertex `v`,
one per beam whose canonical pair touches `v`. -/
def contrib {B : Type} (bs : List (BeamId × B)) (v : VertexId) : List BeamEnd :=
  bs.filterMap (fun p =>
    if p.1.down = v then some ⟨p.1, .Down⟩
    else if p.1.up = v then some ⟨p.1, .Up⟩
    else none)

end Keyed

open Keyed in
theorem setValA_map_pos {verts : List (VertexId × Vertex)} {k : VertexId}
    {vold : Vertex} (vnew : Vertex) (hl : lookupA verts k = some vold)
    (hpos : vnew.position = vold.position) :
    (setValA verts k vnew).map (fun p => (p.1, p.2.position)) =
      verts.map (fun p => (p.1, p.2.position)) := by
  induction verts with
  | nil => rfl
  | cons x t ih =>
    obtain ⟨a, b⟩ := x
    by_cases hak : a = k
    · subst hak
      have hb : b = vold := by simpa [lookupA] using hl
      subst hb
      simp [setValA, hpos]
    · simp only [lookupA, if_neg hak] at hl
      simp [setValA, hak, ih hl]

open Keyed in
theorem pushEnd_spec {verts : List (VertexId × Vertex)} {id : VertexId}
    {vert : Vertex} (c : BeamEnd) (hl : lookupA verts id = some vert) :
    pushEnd verts id c = .ok (setValA verts id
      { vert with connections := vert.connections ++ [c] }) := by
  simp [pushEnd, hl]

open Keyed in
theorem connsIn_setValA (verts : List (VertexId × Vertex)) {id : VertexId}
    {vert : Vertex} (c : BeamEnd) (hl : lookupA verts id = some vert) (v : VertexId) :
    connsIn (setValA verts id { vert with connections := vert.connections ++ [c] }) v =
      if id = v then connsIn verts v ++ [c] else connsIn verts v := by
  by_cases hv : id = v
  · subst hv
    have hmem : id ∈ verts.map Prod.fst := by
      rw [← lookupA_isSome_iff, hl]
      rfl
    simp [connsIn, lookupA_setValA_self _ hmem, hl]
  · simp [connsIn, lookupA_setValA_ne _ _ (Ne.symm hv), hv]

open Keyed in
theorem insertBeams_spec {B : Type} :
    ∀ (bs : List (BeamId × B)) (verts : List (VertexId × Vertex)) (acc : List (BeamId × B)),
      (∀ p ∈ bs, p.1.down ≠ p.1.up ∧ p.1.down ∈ verts.map Prod.fst ∧
        p.1.up ∈ verts.map Prod.fst) →
      (∀ k ∈ bs.map Prod.fst, k ∉ acc.map Prod.fst) →
      (bs.map Prod.fst).Nodup →
      ∃ verts', insertBeams verts acc bs = .ok (verts', acc ++ bs) ∧
        verts'.map (fun p => (p.1, p.2.position)) =
          verts.map (fun p => (p.1, p.2.position)) ∧
        ∀ v, connsIn verts' v = connsIn verts v ++ contrib bs v := by
  intro bs
  induction bs with
  | nil =>
    intro verts acc _ _ _
    exact ⟨verts, by simp [insertBeams], rfl, fun v => by simp [contrib]⟩
  | cons hd rest ih =>
    intro verts acc hok hfresh hnd
    obtain ⟨bid, dat⟩ := hd
    obtain ⟨hne0, hdownm0, hupm0⟩ := hok _ (List.mem_cons_self _ _)
    have hne : bid.down ≠ bid.up := hne0
    have hdownm : bid.down ∈ verts.map Prod.fst := hdownm0
    have hupm : bid.up ∈ verts.map Prod.fst := hupm0
    obtain ⟨vd, hvd⟩ := Option.isSome_iff_exists.mp ((lookupA_isSome_iff _ _).mpr hdownm)
    have hdv : bid.down_vertex = bid.down := rfl
    have hp1 := pushEnd_spec (⟨bid, .Down⟩ : BeamEnd) hvd
    -- the vertex table after the down push
    have hmapfst1 : (setValA verts bid.down
        { vd with connections := vd.connections ++ [⟨bid, .Down⟩] }).map Prod.fst =
        verts.map Prod.fst := setValA_map_fst _ _ _
    have hupm1 : bid.up ∈ (setValA verts bid.down
        { vd with connections := vd.connections ++ [⟨bid, .Down⟩] }).map Prod.fst := by
      rw [hmapfst1]
      exact hupm
    obtain ⟨vu, hvu⟩ := Option.isSome_iff_exists.mp ((lookupA_isSome_iff _ _).mpr hupm1)
    have hp2 := pushEnd_spec (⟨bid, .Up⟩ : BeamEnd) hvu
    set verts2 := setValA (setValA verts bid.down
      { vd with connections := vd.connections ++ [⟨bid, .Down⟩] }) bid.up
      { vu with connections := vu.connections ++ [⟨bid, .Up⟩] } with hverts2
    have hmapfst2 : verts2.map Prod.fst = verts.map Prod.fst := by
      rw [hverts2, setValA_map_fst, hmapfst1]
    -- the beam insert appends because the key is fresh for acc
    have hbfresh : lookupA acc bid = none := by
      rw [lookupA_eq_none_iff]
      exact hfresh bid (by simp)
    have hacc1 : (insertA acc bid dat).1 = acc ++ [(bid, dat)] :=
      insertA_fst_of_none hbfresh dat
    -- recursive call
    have hok' : ∀ p ∈ rest, p.1.down ≠ p.1.up ∧ p.1.down ∈ verts2.map Prod.fst ∧
        p.1.up ∈ verts2.map Prod.fst := by
      intro p hp
      obtain ⟨h1, h2, h3⟩ := hok p (List.mem_cons_of_mem _ hp)
      exact ⟨h1, by rw [hmapfst2]; exact h2, by rw [hmapfst2]; exact h3⟩
    have hfresh' : ∀ k ∈ rest.map Prod.fst, k ∉ (acc ++ [(bid, dat)]).map Prod.fst := by
      intro k hk
      simp only [List.map_append, List.mem_append, List.map_cons, List.map_nil,
        List.mem_singleton, not_or]
      refine ⟨hfresh k (by simp only [List.map_cons]; exact List.mem_cons_of_mem _ hk), ?_⟩
      intro hcon
      rw [hcon] at hk
      exact (List.nodup_cons.mp hnd).1 hk
    obtain ⟨verts', hrun, hpos, hconns⟩ :=
      ih verts2 (acc ++ [(bid, dat)]) hok' hfresh' (List.nodup_cons.mp hnd).2
    refine ⟨verts', ?_, ?_, ?_⟩
    · show insertBeams verts acc ((bid, dat) :: rest) = .ok (verts', acc ++ (bid, dat) :: rest)
      simp only [insertBeams, BeamId.down_vertex, BeamId.up_vertex, hp1, hp2, hacc1]
      rw [hrun]
      simp
    · rw [hpos, hverts2]
      rw [setValA_map_pos ({ vu with connections := vu.connections ++ [⟨bid, .Up⟩] }) hvu rfl,
        setValA_map_pos ({ vd with connections := vd.connections ++ [⟨bid, .Down⟩] }) hvd rfl]
    · intro v
      rw [hconns v, hverts2]
      rw [connsIn_setValA _ _ hvu, connsIn_setValA _ _ hvd]
      have hcontrib : contrib ((bid, dat) :: rest) v =
          (if bid.down = v then [(⟨bid, .Down⟩ : BeamEnd)]
            else if bid.up = v then [(⟨bid, .Up⟩ : BeamEnd)] else []) ++ contrib rest v := by
        by_cases h1 : bid.down = v
        · simp [contrib, h1]
        · by_cases h2 : bid.up = v <;> simp [contrib, h1, h2]
      rw [hcontrib]
      by_cases h1 : bid.down = v
      · have h2 : ¬bid.up = v := by
          rw [← h1]
          exact (Ne.symm hne)
        simp [h1, h2, List.append_assoc]
      · by_cases h2 : bid.up = v
        · simp [h1, h2, List.append_assoc]
        · simp [h1, h2]

open Keyed in
theorem insertVerts_spec :
    ∀ (l : List (VertexId × Vec3)) (acc : List (VertexId × Vertex)),
      (∀ k ∈ l.map Prod.fst, k ∉ acc.map Prod.fst) → (l.map Prod.fst).Nodup →
      insertVerts acc l = acc ++ l.map (fun q => (q.1, (⟨q.2, []⟩ : Vertex))) := by
  intro l
  induction l with
  | nil =>
    intro acc _ _
    simp [insertVerts]
  | cons hd rest ih =>
    intro acc hfresh hnd
    obtain ⟨id, pos⟩ := hd
    have hlk : lookupA acc id = none :=
      (lookupA_eq_none_iff _ _).mpr (hfresh id (by simp))
    have hfresh' : ∀ k ∈ rest.map Prod.fst,
        k ∉ (acc ++ [(id, (⟨pos, []⟩ : Vertex))]).map Prod.fst := by
      intro k hk
      simp only [List.map_append, List.mem_append, List.map_cons, List.map_nil,
        List.mem_singleton, not_or]
      constructor
      · exact hfresh k (by simp only [List.map_cons]; exact List.mem_cons_of_mem _ hk)
      · intro hcon
        rw [hcon] at hk
        exact (List.nodup_cons.mp hnd).1 hk
    simp only [insertVerts, insertA_fst_of_none hlk]
    rw [ih _ hfresh' (List.nodup_cons.mp hnd).2]
    simp

open Keyed in
/-- C6: serializing a well-formed graph and deserializing the snapshot
reproduces the graph: identical vertex ids and positions in identical
order, identical beam ids and payloads, and for every vertex id an equal
connection set. -/
theorem C6_serialization_roundtrip {B : Type} (g : Graph B) (hwf : WF g) :
    ∃ g', Graph.from_serialized (SerializedGraph.from_graph g) = .ok g' ∧
      g'.vertices.map (fun p => (p.1, p.2.position)) =
        g.vertices.map (fun p => (p.1, p.2.position)) ∧
      g'.beams = g.beams ∧
      (∀ v c, c ∈ connsIn g'.vertices v ↔ c ∈ connsIn g.vertices v) := by
  obtain ⟨hvn, hbn, hbeam, hvert, hdown, hup⟩ := hwf
  have hkeys1 : (g.vertices.map (fun p => (p.1, p.2.position))).map Prod.fst =
      g.vertices.map Prod.fst := by
    simp [List.map_map]
  have hpass1 : insertVerts [] (g.vertices.map (fun p => (p.1, p.2.position))) =
      g.vertices.map (fun p => (p.1, (⟨p.2.position, []⟩ : Vertex))) := by
    rw [insertVerts_spec _ [] (fun k _ => by simp) (by rw [hkeys1]; exact hvn)]
    simp [List.map_map]
  have hkeys0 : (g.vertices.map (fun p =>
      (p.1, (⟨p.2.position, []⟩ : Vertex)))).map Prod.fst = g.vertices.map Prod.fst := by
    simp [List.map_map]
  have hconns0 : ∀ v, connsIn (g.vertices.map (fun p =>
      (p.1, (⟨p.2.position, []⟩ : Vertex)))) v = [] := by
    intro v
    rcases hl : lookupA (g.vertices.map (fun p =>
        (p.1, (⟨p.2.position, []⟩ : Vertex)))) v with _ | vert
    · simp only [connsIn, hl]
    · obtain ⟨p, _, hpe⟩ := List.mem_map.mp (lookupA_mem hl)
      have hv : vert = ⟨p.2.position, []⟩ := by
        injection hpe with h1 h2
        exact h2.symm
      simp only [connsIn, hl, hv]
  obtain ⟨verts', hrun, hposm, hconns⟩ := insertBeams_spec g.beams
    (g.vertices.map (fun p => (p.1, (⟨p.2.position, []⟩ : Vertex)))) []
    (by
      intro p hp
      obtain ⟨hlt, hdm, hum⟩ := hbeam p hp
      exact ⟨Nat.ne_of_lt hlt, by rw [hkeys0]; exact hdm, by rw [hkeys0]; exact hum⟩)
    (fun k _ => by simp)
    hbn
  refine ⟨⟨verts', g.beams⟩, ?_, ?_, rfl, ?_⟩
  · simp only [Graph.from_serialized, SerializedGraph.from_graph, hpass1, hrun]
    rfl
  · rw [hposm]
    simp [List.map_map]
  · intro v c
    simp only
    rw [hconns v, hconns0 v]
    simp only [List.nil_append]
    constructor
    · intro hc
      obtain ⟨p, hp, hpe⟩ := List.mem_filterMap.mp hc
      by_cases hdv : p.1.down = v
      · rw [if_pos hdv] at hpe
        injection hpe with hpe
        obtain ⟨q, hq, hqk, hqc⟩ := hdown p hp
        have hlq : lookupA g.vertices v = some q.2 := by
          have hq' : (v, q.2) ∈ g.vertices := by
            have heq : q = (v, q.2) := by
              obtain ⟨q1, q2⟩ := q
              simp only at hqk ⊢
              rw [hqk, hdv]
            rw [← heq]
            exact hq
          exact lookupA_of_mem hq' hvn
        simp only [connsIn, hlq]
        rw [← hpe]
        exact hqc
      · rw [if_neg hdv] at hpe
        by_cases huv : p.1.up = v
        · rw [if_pos huv] at hpe
          injection hpe with hpe
          obtain ⟨q, hq, hqk, hqc⟩ := hup p hp
          have hlq : lookupA g.vertices v = some q.2 := by
            have hq' : (v, q.2) ∈ g.vertices := by
              have heq : q = (v, q.2) := by
                obtain ⟨q1, q2⟩ := q
                simp only at hqk ⊢
                rw [hqk, huv]
              rw [← heq]
              exact hq
            exact lookupA_of_mem hq' hvn
          simp only [connsIn, hlq]
          rw [← hpe]
          exact hqc
        · rw [if_neg huv] at hpe
          cases hpe
    · intro hc
      rcases hl : lookupA g.vertices v with _ | vert
      · simp only [connsIn, hl] at hc
        exact absurd hc (List.not_mem_nil c)
      · simp only [connsIn, hl] at hc
        have hmem : (v, vert) ∈ g.vertices := lookupA_mem hl
        obtain ⟨_, _, hsound⟩ := hvert _ hmem
        obtain ⟨hcb, hce⟩ := hsound c hc
        obtain ⟨dat, hdat⟩ : ∃ dat, (c.beam_id, dat) ∈ g.beams := by
          obtain ⟨p, hp, hpk⟩ := List.mem_map.mp hcb
          obtain ⟨p1, p2⟩ := p
          have hpk' : p1 = c.beam_id := hpk
          rw [← hpk']
          exact ⟨p2, hp⟩
        refine List.mem_filterMap.mpr ⟨(c.beam_id, dat), hdat, ?_⟩
        obtain ⟨cb, ce⟩ := c
        cases ce
        · -- Up end: the down endpoint differs from v by canonicity
          have hce' : cb.up = v := hce
          obtain ⟨hlt, _, _⟩ := hbeam _ hdat
          have hne : cb.down ≠ v := by
            intro hcon
            rw [← hce'] at hcon
            exact absurd hcon (Nat.ne_of_lt hlt)
          simp only [if_neg hne, if_pos hce']
        · have hce' : cb.down = v := hce
          simp only [if_pos hce']

open Keyed in
theorem C6_serialization_roundtrip_witness :
    WF exG1 ∧
    ∃ g', Graph.from_serialized (SerializedGraph.from_graph exG1) = .ok g' ∧
      g'.vertices.map (fun p => (p.1, p.2.position)) =
        exG1.vertices.map (fun p => (p.1, p.2.position)) ∧
      g'.beams = exG1.beams ∧
      (∀ v c, c ∈ connsIn g'.vertices v ↔ c ∈ connsIn exG1.vertices v) :=
  ⟨by decide, C6_serialization_roundtrip exG1 (by decide)⟩

open Arena in
/-- C10: when the start or the end anchor id is absent from the arena
graph, `try_split` returns the no-split outcome (the `None` return taken
through the early `?` operators on `get_vertex`) and the graph is left
unchanged; no panic and no distinct error is reported. -/
theorem C10_try_split_missing_anchor (g : FrameGraph) (d : Vec3 → Vec3 → ℚ)
    (fuel : Nat) (s e : Nat)
    (h : g.get_vertex s = none ∨ g.get_vertex e = none) :
    FrameGraph.try_split g d fuel s e = (.noSplit, g) := by
  rcases h with h | h
  · simp only [FrameGraph.try_split, h]
  · rcases hs : g.get_vertex s with _ | sv
    · simp only [FrameGraph.try_split, hs]
    · simp only [FrameGraph.try_split, hs, h]

theorem C10_try_split_missing_anchor_witness :
    (Arena.FrameGraph.get_vertex Arena.exA1 0 = none ∨
      Arena.FrameGraph.get_vertex Arena.exA1 999 = none) ∧
    Arena.FrameGraph.try_split Arena.exA1 (fun _ _ => 0) 5 0 999 =
      (.noSplit, Arena.exA1) :=
  ⟨Or.inr (by decide),
    C10_try_split_missing_anchor Arena.exA1 (fun _ _ => 0) 5 0 999
      (Or.inr (by decide))⟩

/-- C1: refuted on a concrete graph of two disconnected beams (vertices
0-1 and 2-3). With anchors 0 and 2 in different components the search
drains its frontier without reaching the goal and control enters the
split branch, but that branch is `todo!()` in the source
(src/src/lib.rs line 465), so `try_split` panics instead of extracting
the reachable component into a new graph. -/
theorem C1_split_branch_unimplemented :
    Arena.FrameGraph.try_split Arena.exA2 (fun _ _ => 0) 20 0 2 =
      (.panicTodo, Arena.exA2) := by decide

open Arena in
/-- C3: refuted. On the well-formed arena graph `exA2m` (vertex 1 joins
beams 0 and 1), splitting vertex 1 by the predicate selecting beam 1's
connection does create a new vertex 4 at vertex 1's position holding
exactly the selected connection, but the moved beam's stored up endpoint
is NOT rewritten: beam 1 still records vertex 1 (`Beam::get_vertex_mut`
is never called by `split_vertex`). The stale reference breaks the
graph: removing beam 1 afterwards hits the source's own
`expect("Vertex should contain a connection to the beam")`. -/
theorem C3_split_vertex_stale_endpoint :
    ∃ g', FrameGraph.split_vertex exA2m 1 (fun c => c.beam = 1) = (g', some (some 4)) ∧
      g'.vertices.get 4 = some ⟨[⟨1, .Up⟩], (1, 0, 0)⟩ ∧
      g'.beams.get 1 = some ⟨1, 3⟩ ∧
      g'.remove_beam 1 = .error "Vertex should contain a connection to the beam" := by
  refine ⟨(FrameGraph.split_vertex exA2m 1 (fun c => c.beam = 1)).1, ?_, ?_, ?_, ?_⟩ <;> decide

theorem lookupA_append_left {K V : Type} [DecidableEq K] {l1 : List (K × V)}
    (l2 : List (K × V)) {k : K} {v : V} (h : lookupA l1 k = some v) :
    lookupA (l1 ++ l2) k = some v := by
  induction l1 with
  | nil => cases h
  | cons x t ih =>
    obtain ⟨a, b⟩ := x
    by_cases hak : a = k
    · subst hak
      simpa [lookupA] using h
    · simp only [lookupA, List.cons_append, if_neg hak] at h ⊢
      exact ih h

theorem lookupA_inj_of_nodup_values {K V : Type} [DecidableEq K]
    {m : List (K × V)} (hv : (m.map Prod.snd).Nodup) {i j : K} {vi vj : V}
    (hi : lookupA m i = some vi) (hj : lookupA m j = some vj) (hvv : vi = vj) :
    i = j := by
  induction m with
  | nil => cases hi
  | cons x t ih =>
    obtain ⟨a, b⟩ := x
    simp only [List.map_cons, List.nodup_cons] at hv
    by_cases hai : a = i
    · subst hai
      by_cases haj : a = j
      · exact haj
      · exfalso
        have hvi : b = vi := by simpa [lookupA] using hi
        have hj1 : lookupA t j = some vj := by simpa [lookupA, haj] using hj
        refine hv.1 (List.mem_map.mpr ⟨(j, vj), lookupA_mem hj1, ?_⟩)
        rw [hvi, hvv]
    · by_cases haj : a = j
      · subst haj
        exfalso
        have hvj : b = vj := by simpa [lookupA] using hj
        have hi1 : lookupA t i = some vi := by simpa [lookupA, hai] using hi
        refine hv.1 (List.mem_map.mpr ⟨(i, vi), lookupA_mem hi1, ?_⟩)
        rw [hvj, ← hvv]
      · exact ih hv.2 (by simpa [lookupA, hai] using hi) (by simpa [lookupA, haj] using hj)

namespace Keyed.Server

/-- Memo table invariant of `map_frame`: keys and values are duplicate
free and every memoized value was allocated inside the window
`[lo, next_id)` of the advancing allocator. -/
def MemoWF (lo : Nat) (m : List (VertexId × VertexId)) (w : FrameIdWorld) : Prop :=
  lo ≤ w.next_id ∧ (m.map Prod.fst).Nodup ∧ (m.map Prod.snd).Nodup ∧
    ∀ p ∈ m, lo ≤ p.2 ∧ p.2 < w.next_id

theorem entryOrNext_spec (lo : Nat) (m : List (VertexId × VertexId))
    (w : FrameIdWorld) (id : VertexId) (hnw : w.next_id + 1 < U64)
    (hwf : MemoWF lo m w) :
    (∃ s, (entryOrNext m w id).2.1 = m ++ s) ∧
    lookupA (entryOrNext m w id).2.1 id = some (entryOrNext m w id).1 ∧
    MemoWF lo (entryOrNext m w id).2.1 (entryOrNext m w id).2.2 ∧
    w.next_id ≤ (entryOrNext m w id).2.2.next_id ∧
    (entryOrNext m w id).2.2.next_id ≤ w.next_id + 1 ∧
    (∀ k v, lookupA m k = some v → lookupA (entryOrNext m w id).2.1 k = some v) := by
  obtain ⟨hlo, hkn, hvn, hbound⟩ := hwf
  rcases hlk : lookupA m id with _ | nid
  · have hmod : (w.next_id + 1) % U64 = w.next_id + 1 := Nat.mod_eq_of_lt hnw
    have hnotin : id ∉ m.map Prod.fst := (lookupA_eq_none_iff m id).mp hlk
    have hres : entryOrNext m w id =
        (w.next_id, m ++ [(id, w.next_id)], ⟨w.next_id + 1⟩) := by
      simp only [entryOrNext, hlk, FrameIdWorld.next, hmod]
    clear hmod
    rw [hres]
    refine ⟨⟨[(id, w.next_id)], rfl⟩, ?_, ⟨?_, ?_, ?_, ?_⟩, ?_, ?_, ?_⟩
    · show lookupA (m ++ [(id, w.next_id)]) id = some w.next_id
      rw [lookupA_append_right _ hnotin]
      simp [lookupA]
    · show lo ≤ w.next_id + 1
      omega
    · show ((m ++ [(id, w.next_id)]).map Prod.fst).Nodup
      rw [List.map_append]
      refine List.Nodup.append hkn (by simp) ?_
      intro a ha hb
      simp only [List.map_cons, List.map_nil, List.mem_singleton] at hb
      subst hb
      exact hnotin ha
    · show ((m ++ [(id, w.next_id)]).map Prod.snd).Nodup
      rw [List.map_append]
      refine List.Nodup.append hvn (by simp) ?_
      intro a ha hb
      simp only [List.map_cons, List.map_nil, List.mem_singleton] at hb
      subst hb
      obtain ⟨p, hp, hpv⟩ := List.mem_map.mp ha
      have hlt := (hbound p hp).2
      rw [hpv] at hlt
      exact absurd hlt (lt_irrefl _)
    · intro p hp
      have hp2 : p ∈ m ++ [(id, w.next_id)] := hp
      show lo ≤ p.2 ∧ p.2 < w.next_id + 1
      rcases List.mem_append.mp hp2 with hp3 | hp3
      · have hb2 := hbound p hp3
        exact ⟨hb2.1, Nat.lt_succ_of_lt hb2.2⟩
      · simp only [List.mem_singleton] at hp3
        subst hp3
        exact ⟨hlo, Nat.lt_succ_self _⟩
    · show w.next_id ≤ w.next_id + 1
      exact Nat.le_succ _
    · show w.next_id + 1 ≤ w.next_id + 1
      exact le_refl _
    · intro k v hkv
      exact lookupA_append_left _ hkv
  · have hres : entryOrNext m w id = (nid, m, w) := by
      simp only [entryOrNext, hlk]
    rw [hres]
    exact ⟨⟨[], (List.append_nil m).symm⟩, hlk, ⟨hlo, hkn, hvn, hbound⟩, le_refl _,
      Nat.le_succ _, fun k v h => h⟩

theorem remapVertices_spec (lo : Nat) :
    ∀ (l : List (VertexId × Vec3)) (m : List (VertexId × VertexId)) (w : FrameIdWorld),
      w.next_id + l.length < U64 → MemoWF lo m w →
      (∃ s, (remapVertices w m l).2.1 = m ++ s) ∧
      MemoWF lo (remapVertices w m l).2.1 (remapVertices w m l).2.2 ∧
      w.next_id ≤ (remapVertices w m l).2.2.next_id ∧
      (remapVertices w m l).2.2.next_id ≤ w.next_id + l.length ∧
      (∀ k v, lookupA m k = some v → lookupA (remapVertices w m l).2.1 k = some v) ∧
      (∀ k, k ∈ l.map Prod.fst →
        (lookupA (remapVertices w m l).2.1 k).isSome = true) ∧
      (remapVertices w m l).1 =
        l.map (fun q => ((lookupA (remapVertices w m l).2.1 q.1).getD 0, q.2)) := by
  intro l
  induction l with
  | nil =>
    intro m w hnw hwf
    simp only [remapVertices]
    exact ⟨⟨[], (List.append_nil m).symm⟩, hwf, le_refl _, by simp,
      fun k v h => h, by simp, by simp⟩
  | cons hd rest ih =>
    intro m w hnw hwf
    obtain ⟨id, p⟩ := hd
    have hnw1 : w.next_id + 1 < U64 := by
      simp only [List.length_cons] at hnw
      omega
    obtain ⟨⟨s1, hs1⟩, hlk1, hwf1, hmono1, hbnd1, hpres1⟩ :=
      entryOrNext_spec lo m w id hnw1 hwf
    have hnwr : (entryOrNext m w id).2.2.next_id + rest.length < U64 := by
      simp only [List.length_cons] at hnw
      omega
    obtain ⟨⟨s2, hs2⟩, hwf2, hmono2, hbnd2, hpres2, hsome2, hmap2⟩ :=
      ih (entryOrNext m w id).2.1 (entryOrNext m w id).2.2 hnwr hwf1
    have hres : remapVertices w m ((id, p) :: rest) =
        (((entryOrNext m w id).1, p) ::
            (remapVertices (entryOrNext m w id).2.2 (entryOrNext m w id).2.1 rest).1,
          (remapVertices (entryOrNext m w id).2.2 (entryOrNext m w id).2.1 rest).2.1,
          (remapVertices (entryOrNext m w id).2.2 (entryOrNext m w id).2.1 rest).2.2) := by
      simp only [remapVertices]
    rw [hres]
    have hfin1 : lookupA
        (remapVertices (entryOrNext m w id).2.2 (entryOrNext m w id).2.1 rest).2.1 id =
        some (entryOrNext m w id).1 := hpres2 _ _ hlk1
    refine ⟨⟨s1 ++ s2, ?_⟩, hwf2, le_trans hmono1 hmono2, ?_, ?_, ?_, ?_⟩
    · show (remapVertices (entryOrNext m w id).2.2 (entryOrNext m w id).2.1 rest).2.1 =
        m ++ (s1 ++ s2)
      rw [hs2, hs1, List.append_assoc]
    · show (remapVertices (entryOrNext m w id).2.2 (entryOrNext m w id).2.1 rest).2.2.next_id ≤
        w.next_id + ((id, p) :: rest).length
      simp only [List.length_cons]
      omega
    · intro k v hkv
      exact hpres2 k v (hpres1 k v hkv)
    · intro k hk
      show (lookupA
        (remapVertices (entryOrNext m w id).2.2 (entryOrNext m w id).2.1 rest).2.1 k).isSome =
        true
      simp only [List.map_cons, List.mem_cons] at hk
      rcases hk with hk | hk
      · rw [hk, hfin1]
        rfl
      · exact hsome2 k hk
    · show ((entryOrNext m w id).1, p) ::
          (remapVertices (entryOrNext m w id).2.2 (entryOrNext m w id).2.1 rest).1 =
          ((id, p) :: rest).map (fun q =>
            ((lookupA (remapVertices (entryOrNext m w id).2.2
                (entryOrNext m w id).2.1 rest).2.1 q.1).getD 0, q.2))
      rw [List.map_cons, ← hmap2]
      simp only [hfin1, Option.getD_some]

theorem remapBeams_spec (lo : Nat) {B : Type} :
    ∀ (l : List (BeamId × B)) (m : List (VertexId × VertexId)) (w : FrameIdWorld),
      w.next_id + 2 * l.length < U64 → MemoWF lo m w →
      (∃ s, (remapBeams w m l).2.1 = m ++ s) ∧
      MemoWF lo (remapBeams w m l).2.1 (remapBeams w m l).2.2 ∧
      w.next_id ≤ (remapBeams w m l).2.2.next_id ∧
      (remapBeams w m l).2.2.next_id ≤ w.next_id + 2 * l.length ∧
      (∀ k v, lookupA m k = some v → lookupA (remapBeams w m l).2.1 k = some v) ∧
      (∀ k, (k ∈ l.map (fun q => q.1.vertices.1) ∨ k ∈ l.map (fun q => q.1.vertices.2)) →
        (lookupA (remapBeams w m l).2.1 k).isSome = true) ∧
      (remapBeams w m l).1 =
        l.map (fun q => (BeamId.from_vertices
          ((lookupA (remapBeams w m l).2.1 q.1.vertices.1).getD 0)
          ((lookupA (remapBeams w m l).2.1 q.1.vertices.2).getD 0), q.2)) := by
  intro l
  induction l with
  | nil =>
    intro m w hnw hwf
    simp only [remapBeams]
    exact ⟨⟨[], (List.append_nil m).symm⟩, hwf, le_refl _, by simp,
      fun k v h => h, by simp, by simp⟩
  | cons hd rest ih =>
    intro m w hnw hwf
    obtain ⟨id, dat⟩ := hd
    have hnw1 : w.next_id + 1 < U64 := by
      simp only [List.length_cons] at hnw
      omega
    obtain ⟨⟨s1, hs1⟩, hlkA, hwf1, hmono1, hbnd1, hpres1⟩ :=
      entryOrNext_spec lo m w id.vertices.1 hnw1 hwf
    have hnw2 : (entryOrNext m w id.vertices.1).2.2.next_id + 1 < U64 := by
      simp only [List.length_cons] at hnw
      omega
    obtain ⟨⟨s2, hs2⟩, hlkB, hwf2, hmono2, hbnd2, hpres2⟩ :=
      entryOrNext_spec lo (entryOrNext m w id.vertices.1).2.1
        (entryOrNext m w id.vertices.1).2.2 id.vertices.2 hnw2 hwf1
    have hnw3 : (entryOrNext (entryOrNext m w id.vertices.1).2.1
        (entryOrNext m w id.vertices.1).2.2 id.vertices.2).2.2.next_id +
        2 * rest.length < U64 := by
      simp only [List.length_cons] at hnw
      omega
    obtain ⟨⟨s3, hs3⟩, hwf3, hmono3, hbnd3, hpres3, hsome3, hmap3⟩ :=
      ih (entryOrNext (entryOrNext m w id.vertices.1).2.1
          (entryOrNext m w id.vertices.1).2.2 id.vertices.2).2.1
        (entryOrNext (entryOrNext m w id.vertices.1).2.1
          (entryOrNext m w id.vertices.1).2.2 id.vertices.2).2.2 hnw3 hwf2
    have hres : remapBeams w m ((id, dat) :: rest) =
        ((BeamId.from_vertices (entryOrNext m w id.vertices.1).1
            (entryOrNext (entryOrNext m w id.vertices.1).2.1
              (entryOrNext m w id.vertices.1).2.2 id.vertices.2).1, dat) ::
            (remapBeams (entryOrNext (entryOrNext m w id.vertices.1).2.1
                (entryOrNext m w id.vertices.1).2.2 id.vertices.2).2.2
              (entryOrNext (entryOrNext m w id.vertices.1).2.1
                (entryOrNext m w id.vertices.1).2.2 id.vertices.2).2.1 rest).1,
          (remapBeams (entryOrNext (entryOrNext m w id.vertices.1).2.1
              (entryOrNext m w id.vertices.1).2.2 id.vertices.2).2.2
            (entryOrNext (entryOrNext m w id.vertices.1).2.1
              (entryOrNext m w id.vertices.1).2.2 id.vertices.2).2.1 rest).2.1,
          (remapBeams (entryOrNext (entryOrNext m w id.vertices.1).2.1
              (entryOrNext m w id.vertices.1).2.2 id.vertices.2).2.2
            (entryOrNext (entryOrNext m w id.vertices.1).2.1
              (entryOrNext m w id.vertices.1).2.2 id.vertices.2).2.1 rest).2.2) := by
      simp only [remapBeams]
    rw [hres]
    have hfinA : lookupA (remapBeams (entryOrNext (entryOrNext m w id.vertices.1).2.1
        (entryOrNext m w id.vertices.1).2.2 id.vertices.2).2.2
        (entryOrNext (entryOrNext m w id.vertices.1).2.1
          (entryOrNext m w id.vertices.1).2.2 id.vertices.2).2.1 rest).2.1 id.vertices.1 =
        some (entryOrNext m w id.vertices.1).1 :=
      hpres3 _ _ (hpres2 _ _ hlkA)
    have hfinB : lookupA (remapBeams (entryOrNext (entryOrNext m w id.vertices.1).2.1
        (entryOrNext m w id.vertices.1).2.2 id.vertices.2).2.2
        (entryOrNext (entryOrNext m w id.vertices.1).2.1
          (entryOrNext m w id.vertices.1).2.2 id.vertices.2).2.1 rest).2.1 id.vertices.2 =
        some (entryOrNext (entryOrNext m w id.vertices.1).2.1
          (entryOrNext m w id.vertices.1).2.2 id.vertices.2).1 :=
      hpres3 _ _ hlkB
    refine ⟨⟨s1 ++ (s2 ++ s3), ?_⟩, hwf3, le_trans hmono1 (le_trans hmono2 hmono3),
      ?_, ?_, ?_, ?_⟩
    · show (remapBeams (entryOrNext (entryOrNext m w id.vertices.1).2.1
          (entryOrNext m w id.vertices.1).2.2 id.vertices.2).2.2
          (entryOrNext (entryOrNext m w id.vertices.1).2.1
            (entryOrNext m w id.vertices.1).2.2 id.vertices.2).2.1 rest).2.1 =
        m ++ (s1 ++ (s2 ++ s3))
      rw [hs3, hs2, hs1, List.append_assoc, List.append_assoc]
    · show (remapBeams (entryOrNext (entryOrNext m w id.vertices.1).2.1
          (entryOrNext m w id.vertices.1).2.2 id.vertices.2).2.2
          (entryOrNext (entryOrNext m w id.vertices.1).2.1
            (entryOrNext m w id.vertices.1).2.2 id.vertices.2).2.1 rest).2.2.next_id ≤
        w.next_id + 2 * ((id, dat) :: rest).length
      simp only [List.length_cons]
      omega
    · intro k v hkv
      exact hpres3 k v (hpres2 k v (hpres1 k v hkv))
    · intro k hk
      show (lookupA (remapBeams (entryOrNext (entryOrNext m w id.vertices.1).2.1
          (entryOrNext m w id.vertices.1).2.2 id.vertices.2).2.2
          (entryOrNext (entryOrNext m w id.vertices.1).2.1
            (entryOrNext m w id.vertices.1).2.2 id.vertices.2).2.1 rest).2.1 k).isSome = true
      simp only [List.map_cons, List.mem_cons] at hk
      rcases hk with (hk | hk) | (hk | hk)
      · rw [hk, hfinA]
        rfl
      · exact hsome3 k (Or.inl hk)
      · rw [hk, hfinB]
        rfl
      · exact hsome3 k (Or.inr hk)
    · show (BeamId.from_vertices (entryOrNext m w id.vertices.1).1
          (entryOrNext (entryOrNext m w id.vertices.1).2.1
            (entryOrNext m w id.vertices.1).2.2 id.vertices.2).1, dat) ::
          (remapBeams (entryOrNext (entryOrNext m w id.vertices.1).2.1
              (entryOrNext m w id.vertices.1).2.2 id.vertices.2).2.2
            (entryOrNext (entryOrNext m w id.vertices.1).2.1
              (entryOrNext m w id.vertices.1).2.2 id.vertices.2).2.1 rest).1 =
          ((id, dat) :: rest).map (fun q => (BeamId.from_vertices
            ((lookupA (remapBeams (entryOrNext (entryOrNext m w id.vertices.1).2.1
                (entryOrNext m w id.vertices.1).2.2 id.vertices.2).2.2
              (entryOrNext (entryOrNext m w id.vertices.1).2.1
                (entryOrNext m w id.vertices.1).2.2 id.vertices.2).2.1 rest).2.1
              q.1.vertices.1).getD 0)
            ((lookupA (remapBeams (entryOrNext (entryOrNext m w id.vertices.1).2.1
                (entryOrNext m w id.vertices.1).2.2 id.vertices.2).2.2
              (entryOrNext (entryOrNext m w id.vertices.1).2.1
                (entryOrNext m w id.vertices.1).2.2 id.vertices.2).2.1 rest).2.1
              q.1.vertices.2).getD 0), q.2))
      rw [List.map_cons, ← hmap3]
      simp only [hfinA, hfinB, Option.getD_some]

/-- All vertex ids appearing in a serialized fragment: the vertex list
keys followed by both endpoints of every beam id. -/
def fragIds {B : Type} (g : SerializedGraph B) : List VertexId :=
  g.vertices.map Prod.fst ++
    (g.beams.map (fun q => q.1.vertices.1) ++ g.beams.map (fun q => q.1.vertices.2))

end Keyed.Server

open Keyed Keyed.Server in
/-- C4: spec-modelled. Under the no-overflow hypothesis on the `u64`
allocator counter, `map_frame` maps every distinct vertex id of the
fragment through one memoized assignment `f` of allocator-issued ids
(so repeated appearances reuse the same fresh id), recomputes every beam
id as `BeamId::from_vertices` of the remapped endpoint pair instead of
copying it, feeds the `f`-renamed fragment (same list order, same
positions and payloads) to the deserializer, and `f` is injective on the
fragment's ids with every assigned id at least the allocator's old
`next_id` (so no previously issued id — in particular none in any graph
built earlier from this allocator — is reused) and below the returned
allocator's `next_id`. -/
theorem C4_map_frame_remap {B : Type} (w : FrameIdWorld) (g : SerializedGraph B)
    (hnw : w.next_id + (g.vertices.length + 2 * g.beams.length) < U64) :
    ∃ (w2 : FrameIdWorld) (f : VertexId → VertexId),
      w.map_frame g =
        (w2, (Graph.from_serialized
          ⟨g.vertices.map (fun q => (f q.1, q.2)),
           g.beams.map (fun q =>
             (BeamId.from_vertices (f q.1.vertices.1) (f q.1.vertices.2), q.2))⟩).map
          (fun gg => (⟨gg⟩ : Server.ShipFrame B))) ∧
      (∀ i ∈ fragIds g, ∀ j ∈ fragIds g, f i = f j → i = j) ∧
      (∀ i ∈ fragIds g, w.next_id ≤ f i ∧ f i < w2.next_id) ∧
      w.next_id ≤ w2.next_id := by
  have hwf0 : MemoWF w.next_id [] w := ⟨le_refl _, by simp, by simp, by simp⟩
  have hnwv : w.next_id + g.vertices.length < U64 := by omega
  obtain ⟨⟨s1, hs1⟩, hwf1, hmono1, hbnd1, hpres1, hsome1, hmap1⟩ :=
    remapVertices_spec w.next_id g.vertices [] w hnwv hwf0
  have hnwb : (remapVertices w [] g.vertices).2.2.next_id + 2 * g.beams.length < U64 := by
    omega
  obtain ⟨⟨s2, hs2⟩, hwf2, hmono2, hbnd2, hpres2, hsome2, hmap2⟩ :=
    remapBeams_spec w.next_id g.beams (remapVertices w [] g.vertices).2.1
      (remapVertices w [] g.vertices).2.2 hnwb hwf1
  have hsome_frag : ∀ i ∈ fragIds g,
      (lookupA (remapBeams (remapVertices w [] g.vertices).2.2
        (remapVertices w [] g.vertices).2.1 g.beams).2.1 i).isSome = true := by
    intro i hi
    simp only [fragIds, List.mem_append] at hi
    rcases hi with hi | hi | hi
    · obtain ⟨v, hv⟩ := Option.isSome_iff_exists.mp (hsome1 i hi)
      rw [hpres2 _ _ hv]
      rfl
    · exact hsome2 i (Or.inl hi)
    · exact hsome2 i (Or.inr hi)
  refine ⟨(remapBeams (remapVertices w [] g.vertices).2.2
      (remapVertices w [] g.vertices).2.1 g.beams).2.2,
    fun i => (lookupA (remapBeams (remapVertices w [] g.vertices).2.2
      (remapVertices w [] g.vertices).2.1 g.beams).2.1 i).getD 0, ?_, ?_, ?_, ?_⟩
  · have hv2 : (remapVertices w [] g.vertices).1 =
        g.vertices.map (fun q => ((lookupA (remapBeams (remapVertices w [] g.vertices).2.2
          (remapVertices w [] g.vertices).2.1 g.beams).2.1 q.1).getD 0, q.2)) := by
      rw [hmap1]
      apply List.map_congr_left
      intro q hq
      have hq1 : q.1 ∈ g.vertices.map Prod.fst := List.mem_map.mpr ⟨q, hq, rfl⟩
      obtain ⟨v, hv⟩ := Option.isSome_iff_exists.mp (hsome1 q.1 hq1)
      rw [hv, hpres2 _ _ hv]
    simp only [FrameIdWorld.map_frame]
    rw [hv2, hmap2]
  · intro i hi j hj hij
    obtain ⟨vi, hvi⟩ := Option.isSome_iff_exists.mp (hsome_frag i hi)
    obtain ⟨vj, hvj⟩ := Option.isSome_iff_exists.mp (hsome_frag j hj)
    have hvv : vi = vj := by
      simp only [hvi, hvj, Option.getD_some] at hij
      exact hij
    exact lookupA_inj_of_nodup_values hwf2.2.2.1 hvi hvj hvv
  · intro i hi
    obtain ⟨v, hv⟩ := Option.isSome_iff_exists.mp (hsome_frag i hi)
    have hb := hwf2.2.2.2 _ (lookupA_mem hv)
    have hb2 : w.next_id ≤ v ∧ v < (remapBeams (remapVertices w [] g.vertices).2.2
        (remapVertices w [] g.vertices).2.1 g.beams).2.2.next_id := hb
    simp only [hv, Option.getD_some]
    exact hb2
  · exact le_trans hmono1 hmono2

namespace Keyed

/-- Concrete serialized fragment used as the `map_frame` witness input. -/
def exS4 : SerializedGraph Nat := ⟨[(5, (0, 0, 0)), (9, (1, 0, 0))], [(⟨5, 9⟩, 7)]⟩

end Keyed

open Keyed Keyed.Server in
theorem C4_map_frame_remap_witness :
    ((⟨100⟩ : FrameIdWorld).next_id +
      (exS4.vertices.length + 2 * exS4.beams.length) < U64) ∧
    (∃ (w2 : FrameIdWorld) (f : VertexId → VertexId),
      (⟨100⟩ : FrameIdWorld).map_frame exS4 =
        (w2, (Graph.from_serialized
          ⟨exS4.vertices.map (fun q => (f q.1, q.2)),
           exS4.beams.map (fun q =>
             (BeamId.from_vertices (f q.1.vertices.1) (f q.1.vertices.2), q.2))⟩).map
          (fun gg => (⟨gg⟩ : Server.ShipFrame Nat))) ∧
      (∀ i ∈ fragIds exS4, ∀ j ∈ fragIds exS4, f i = f j → i = j) ∧
      (∀ i ∈ fragIds exS4, (⟨100⟩ : FrameIdWorld).next_id ≤ f i ∧ f i < w2.next_id) ∧
      (⟨100⟩ : FrameIdWorld).next_id ≤ w2.next_id) :=
  ⟨by decide, C4_map_frame_remap ⟨100⟩ exS4 (by decide)⟩


theorem swap_head_perm {α : Type} (t : List α) (m : Nat) (a b : α)
    (hm : t.get? m = some b) : (b :: t.set m a).Perm (a :: t) := by
  have hml : m < t.length := by
    by_contra hge
    rw [List.get?_eq_none.mpr (by omega)] at hm
    exact Option.noConfusion hm
  have hb : t[m] = b := by
    have h2 := List.get?_eq_get hml
    rw [hm] at h2
    exact (Option.some.inj h2).symm
  have hdecomp : t = t.take m ++ b :: t.drop (m + 1) := by
    conv_lhs => rw [← List.take_append_drop m t]
    rw [List.drop_eq_getElem_cons hml, hb]
  have hset : t.set m a = t.take m ++ a :: t.drop (m + 1) :=
    List.set_eq_take_cons_drop a hml
  rw [hset]
  conv_rhs => rw [hdecomp]
  refine (List.Perm.cons b List.perm_middle).trans ?_
  refine (List.Perm.swap a b _).trans ?_
  exact List.Perm.cons a List.perm_middle.symm

theorem swap_set_perm {α : Type} :
    ∀ (l : List α) (i j : Nat) (a b : α), i < j → l.get? i = some a →
      l.get? j = some b → ((l.set i b).set j a).Perm l := by
  intro l
  induction l with
  | nil =>
    intro i j a b _ hi _
    cases hi
  | cons x t ih =>
    intro i j a b hij hi hj
    rcases i with _ | k
    · rcases j with _ | m
      · exact absurd hij (by omega)
      · have hx : x = a := Option.some.inj hi
        have hjm : t.get? m = some b := hj
        subst hx
        show (b :: t.set m x).Perm (x :: t)
        exact swap_head_perm t m x b hjm
    · rcases j with _ | m
      · exact absurd hij (by omega)
      · have hik : t.get? k = some a := hi
        have hjm : t.get? m = some b := hj
        show (x :: (t.set k b).set m a).Perm (x :: t)
        exact List.Perm.cons x (ih k m a b (by omega) hik hjm)

open Arena in
theorem siftDownGo_perm : ∀ (fuel : Nat) (heap : List QueueItem) (i : Nat),
    (siftDownGo fuel heap i).Perm heap := by
  intro fuel
  induction fuel with
  | zero =>
    intro heap i
    exact List.Perm.refl _
  | succ fuel ih =>
    intro heap i
    rcases hp : heap.get? i with _ | parent
    · have hres : siftDownGo (fuel + 1) heap i = heap := by
        simp only [siftDownGo, hp]
      rw [hres]
    · rcases hl : heap.get? (i * 2 + 1) with _ | lc
      · rcases hr : heap.get? (i * 2 + 2) with _ | rc
        · have hres : siftDownGo (fuel + 1) heap i = heap := by
            simp only [siftDownGo, hp, hl, hr]
          rw [hres]
        · by_cases hcmp : parent.f < rc.f
          · have hres : siftDownGo (fuel + 1) heap i =
                siftDownGo fuel ((heap.set i rc).set (i * 2 + 2) parent) (i * 2 + 2) := by
              simp only [siftDownGo, hp, hl, hr, if_pos hcmp]
            rw [hres]
            exact (ih _ _).trans (swap_set_perm heap i (i * 2 + 2) parent rc
              (by omega) hp hr)
          · have hres : siftDownGo (fuel + 1) heap i = heap := by
              simp only [siftDownGo, hp, hl, hr, if_neg hcmp]
            rw [hres]
      · by_cases hcmp : parent.f < lc.f
        · have hres : siftDownGo (fuel + 1) heap i =
              siftDownGo fuel ((heap.set i lc).set (i * 2 + 1) parent) (i * 2 + 1) := by
            simp only [siftDownGo, hp, hl, if_pos hcmp]
          rw [hres]
          exact (ih _ _).trans (swap_set_perm heap i (i * 2 + 1) parent lc
            (by omega) hp hl)
        · rcases hr : heap.get? (i * 2 + 2) with _ | rc
          · have hres : siftDownGo (fuel + 1) heap i = heap := by
              simp only [siftDownGo, hp, hl, hr, if_neg hcmp]
            rw [hres]
          · by_cases hcmp2 : parent.f < rc.f
            · have hres : siftDownGo (fuel + 1) heap i =
                  siftDownGo fuel ((heap.set i rc).set (i * 2 + 2) parent) (i * 2 + 2) := by
                simp only [siftDownGo, hp, hl, hr, if_neg hcmp, if_pos hcmp2]
              rw [hres]
              exact (ih _ _).trans (swap_set_perm heap i (i * 2 + 2) parent rc
                (by omega) hp hr)
            · have hres : siftDownGo (fuel + 1) heap i = heap := by
                simp only [siftDownGo, hp, hl, hr, if_neg hcmp, if_neg hcmp2]
              rw [hres]

open Arena in
theorem siftUpGo_perm : ∀ (fuel : Nat) (heap : List QueueItem) (i : Nat),
    (siftUpGo fuel heap i).Perm heap := by
  intro fuel
  induction fuel with
  | zero =>
    intro heap i
    exact List.Perm.refl _
  | succ fuel ih =>
    intro heap i
    by_cases h0 : i = 0
    · have hres : siftUpGo (fuel + 1) heap i = heap := by
        simp only [siftUpGo, if_pos h0]
      rw [hres]
    · rcases hc : heap.get? i with _ | child
      · have hres : siftUpGo (fuel + 1) heap i = heap := by
          simp only [siftUpGo, if_neg h0, hc]
        rw [hres]
      · rcases hpq : heap.get? ((i - 1) / 2) with _ | parent
        · have hres : siftUpGo (fuel + 1) heap i = heap := by
            simp only [siftUpGo, if_neg h0, hc, hpq]
          rw [hres]
        · by_cases hcmp : child.f < parent.f
          · have hres : siftUpGo (fuel + 1) heap i =
                siftUpGo fuel ((heap.set i parent).set ((i - 1) / 2) child)
                  ((i - 1) / 2) := by
              simp only [siftUpGo, if_neg h0, hc, hpq, if_pos hcmp]
            rw [hres]
            refine (ih _ _).trans ?_
            have hlt : (i - 1) / 2 < i := by
              have := Nat.div_le_self (i - 1) 2
              omega
            rw [List.set_comm parent child heap (Ne.symm (Nat.ne_of_lt hlt))]
            exact swap_set_perm heap ((i - 1) / 2) i parent child hlt hpq hc
          · have hres : siftUpGo (fuel + 1) heap i = heap := by
              simp only [siftUpGo, if_neg h0, hc, hpq, if_neg hcmp]
            rw [hres]

theorem dropLast_append_getLast_of_some {α : Type} :
    ∀ (l : List α) (a : α), l.getLast? = some a → l.dropLast ++ [a] = l := by
  intro l
  induction l with
  | nil =>
    intro a h
    cases h
  | cons x t ih =>
    intro a h
    cases t with
    | nil =>
      have hx : x = a := by simpa using h
      subst hx
      rfl
    | cons y t2 =>
      have h2 : (y :: t2).getLast? = some a := by
        rw [← h]
        rfl
      show x :: (y :: t2).dropLast ++ [a] = x :: y :: t2
      rw [List.cons_append, ih a h2]

open Arena in
theorem popRestore_perm (heap : List QueueItem) (x : QueueItem)
    (hx : heap.head? = some x) : (x :: popRestore heap).Perm heap := by
  cases heap with
  | nil => cases hx
  | cons h t =>
    have hhx : h = x := Option.some.inj hx
    subst hhx
    cases t with
    | nil =>
      have hres : popRestore [h] = [] := rfl
      rw [hres]
    | cons y t2 =>
      rcases hL : (h :: y :: t2).getLast? with _ | last
      · simp at hL
      · have hres : popRestore (h :: y :: t2) =
            siftDown ((h :: (y :: t2).dropLast).set 0 last) 0 := by
          simp only [popRestore, hL]
          rfl
        rw [hres]
        have hset : (h :: (y :: t2).dropLast).set 0 last = last :: (y :: t2).dropLast := rfl
        rw [hset]
        refine List.Perm.cons h ((siftDownGo_perm _ _ _).trans ?_)
        have hLt : (y :: t2).getLast? = some last := by
          rw [← hL]
          rfl
        have htd : (y :: t2).dropLast ++ [last] = y :: t2 :=
          dropLast_append_getLast_of_some _ _ hLt
        conv_rhs => rw [← htd]
        exact (List.perm_append_singleton last _).symm

namespace Arena

/-- Connection list of a vertex id (empty when absent). -/
def connsOf (g : FrameGraph) (v : Nat) : List BeamEnd :=
  match g.get_vertex v with
  | some vert => vert.connections
  | none => []

/-- Position of a vertex id (origin when absent). -/
def posOf (g : FrameGraph) (v : Nat) : Vec3 :=
  match g.get_vertex v with
  | some vert => vert.position
  | none => (0, 0, 0)

/-- The neighbor reached through one connection, as enumerated by the
search loop: the connected beam's endpoint opposite to the connection's
direction. -/
def oppOf (g : FrameGraph) (c : BeamEnd) : Option Nat :=
  match g.get_beam c.beam with
  | some beam => some (beam.get_vertex c.end_.opposite)
  | none => none

/-- One traversal step of the search: `v` is a neighbor enumerated from
one of `u`'s connections. -/
def stepTo (g : FrameGraph) (u v : Nat) : Prop :=
  ∃ c ∈ connsOf g u, oppOf g c = some v

/-- Cost of a vertex path: the sum of `d` over consecutive positions. -/
def pathCost (g : FrameGraph) (d : Vec3 → Vec3 → ℚ) : List Nat → ℚ
  | a :: b :: r => d (posOf g a) (posOf g b) + pathCost g d (b :: r)
  | _ => 0

/-- Vertex ids stored in the arena graph. -/
def vertexKeysA (g : FrameGraph) : List Nat := g.vertices.entries.map Prod.fst

/-- Current best cost of a vertex (`f32::MAX` when untracked). -/
def bestOr (bc : List (Nat × ℚ)) (v : Nat) : ℚ := (lookupA bc v).getD fMAX

/-- Candidate vertex sequences over the graph's vertex ids; every
duplicate free sequence of stored vertices occurs among them. -/
def candPaths (g : FrameGraph) : List (List Nat) :=
  (vertexKeysA g).sublists.flatMap List.permutations

/-- The finite set of candidate path costs; every cost the search ever
stores lies in it. -/
def costSet (g : FrameGraph) (d : Vec3 → Vec3 → ℚ) : Finset ℚ :=
  ((candPaths g).map (pathCost g d)).toFinset

/-- A path witnessing a stored best cost: an adjacency chain of pairwise
distinct tracked vertices from the start anchor whose cost equals the
stored value, and each of whose prefixes costs at least its endpoint's
stored value. -/
def GoodPath (g : FrameGraph) (d : Vec3 → Vec3 → ℚ) (s : Nat)
    (bc : List (Nat × ℚ)) (P : List Nat) (v : Nat) (b : ℚ) : Prop :=
  P.Chain' (stepTo g) ∧ P.Nodup ∧ P.head? = some s ∧ P.getLast? = some v ∧
    pathCost g d P = b ∧ (∀ x ∈ P, ∃ bx, lookupA bc x = some bx) ∧
    (∀ n x bx, 0 < n → n ≤ P.length → (P.take n).getLast? = some x →
      lookupA bc x = some bx → bx ≤ pathCost g d (P.take n))

/-- Search well-formedness: every stored connection resolves to a stored
beam whose opposite endpoint is a stored vertex. -/
def SearchWF (g : FrameGraph) : Prop :=
  ∀ p ∈ g.vertices.entries, ∀ c ∈ p.2.connections,
    ∃ beam, g.get_beam c.beam = some beam ∧
      (g.get_vertex (beam.get_vertex c.end_.opposite)).isSome = true

/-- Loop invariant of the `try_split` search. -/
structure Inv (g : FrameGraph) (d : Vec3 → Vec3 → ℚ) (s e : Nat)
    (st : SearchState) : Prop where
  s_keyed : ∃ b, lookupA st.best_costs s = some b
  keys_vert : ∀ p ∈ st.best_costs, (g.get_vertex p.1).isSome = true
  keys_nodup : (st.best_costs.map Prod.fst).Nodup
  heap_vert : ∀ i ∈ st.heap, (g.get_vertex i.vertex_id).isSome = true
  heap_keyed : ∀ i ∈ st.heap, ∃ b, lookupA st.best_costs i.vertex_id = some b
  heap_bound : ∀ i ∈ st.heap, ∀ b, lookupA st.best_costs i.vertex_id = some b →
    b ≤ i.cost
  path_inv : ∀ p ∈ st.best_costs, ∃ P, GoodPath g d s st.best_costs P p.1 p.2
  live : ∀ p ∈ st.best_costs,
    (∃ i ∈ st.heap, i.vertex_id = p.1 ∧ i.cost = p.2) ∨
    (p.1 ≠ e ∧ ∀ c ∈ connsOf g p.1, ∀ v, oppOf g c = some v →
      ∃ b, lookupA st.best_costs v = some b)

/-- Termination measure of the search loop. -/
def measureM (g : FrameGraph) (d : Vec3 → Vec3 → ℚ) (st : SearchState) : Nat :=
  (∑ v ∈ (vertexKeysA g).toFinset,
    ((costSet g d).filter (fun q => q < bestOr st.best_costs v)).card) +
    st.heap.length

end Arena

open Arena in
theorem pathCost_nonneg (g : FrameGraph) (d : Vec3 → Vec3 → ℚ)
    (hd : ∀ a b, 0 ≤ d a b) : ∀ P : List Nat, 0 ≤ pathCost g d P := by
  intro P
  induction P with
  | nil => exact le_refl 0
  | cons a t ih =>
    cases t with
    | nil => exact le_refl 0
    | cons b r =>
      show 0 ≤ d (posOf g a) (posOf g b) + pathCost g d (b :: r)
      have h1 := hd (posOf g a) (posOf g b)
      linarith

open Arena in
theorem pathCost_append_last (g : FrameGraph) (d : Vec3 → Vec3 → ℚ) :
    ∀ (P : List Nat) (u v : Nat), P.getLast? = some u →
      pathCost g d (P ++ [v]) = pathCost g d P + d (posOf g u) (posOf g v) := by
  intro P
  induction P with
  | nil =>
    intro u v h
    cases h
  | cons a t ih =>
    intro u v h
    cases t with
    | nil =>
      have hau : a = u := by simpa using h
      subst hau
      show d (posOf g a) (posOf g v) + 0 = 0 + d (posOf g a) (posOf g v)
      ring
    | cons b r =>
      have h2 : (b :: r).getLast? = some u := by
        rw [← h]
        rfl
      show d (posOf g a) (posOf g b) + pathCost g d ((b :: r) ++ [v]) =
        (d (posOf g a) (posOf g b) + pathCost g d (b :: r)) + d (posOf g u) (posOf g v)
      rw [ih u v h2]
      ring

open Arena in
theorem pathCost_take_le (g : FrameGraph) (d : Vec3 → Vec3 → ℚ)
    (hd : ∀ a b, 0 ≤ d a b) :
    ∀ (P : List Nat) (n : Nat), pathCost g d (P.take n) ≤ pathCost g d P := by
  intro P
  induction P with
  | nil =>
    intro n
    simp [pathCost]
  | cons a t ih =>
    intro n
    cases n with
    | zero => exact pathCost_nonneg g d hd (a :: t)
    | succ m =>
      cases t with
      | nil =>
        cases m <;> exact le_refl _
      | cons b r =>
        cases m with
        | zero =>
          show pathCost g d [a] ≤ pathCost g d (a :: b :: r)
          exact pathCost_nonneg g d hd (a :: b :: r)
        | succ k =>
          show d (posOf g a) (posOf g b) + pathCost g d ((b :: r).take (k + 1)) ≤
            d (posOf g a) (posOf g b) + pathCost g d (b :: r)
          have := ih (k + 1)
          linarith

open Arena in
theorem pathCost_le_mul (g : FrameGraph) (d : Vec3 → Vec3 → ℚ) (dmax : ℚ)
    (hd0 : 0 ≤ dmax) (hdmax : ∀ a b, d a b ≤ dmax) :
    ∀ P : List Nat, pathCost g d P ≤ (P.length : ℚ) * dmax := by
  intro P
  induction P with
  | nil =>
    simp [pathCost]
  | cons a t ih =>
    cases t with
    | nil =>
      show (0 : ℚ) ≤ ((1 : Nat) : ℚ) * dmax
      push_cast
      linarith
    | cons b r =>
      show d (posOf g a) (posOf g b) + pathCost g d (b :: r) ≤
        (((b :: r).length + 1 : Nat) : ℚ) * dmax
      have h1 := hdmax (posOf g a) (posOf g b)
      have h2 := ih
      push_cast
      push_cast at h2
      nlinarith

theorem nodup_length_le {α : Type} [DecidableEq α] (P K : List α) (hnd : P.Nodup)
    (hsub : ∀ x ∈ P, x ∈ K) : P.length ≤ K.length := by
  calc P.length = P.toFinset.card := (List.toFinset_card_of_nodup hnd).symm
    _ ≤ K.toFinset.card := Finset.card_le_card (fun x hx =>
        List.mem_toFinset.mpr (hsub x (List.mem_toFinset.mp hx)))
    _ ≤ K.length := K.toFinset_card_le

open Arena in
theorem pathCost_mem_costSet (g : FrameGraph) (d : Vec3 → Vec3 → ℚ)
    (P : List Nat) (hnd : P.Nodup) (hsub : ∀ x ∈ P, x ∈ vertexKeysA g) :
    pathCost g d P ∈ costSet g d := by
  obtain ⟨Q, hQP, hQsub⟩ := (List.Nodup.subperm hnd hsub)
  refine List.mem_toFinset.mpr (List.mem_map.mpr ⟨P, ?_, rfl⟩)
  refine List.mem_flatMap.mpr ⟨Q, List.mem_sublists.mpr hQsub, ?_⟩
  exact List.mem_permutations.mpr hQP.symm

open Arena in
theorem bestOr_append_fMAX (bc : List (Nat × ℚ)) (v : Nat)
    (hv : lookupA bc v = none) (w : Nat) :
    bestOr (bc ++ [(v, fMAX)]) w = bestOr bc w := by
  by_cases hw : w = v
  · subst hw
    unfold bestOr
    rw [hv, lookupA_append_right _ ((lookupA_eq_none_iff bc w).mp hv)]
    simp [lookupA]
  · unfold bestOr
    rcases hlw : lookupA bc w with _ | bw
    · rw [lookupA_append_right _ ((lookupA_eq_none_iff bc w).mp hlw)]
      show (lookupA [(v, fMAX)] w).getD fMAX = Option.getD none fMAX
      have hne : ¬ v = w := fun h => hw h.symm
      simp [lookupA, hne]
    · rw [lookupA_append_left _ hlw]

open Arena in
theorem bestOr_setValA_self (bc : List (Nat × ℚ)) (v : Nat) (b : ℚ)
    (hv : v ∈ bc.map Prod.fst) : bestOr (setValA bc v b) v = b := by
  unfold bestOr
  rw [lookupA_setValA_self b hv]
  rfl

open Arena in
theorem bestOr_setValA_ne (bc : List (Nat × ℚ)) (v w : Nat) (b : ℚ)
    (hw : w ≠ v) : bestOr (setValA bc v b) w = bestOr bc w := by
  unfold bestOr
  rw [lookupA_setValA_ne bc b hw]

open Arena in
theorem sum_card_improve (g : FrameGraph) (d : Vec3 → Vec3 → ℚ)
    (bc bc2 : List (Nat × ℚ)) (v : Nat) (b2 : ℚ)
    (hv : v ∈ vertexKeysA g)
    (hmem : b2 ∈ costSet g d)
    (hlt : b2 < bestOr bc v)
    (hself : bestOr bc2 v = b2)
    (hother : ∀ w, w ≠ v → bestOr bc2 w = bestOr bc w) :
    (∑ w ∈ (vertexKeysA g).toFinset,
      ((costSet g d).filter (fun q => q < bestOr bc2 w)).card) + 1 ≤
    ∑ w ∈ (vertexKeysA g).toFinset,
      ((costSet g d).filter (fun q => q < bestOr bc w)).card := by
  have hvf : v ∈ (vertexKeysA g).toFinset := List.mem_toFinset.mpr hv
  rw [← Finset.sum_erase_add _ _ hvf, ← Finset.sum_erase_add _ _ hvf]
  have hcongr : ∀ w ∈ (vertexKeysA g).toFinset.erase v,
      ((costSet g d).filter (fun q => q < bestOr bc2 w)).card =
      ((costSet g d).filter (fun q => q < bestOr bc w)).card := by
    intro w hw
    rw [hother w (Finset.ne_of_mem_erase hw)]
  rw [Finset.sum_congr rfl hcongr]
  have hcard : ((costSet g d).filter (fun q => q < b2)).card + 1 ≤
      ((costSet g d).filter (fun q => q < bestOr bc v)).card := by
    have hss : (costSet g d).filter (fun q => q < b2) ⊂
        (costSet g d).filter (fun q => q < bestOr bc v) := by
      constructor
      · intro q hq
        simp only [Finset.mem_filter] at hq ⊢
        exact ⟨hq.1, lt_trans hq.2 hlt⟩
      · intro hcon
        have hb2 : b2 ∈ (costSet g d).filter (fun q => q < bestOr bc v) := by
          simp only [Finset.mem_filter]
          exact ⟨hmem, hlt⟩
        have hin := hcon hb2
        simp only [Finset.mem_filter] at hin
        exact absurd hin.2 (lt_irrefl b2)
    have := Finset.card_lt_card hss
    omega
  rw [hself]
  omega

open Arena in
theorem GoodPath_mono (g : FrameGraph) (d : Vec3 → Vec3 → ℚ) (s : Nat)
    {bc bc2 : List (Nat × ℚ)} {P : List Nat} {v : Nat} {b : ℚ}
    (hmono : ∀ k bk, lookupA bc k = some bk →
      ∃ bk2, lookupA bc2 k = some bk2 ∧ bk2 ≤ bk)
    (h : GoodPath g d s bc P v b) : GoodPath g d s bc2 P v b := by
  obtain ⟨h1, h2, h3, h4, h5, h6, h7⟩ := h
  refine ⟨h1, h2, h3, h4, h5, ?_, ?_⟩
  · intro x hx
    obtain ⟨bx, hbx⟩ := h6 x hx
    obtain ⟨bx2, hbx2, _⟩ := hmono x bx hbx
    exact ⟨bx2, hbx2⟩
  · intro n x bx hn hnl htake hbx
    have hxtake : x ∈ P.take n := List.mem_of_mem_getLast? htake
    have hxP : x ∈ P := List.mem_of_mem_take hxtake
    obtain ⟨bx0, hbx0⟩ := h6 x hxP
    obtain ⟨bk2, hbk2, hle⟩ := hmono x bx0 hbx0
    have hbxeq : bx = bk2 := by
      rw [hbx] at hbk2
      exact Option.some.inj hbk2
    have h0 := h7 n x bx0 hn hnl htake hbx0
    rw [hbxeq]
    exact le_trans hle h0

theorem exists_take_getLast {α : Type} :
    ∀ (P : List α) (x : α), x ∈ P →
      ∃ n, 0 < n ∧ n ≤ P.length ∧ (P.take n).getLast? = some x := by
  intro P
  induction P with
  | nil =>
    intro x hx
    cases hx
  | cons a t ih =>
    intro x hx
    rcases List.mem_cons.mp hx with hx | hx
    · subst hx
      exact ⟨1, by omega, by simp, rfl⟩
    · obtain ⟨n, hn0, hnl, hlast⟩ := ih x hx
      refine ⟨n + 1, by omega, by simp; omega, ?_⟩
      show (a :: t.take n).getLast? = some x
      rcases ht : t.take n with _ | ⟨y, ys⟩
      · rw [ht] at hlast
        cases hlast
      · rw [ht] at hlast
        rw [List.getLast?_cons_cons]
        exact hlast

open Arena in
theorem opp_not_mem_of_improve (g : FrameGraph) (d : Vec3 → Vec3 → ℚ) (s : Nat)
    (bc : List (Nat × ℚ)) (Pu : List Nat) (u opp : Nat) (pc bopp dlen : ℚ)
    (hd : ∀ a b, 0 ≤ d a b)
    (hgp : GoodPath g d s bc Pu u pc)
    (hbopp : lookupA bc opp = some bopp)
    (hdpos : 0 ≤ dlen)
    (hlt : pc + dlen < bopp) : opp ∉ Pu := by
  intro hmem
  obtain ⟨n, hn0, hnl, hlast⟩ := exists_take_getLast Pu opp hmem
  obtain ⟨_, _, _, _, hcost, _, hpre⟩ := hgp
  have h1 : bopp ≤ pathCost g d (Pu.take n) := hpre n opp bopp hn0 hnl hlast hbopp
  have h2 : pathCost g d (Pu.take n) ≤ pathCost g d Pu := pathCost_take_le g d hd Pu n
  rw [hcost] at h2
  linarith

open Arena in
theorem goodPath_extend (g : FrameGraph) (d : Vec3 → Vec3 → ℚ) (s : Nat)
    (bc2 : List (Nat × ℚ)) (Pu : List Nat) (u opp : Nat) (pc possible : ℚ)
    (hgp : GoodPath g d s bc2 Pu u pc)
    (hstep : stepTo g u opp)
    (hnotin : opp ∉ Pu)
    (hcost : pathCost g d (Pu ++ [opp]) = possible)
    (hkeyopp : lookupA bc2 opp = some possible) :
    GoodPath g d s bc2 (Pu ++ [opp]) opp possible := by
  obtain ⟨hch, hnd, hhd, hlast, hpc, hkeys, hpre⟩ := hgp
  refine ⟨?_, ?_, ?_, List.getLast?_concat Pu, hcost, ?_, ?_⟩
  · rw [List.chain'_append]
    refine ⟨hch, List.chain'_singleton _, ?_⟩
    intro x hx y hy
    have hxu : x = u := by
      rw [hlast] at hx
      exact (Option.some.inj (Option.mem_def.mp hx)).symm
    have hyo : y = opp := by
      simp only [List.head?_cons, Option.mem_def, Option.some.injEq] at hy
      exact hy.symm
    rw [hxu, hyo]
    exact hstep
  · rw [List.nodup_append]
    exact ⟨hnd, List.nodup_singleton _, by
      intro a ha hb
      simp only [List.mem_singleton] at hb
      subst hb
      exact hnotin ha⟩
  · rcases Pu with _ | ⟨p0, pr⟩
    · cases hhd
    · simpa using hhd
  · intro x hx
    rcases List.mem_append.mp hx with hx | hx
    · exact hkeys x hx
    · simp only [List.mem_singleton] at hx
      subst hx
      exact ⟨possible, hkeyopp⟩
  · intro n x bx hn0 hnl htake hbx
    by_cases hle : n ≤ Pu.length
    · rw [List.take_append_of_le_length hle] at htake
      have hxPu : x ∈ Pu := List.mem_of_mem_take (List.mem_of_mem_getLast? htake)
      have hxo : x ≠ opp := fun hcon => hnotin (hcon ▸ hxPu)
      have := hpre n x bx hn0 hle htake hbx
      rw [List.take_append_of_le_length hle]
      exact this
    · have hnfull : n = Pu.length + 1 := by
        have := List.length_append Pu [opp]
        simp only [List.length_singleton] at this
        rw [this] at hnl
        omega
      have htakeall : (Pu ++ [opp]).take n = Pu ++ [opp] := by
        rw [hnfull]
        refine List.take_of_length_le ?_
        simp
      rw [htakeall] at htake ⊢
      have hxo : x = opp := by
        rw [List.getLast?_concat] at htake
        exact (Option.some.inj htake).symm
      subst hxo
      rw [hkeyopp] at hbx
      have hbe : bx = possible := (Option.some.inj hbx).symm
      rw [hbe, hcost]

open Arena in
theorem get_vertex_isSome_iff (g : FrameGraph) (v : Nat) :
    (g.get_vertex v).isSome = true ↔ v ∈ vertexKeysA g := by
  unfold FrameGraph.get_vertex SlotMap.get vertexKeysA
  exact lookupA_isSome_iff _ _


open Arena in
theorem exploreConnections_spec (g : FrameGraph) (d : Vec3 → Vec3 → ℚ) (s : Nat)
    (ep vpos : Vec3) (u : Nat) (pc : ℚ) (dmax : ℚ)
    (hd : ∀ a b, 0 ≤ d a b) (hdmax : ∀ a b, d a b ≤ dmax)
    (hbig : ((vertexKeysA g).length : ℚ) * dmax + dmax < fMAX)
    (hvpos : posOf g u = vpos) :
    ∀ (conns : List BeamEnd) (heap : List QueueItem) (bc : List (Nat × ℚ)),
      (∀ c ∈ conns, c ∈ connsOf g u) →
      (∀ c ∈ conns, ∃ beam, g.get_beam c.beam = some beam ∧
        (g.get_vertex (beam.get_vertex c.end_.opposite)).isSome = true) →
      (∀ p ∈ bc, (g.get_vertex p.1).isSome = true) →
      (bc.map Prod.fst).Nodup →
      (∀ p ∈ bc, ∃ P, GoodPath g d s bc P p.1 p.2) →
      (∃ Pu, GoodPath g d s bc Pu u pc) →
      ∃ heap2 bc2, exploreConnections d g ep pc vpos conns heap bc = .ok (heap2, bc2) ∧
        (∀ p ∈ bc2, (g.get_vertex p.1).isSome = true) ∧
        (bc2.map Prod.fst).Nodup ∧
        (∀ k bk, lookupA bc k = some bk → ∃ bk2, lookupA bc2 k = some bk2 ∧ bk2 ≤ bk) ∧
        (∀ p ∈ bc2, ∃ P, GoodPath g d s bc2 P p.1 p.2) ∧
        (∀ i ∈ heap, i ∈ heap2) ∧
        (∀ i ∈ heap2, i ∈ heap ∨ ((g.get_vertex i.vertex_id).isSome = true ∧
          ∃ bk, lookupA bc2 i.vertex_id = some bk ∧ bk ≤ i.cost)) ∧
        (∀ k bk, lookupA bc2 k = some bk →
          (∃ i ∈ heap2, i.vertex_id = k ∧ i.cost = bk) ∨ lookupA bc k = some bk) ∧
        (∀ c ∈ conns, ∀ v, oppOf g c = some v → ∃ bk, lookupA bc2 v = some bk) ∧
        ((∑ w ∈ (vertexKeysA g).toFinset,
            ((costSet g d).filter (fun q => q < bestOr bc2 w)).card) + heap2.length ≤
          (∑ w ∈ (vertexKeysA g).toFinset,
            ((costSet g d).filter (fun q => q < bestOr bc w)).card) + heap.length) := by
  intro conns
  induction conns with
  | nil =>
    intro heap bc _ _ hkv hknd hpi _
    refine ⟨heap, bc, rfl, hkv, hknd, fun k bk h => ⟨bk, h, le_refl _⟩, hpi,
      fun i h => h, fun i h => Or.inl h,
      fun k bk h => Or.inr h, by simp, le_refl _⟩
  | cons c rest ih =>
    intro heap bc hconns hconnWF hkv hknd hpi hPu
    obtain ⟨beam, hbeam, hvertsome⟩ := hconnWF c (List.mem_cons_self c rest)
    rcases hvert2 : g.get_vertex (beam.get_vertex c.end_.opposite) with _ | vert2
    · rw [hvert2] at hvertsome
      cases hvertsome
    · obtain ⟨Pu, hgpu⟩ := hPu
      have hstep : stepTo g u (beam.get_vertex c.end_.opposite) := by
        refine ⟨c, hconns c (List.mem_cons_self c rest), ?_⟩
        unfold oppOf
        rw [hbeam]
      have hoppos : posOf g (beam.get_vertex c.end_.opposite) = vert2.position := by
        unfold posOf
        rw [hvert2]
      have hd0 : (0 : ℚ) ≤ dmax := le_trans (hd (0, 0, 0) (0, 0, 0)) (hdmax _ _)
      have hPusub : ∀ x ∈ Pu, x ∈ vertexKeysA g := by
        intro x hx
        obtain ⟨bx, hbx⟩ := hgpu.2.2.2.2.2.1 x hx
        exact (get_vertex_isSome_iff g x).mp (hkv (x, bx) (lookupA_mem hbx))
      have hpcbound : pc ≤ ((vertexKeysA g).length : ℚ) * dmax := by
        have h1 : pathCost g d Pu ≤ (Pu.length : ℚ) * dmax :=
          pathCost_le_mul g d dmax hd0 hdmax Pu
        have h2 : Pu.length ≤ (vertexKeysA g).length :=
          nodup_length_le Pu (vertexKeysA g) hgpu.2.1 hPusub
        have h3 : (Pu.length : ℚ) ≤ ((vertexKeysA g).length : ℚ) := Nat.cast_le.mpr h2
        have h4 := mul_le_mul_of_nonneg_right h3 hd0
        rw [hgpu.2.2.2.2.1] at h1
        linarith
      have hpossbig : pc + d vpos vert2.position < fMAX := by
        have h1 := hdmax vpos vert2.position
        linarith
      have hrest1 : ∀ c2 ∈ rest, c2 ∈ connsOf g u :=
        fun c2 h => hconns c2 (List.mem_cons_of_mem c h)
      have hrest2 : ∀ c2 ∈ rest, ∃ beam2, g.get_beam c2.beam = some beam2 ∧
          (g.get_vertex (beam2.get_vertex c2.end_.opposite)).isSome = true :=
        fun c2 h => hconnWF c2 (List.mem_cons_of_mem c h)
      rcases hlk : lookupA bc (beam.get_vertex c.end_.opposite) with _ | bopp
      · -- fresh neighbor: keyed at f32::MAX and immediately improved
        have hfreshnotin : (beam.get_vertex c.end_.opposite) ∉ bc.map Prod.fst :=
          (lookupA_eq_none_iff _ _).mp hlk
        have hcur : lookupA (bc ++ [((beam.get_vertex c.end_.opposite), fMAX)])
            (beam.get_vertex c.end_.opposite) = some fMAX := by
          rw [lookupA_append_right _ hfreshnotin]
          simp [lookupA]
        have hset2 : setValA (bc ++ [((beam.get_vertex c.end_.opposite), fMAX)])
            (beam.get_vertex c.end_.opposite) (pc + d vpos vert2.position) =
            bc ++ [((beam.get_vertex c.end_.opposite), pc + d vpos vert2.position)] := by
          rw [setValA_append_of_not_mem _ _ hfreshnotin]
          simp [setValA]
        have hres : exploreConnections d g ep pc vpos (c :: rest) heap bc =
            exploreConnections d g ep pc vpos rest
              (siftUp (heap ++ [⟨pc + d vpos vert2.position + d vert2.position ep,
                pc + d vpos vert2.position, beam.get_vertex c.end_.opposite⟩]) heap.length)
              (bc ++ [((beam.get_vertex c.end_.opposite), pc + d vpos vert2.position)]) := by
          simp only [exploreConnections, hbeam, hvert2, hlk, hcur, Option.getD_some]
          rw [if_pos hpossbig, hset2]
        set oppid := beam.get_vertex c.end_.opposite with hoppid
        set possible := pc + d vpos vert2.position with hpossible
        set bc2 := bc ++ [(oppid, possible)] with hbc2
        set item : QueueItem := ⟨possible + d vert2.position ep, possible, oppid⟩ with hitem
        set heap2 := siftUp (heap ++ [item]) heap.length with hheap2
        have hlk2self : lookupA bc2 oppid = some possible := by
          rw [hbc2, lookupA_append_right _ hfreshnotin]
          simp [lookupA]
        have hlk2ne : ∀ k, k ≠ oppid → lookupA bc2 k = lookupA bc k := by
          intro k hkne
          rcases hlkk : lookupA bc k with _ | bk
          · rw [hbc2, lookupA_append_right _ ((lookupA_eq_none_iff bc k).mp hlkk)]
            have hne2 : ¬ oppid = k := fun h => hkne h.symm
            simp [lookupA, hne2]
          · rw [hbc2, lookupA_append_left _ hlkk]
        have hmonoStep : ∀ k bk, lookupA bc k = some bk →
            ∃ bk2, lookupA bc2 k = some bk2 ∧ bk2 ≤ bk := by
          intro k bk hkbk
          have hkne : k ≠ oppid := by
            intro hcon
            rw [hcon, hlk] at hkbk
            exact Option.noConfusion hkbk
          exact ⟨bk, by rw [hlk2ne k hkne]; exact hkbk, le_refl _⟩
        have hkv2 : ∀ p ∈ bc2, (g.get_vertex p.1).isSome = true := by
          intro p hp
          rcases List.mem_append.mp hp with hp | hp
          · exact hkv p hp
          · simp only [List.mem_singleton] at hp
            subst hp
            rw [hvert2]
            rfl
        have hknd2 : (bc2.map Prod.fst).Nodup := by
          rw [hbc2, List.map_append]
          refine List.Nodup.append hknd (by simp) ?_
          intro a ha hb
          simp only [List.map_cons, List.map_nil, List.mem_singleton] at hb
          subst hb
          exact hfreshnotin ha
        have hgp2 : GoodPath g d s bc2 Pu u pc := GoodPath_mono g d s hmonoStep hgpu
        have hnotin : oppid ∉ Pu := by
          intro hmem
          obtain ⟨bx, hbx⟩ := hgpu.2.2.2.2.2.1 oppid hmem
          rw [hlk] at hbx
          exact Option.noConfusion hbx
        have hcostP2 : pathCost g d (Pu ++ [oppid]) = possible := by
          rw [pathCost_append_last g d Pu u oppid hgpu.2.2.2.1, hgpu.2.2.2.2.1, hvpos,
            hoppos]
        have hgpnew : GoodPath g d s bc2 (Pu ++ [oppid]) oppid possible :=
          goodPath_extend g d s bc2 Pu u oppid pc possible hgp2 hstep hnotin hcostP2
            hlk2self
        have hltm : possible < bestOr bc oppid := by
          have hbestold : bestOr bc oppid = fMAX := by
            unfold bestOr
            rw [hlk]
            rfl
          rw [hbestold]
          exact hpossbig
        have hpi2 : ∀ p ∈ bc2, ∃ P, GoodPath g d s bc2 P p.1 p.2 := by
          intro p hp
          have hpl : lookupA bc2 p.1 = some p.2 := lookupA_of_mem hp hknd2
          by_cases hkne : p.1 = oppid
          · have hpe : p.2 = possible := by
              rw [hkne, hlk2self] at hpl
              exact (Option.some.inj hpl).symm
            rw [hkne, hpe]
            exact ⟨Pu ++ [oppid], hgpnew⟩
          · rw [hlk2ne p.1 hkne] at hpl
            obtain ⟨P, hP⟩ := hpi (p.1, p.2) (lookupA_mem hpl)
            exact ⟨P, GoodPath_mono g d s hmonoStep hP⟩
        have hheapperm : heap2.Perm (heap ++ [item]) := siftUpGo_perm _ _ _
        have hheaplen : heap2.length = heap.length + 1 := by
          rw [hheapperm.length_eq]
          simp
        have hheapmem : ∀ i, i ∈ heap2 ↔ (i ∈ heap ∨ i = item) := by
          intro i
          rw [hheapperm.mem_iff]
          simp
        have hoppkeys : oppid ∈ vertexKeysA g := by
          refine (get_vertex_isSome_iff g oppid).mp ?_
          rw [hvert2]
          rfl
        have hP2sub : ∀ x ∈ Pu ++ [oppid], x ∈ vertexKeysA g := by
          intro x hx
          rcases List.mem_append.mp hx with hx | hx
          · exact hPusub x hx
          · simp only [List.mem_singleton] at hx
            subst hx
            exact hoppkeys
        have hmemcost : possible ∈ costSet g d := by
          rw [← hcostP2]
          exact pathCost_mem_costSet g d _ hgpnew.2.1 hP2sub
        have hbestnew : bestOr bc2 oppid = possible := by
          unfold bestOr
          rw [hlk2self]
          rfl
        have hbestother : ∀ w, w ≠ oppid → bestOr bc2 w = bestOr bc w := by
          intro w hw
          unfold bestOr
          rw [hlk2ne w hw]
        have hmeasure : (∑ w ∈ (vertexKeysA g).toFinset,
            ((costSet g d).filter (fun q => q < bestOr bc2 w)).card) + 1 ≤
            ∑ w ∈ (vertexKeysA g).toFinset,
              ((costSet g d).filter (fun q => q < bestOr bc w)).card :=
          sum_card_improve g d bc bc2 oppid possible hoppkeys hmemcost hltm hbestnew
            hbestother
        obtain ⟨heap3, bc3, hok, hkv3, hknd3, hmono3, hpi3, hhm3, hhn3, hwit3, hcov3, hms3⟩ :=
          ih heap2 bc2 hrest1 hrest2 hkv2 hknd2 hpi2 ⟨Pu, hgp2⟩
        rw [hres]
        refine ⟨heap3, bc3, hok, hkv3, hknd3, ?_, hpi3, ?_, ?_, ?_, ?_, ?_⟩
        · intro k bk hkbk
          obtain ⟨bk1, hbk1, hle1⟩ := hmonoStep k bk hkbk
          obtain ⟨bk2, hbk2, hle2⟩ := hmono3 k bk1 hbk1
          exact ⟨bk2, hbk2, le_trans hle2 hle1⟩
        · intro i hi
          exact hhm3 i ((hheapmem i).mpr (Or.inl hi))
        · intro i hi
          rcases hhn3 i hi with hi2 | hi2
          · rcases (hheapmem i).mp hi2 with hi3 | hi3
            · exact Or.inl hi3
            · subst hi3
              refine Or.inr ⟨by rw [hvert2]; rfl, ?_⟩
              obtain ⟨bk2, hbk2, hle2⟩ := hmono3 oppid possible hlk2self
              exact ⟨bk2, hbk2, hle2⟩
          · exact Or.inr hi2
        · intro k bk hkbk
          rcases hwit3 k bk hkbk with h | h
          · exact Or.inl h
          · by_cases hkne : k = oppid
            · subst hkne
              rw [hlk2self] at h
              have hbke : bk = possible := Option.some.inj h.symm
              refine Or.inl ⟨item, hhm3 item ((hheapmem item).mpr (Or.inr rfl)), rfl, ?_⟩
              rw [hbke]
            · rw [hlk2ne k hkne] at h
              exact Or.inr h
        · intro c2 hc2 v hv
          rcases List.mem_cons.mp hc2 with hc2 | hc2
          · subst hc2
            unfold oppOf at hv
            rw [hbeam] at hv
            have hveq : v = oppid := (Option.some.inj hv).symm
            rw [hveq]
            obtain ⟨bk2, hbk2, _⟩ := hmono3 oppid possible hlk2self
            exact ⟨bk2, hbk2⟩
          · exact hcov3 c2 hc2 v hv
        · calc (∑ w ∈ (vertexKeysA g).toFinset,
                ((costSet g d).filter (fun q => q < bestOr bc3 w)).card) + heap3.length ≤
              (∑ w ∈ (vertexKeysA g).toFinset,
                ((costSet g d).filter (fun q => q < bestOr bc2 w)).card) + heap2.length := hms3
            _ ≤ (∑ w ∈ (vertexKeysA g).toFinset,
                ((costSet g d).filter (fun q => q < bestOr bc w)).card) + heap.length := by
              rw [hheaplen]
              omega
      · by_cases hcmp : pc + d vpos vert2.position < bopp
        · -- strict improvement of a tracked neighbor
          have hoppmem : (beam.get_vertex c.end_.opposite) ∈ bc.map Prod.fst := by
            refine (lookupA_isSome_iff bc _).mp ?_
            rw [hlk]
            rfl
          have hres : exploreConnections d g ep pc vpos (c :: rest) heap bc =
              exploreConnections d g ep pc vpos rest
                (siftUp (heap ++ [⟨pc + d vpos vert2.position + d vert2.position ep,
                  pc + d vpos vert2.position, beam.get_vertex c.end_.opposite⟩]) heap.length)
                (setValA bc (beam.get_vertex c.end_.opposite)
                  (pc + d vpos vert2.position)) := by
            simp only [exploreConnections, hbeam, hvert2, hlk, Option.getD_some]
            rw [if_pos hcmp]
          set oppid := beam.get_vertex c.end_.opposite with hoppid
          set possible := pc + d vpos vert2.position with hpossible
          set bc2 := setValA bc oppid possible with hbc2
          set item : QueueItem := ⟨possible + d vert2.position ep, possible, oppid⟩ with hitem
          set heap2 := siftUp (heap ++ [item]) heap.length with hheap2
          have hlk2self : lookupA bc2 oppid = some possible :=
            lookupA_setValA_self possible hoppmem
          have hlk2ne : ∀ k, k ≠ oppid → lookupA bc2 k = lookupA bc k :=
            fun k hkne => lookupA_setValA_ne bc possible hkne
          have hmonoStep : ∀ k bk, lookupA bc k = some bk →
              ∃ bk2, lookupA bc2 k = some bk2 ∧ bk2 ≤ bk := by
            intro k bk hkbk
            by_cases hkne : k = oppid
            · subst hkne
              rw [hlk] at hkbk
              have hbke : bk = bopp := Option.some.inj hkbk.symm
              exact ⟨possible, hlk2self, by rw [hbke]; exact le_of_lt hcmp⟩
            · exact ⟨bk, by rw [hlk2ne k hkne]; exact hkbk, le_refl _⟩
          have hkv2 : ∀ p ∈ bc2, (g.get_vertex p.1).isSome = true := by
            intro p hp
            rcases mem_setValA hp with hp | hp
            · exact hkv p hp
            · subst hp
              rw [hvert2]
              rfl
          have hknd2 : (bc2.map Prod.fst).Nodup := by
            rw [hbc2, setValA_map_fst]
            exact hknd
          have hgp2 : GoodPath g d s bc2 Pu u pc := GoodPath_mono g d s hmonoStep hgpu
          have hnotin : oppid ∉ Pu :=
            opp_not_mem_of_improve g d s bc Pu u oppid pc bopp
              (d vpos vert2.position) hd hgpu hlk (hd _ _) hcmp
          have hcostP2 : pathCost g d (Pu ++ [oppid]) = possible := by
            rw [pathCost_append_last g d Pu u oppid hgpu.2.2.2.1, hgpu.2.2.2.2.1, hvpos,
              hoppos]
          have hgpnew : GoodPath g d s bc2 (Pu ++ [oppid]) oppid possible :=
            goodPath_extend g d s bc2 Pu u oppid pc possible hgp2 hstep hnotin hcostP2
              hlk2self
          have hltm : possible < bestOr bc oppid := by
            have hbestold : bestOr bc oppid = bopp := by
              unfold bestOr
              rw [hlk]
              rfl
            rw [hbestold]
            exact hcmp
          have hpi2 : ∀ p ∈ bc2, ∃ P, GoodPath g d s bc2 P p.1 p.2 := by
            intro p hp
            have hpl : lookupA bc2 p.1 = some p.2 := lookupA_of_mem hp hknd2
            by_cases hkne : p.1 = oppid
            · have hpe : p.2 = possible := by
                rw [hkne, hlk2self] at hpl
                exact (Option.some.inj hpl).symm
              rw [hkne, hpe]
              exact ⟨Pu ++ [oppid], hgpnew⟩
            · rw [hlk2ne p.1 hkne] at hpl
              obtain ⟨P, hP⟩ := hpi (p.1, p.2) (lookupA_mem hpl)
              exact ⟨P, GoodPath_mono g d s hmonoStep hP⟩
          have hheapperm : heap2.Perm (heap ++ [item]) := siftUpGo_perm _ _ _
          have hheaplen : heap2.length = heap.length + 1 := by
            rw [hheapperm.length_eq]
            simp
          have hheapmem : ∀ i, i ∈ heap2 ↔ (i ∈ heap ∨ i = item) := by
            intro i
            rw [hheapperm.mem_iff]
            simp
          have hoppkeys : oppid ∈ vertexKeysA g := by
            refine (get_vertex_isSome_iff g oppid).mp ?_
            rw [hvert2]
            rfl
          have hP2sub : ∀ x ∈ Pu ++ [oppid], x ∈ vertexKeysA g := by
            intro x hx
            rcases List.mem_append.mp hx with hx | hx
            · exact hPusub x hx
            · simp only [List.mem_singleton] at hx
              subst hx
              exact hoppkeys
          have hmemcost : possible ∈ costSet g d := by
            rw [← hcostP2]
            exact pathCost_mem_costSet g d _ hgpnew.2.1 hP2sub
          have hbestnew : bestOr bc2 oppid = possible := by
            unfold bestOr
            rw [hlk2self]
            rfl
          have hbestother : ∀ w, w ≠ oppid → bestOr bc2 w = bestOr bc w := by
            intro w hw
            unfold bestOr
            rw [hlk2ne w hw]
          have hmeasure : (∑ w ∈ (vertexKeysA g).toFinset,
              ((costSet g d).filter (fun q => q < bestOr bc2 w)).card) + 1 ≤
              ∑ w ∈ (vertexKeysA g).toFinset,
                ((costSet g d).filter (fun q => q < bestOr bc w)).card :=
            sum_card_improve g d bc bc2 oppid possible hoppkeys hmemcost hltm hbestnew
              hbestother
          obtain ⟨heap3, bc3, hok, hkv3, hknd3, hmono3, hpi3, hhm3, hhn3, hwit3, hcov3, hms3⟩ :=
            ih heap2 bc2 hrest1 hrest2 hkv2 hknd2 hpi2 ⟨Pu, hgp2⟩
          rw [hres]
          refine ⟨heap3, bc3, hok, hkv3, hknd3, ?_, hpi3, ?_, ?_, ?_, ?_, ?_⟩
          · intro k bk hkbk
            obtain ⟨bk1, hbk1, hle1⟩ := hmonoStep k bk hkbk
            obtain ⟨bk2, hbk2, hle2⟩ := hmono3 k bk1 hbk1
            exact ⟨bk2, hbk2, le_trans hle2 hle1⟩
          · intro i hi
            exact hhm3 i ((hheapmem i).mpr (Or.inl hi))
          · intro i hi
            rcases hhn3 i hi with hi2 | hi2
            · rcases (hheapmem i).mp hi2 with hi3 | hi3
              · exact Or.inl hi3
              · subst hi3
                refine Or.inr ⟨by rw [hvert2]; rfl, ?_⟩
                obtain ⟨bk2, hbk2, hle2⟩ := hmono3 oppid possible hlk2self
                exact ⟨bk2, hbk2, hle2⟩
            · exact Or.inr hi2
          · intro k bk hkbk
            rcases hwit3 k bk hkbk with h | h
            · exact Or.inl h
            · by_cases hkne : k = oppid
              · subst hkne
                rw [hlk2self] at h
                have hbke : bk = possible := Option.some.inj h.symm
                refine Or.inl ⟨item, hhm3 item ((hheapmem item).mpr (Or.inr rfl)), rfl, ?_⟩
                rw [hbke]
              · rw [hlk2ne k hkne] at h
                exact Or.inr h
          · intro c2 hc2 v hv
            rcases List.mem_cons.mp hc2 with hc2 | hc2
            · subst hc2
              unfold oppOf at hv
              rw [hbeam] at hv
              have hveq : v = oppid := (Option.some.inj hv).symm
              rw [hveq]
              obtain ⟨bk2, hbk2, _⟩ := hmono3 oppid possible hlk2self
              exact ⟨bk2, hbk2⟩
            · exact hcov3 c2 hc2 v hv
          · calc (∑ w ∈ (vertexKeysA g).toFinset,
                  ((costSet g d).filter (fun q => q < bestOr bc3 w)).card) + heap3.length ≤
                (∑ w ∈ (vertexKeysA g).toFinset,
                  ((costSet g d).filter (fun q => q < bestOr bc2 w)).card) + heap2.length := hms3
              _ ≤ (∑ w ∈ (vertexKeysA g).toFinset,
                  ((costSet g d).filter (fun q => q < bestOr bc w)).card) + heap.length := by
                rw [hheaplen]
                omega
        · -- no improvement: state unchanged
          have hres : exploreConnections d g ep pc vpos (c :: rest) heap bc =
              exploreConnections d g ep pc vpos rest heap bc := by
            simp only [exploreConnections, hbeam, hvert2, hlk, Option.getD_some]
            rw [if_neg hcmp]
          obtain ⟨heap3, bc3, hok, hkv3, hknd3, hmono3, hpi3, hhm3, hhn3, hwit3, hcov3,
            hms3⟩ := ih heap bc hrest1 hrest2 hkv hknd hpi ⟨Pu, hgpu⟩
          rw [hres]
          refine ⟨heap3, bc3, hok, hkv3, hknd3, hmono3, hpi3, hhm3, hhn3, hwit3, ?_, hms3⟩
          intro c2 hc2 v hv
          rcases List.mem_cons.mp hc2 with hc2 | hc2
          · rw [hc2] at hv
            unfold oppOf at hv
            rw [hbeam] at hv
            have hveq : v = beam.get_vertex c.end_.opposite := (Option.some.inj hv).symm
            rw [hveq]
            obtain ⟨bk2, hbk2, _⟩ := hmono3 (beam.get_vertex c.end_.opposite) bopp hlk
            exact ⟨bk2, hbk2⟩
          · exact hcov3 c2 hc2 v hv

open Arena in
theorem reach_keyed (g : FrameGraph) (d : Vec3 → Vec3 → ℚ) (s e : Nat)
    (st : SearchState) (hInv : Inv g d s e st) (hnil : st.heap = []) :
    ∀ {x : Nat}, Relation.ReflTransGen (stepTo g) s x →
      ∃ b, lookupA st.best_costs x = some b := by
  intro x hreach
  induction hreach with
  | refl => exact hInv.s_keyed
  | tail h1 h2 ih =>
    obtain ⟨b0, hb0⟩ := ih
    have hmem := lookupA_mem hb0
    rcases hInv.live _ hmem with ⟨i, hi, _⟩ | ⟨_, hcl⟩
    · rw [hnil] at hi
      cases hi
    · obtain ⟨c, hc, hopp⟩ := h2
      exact hcl c hc _ hopp

open Arena in
theorem searchStep_spec (g : FrameGraph) (d : Vec3 → Vec3 → ℚ) (dmax : ℚ) (s e : Nat)
    (ep : Vec3)
    (hd : ∀ a b, 0 ≤ d a b) (hdmax : ∀ a b, d a b ≤ dmax)
    (hbig : ((vertexKeysA g).length : ℚ) * dmax + dmax < fMAX)
    (hWF : SearchWF g)
    (hreach : Relation.ReflTransGen (stepTo g) s e)
    (st : SearchState) (hInv : Inv g d s e st) :
    searchStep d g e ep st = .done .noSplit ∨
    (∃ st2, searchStep d g e ep st = .next st2 ∧ Inv g d s e st2 ∧
      measureM g d st2 < measureM g d st) := by
  have hall : st.heap.all (fun i => (g.get_vertex i.vertex_id).isSome) = true :=
    List.all_eq_true.mpr (fun i hi => hInv.heap_vert i hi)
  rcases hhead : st.heap.head? with _ | item
  · -- frontier drained: contradiction with reachability
    exfalso
    have hnil : st.heap = [] := List.head?_eq_none_iff.mp hhead
    obtain ⟨be, hbe⟩ := reach_keyed g d s e st hInv hnil hreach
    rcases hInv.live _ (lookupA_mem hbe) with ⟨i, hi, _⟩ | ⟨hne, _⟩
    · rw [hnil] at hi
      cases hi
    · exact hne rfl
  · have hitemmem : item ∈ st.heap := List.mem_of_mem_head? hhead
    by_cases hgoal : item.vertex_id = e
    · left
      simp only [searchStep, hall, hhead, if_true, if_pos hgoal]
    · obtain ⟨path_cost, hpc⟩ := hInv.heap_keyed item hitemmem
      rcases hvert : g.get_vertex item.vertex_id with _ | vertex
      · exact absurd ((get_vertex_isSome_iff g item.vertex_id).mpr
          ((get_vertex_isSome_iff g item.vertex_id).mp (hInv.heap_vert item hitemmem)))
          (by rw [hvert]; simp)
      · have hperm : (item :: popRestore st.heap).Perm st.heap :=
          popRestore_perm st.heap item hhead
        have hlen : st.heap.length = (popRestore st.heap).length + 1 := by
          rw [← hperm.length_eq]
          rfl
        by_cases hstale : path_cost < item.cost
        · -- stale entry: pop only
          right
          have hres : searchStep d g e ep st = .next
              { heap := popRestore st.heap,
                visited := insertSet st.visited item.vertex_id,
                best_costs := st.best_costs } := by
            simp only [searchStep, hall, hhead, if_true, if_neg hgoal, hvert, hpc]
            rw [if_pos hstale]
          refine ⟨_, hres, ?_, ?_⟩
          · refine ⟨hInv.s_keyed, hInv.keys_vert, hInv.keys_nodup, ?_, ?_, ?_,
              hInv.path_inv, ?_⟩
            · intro i hi
              exact hInv.heap_vert i (hperm.mem_iff.mp (List.mem_cons_of_mem item hi))
            · intro i hi
              exact hInv.heap_keyed i (hperm.mem_iff.mp (List.mem_cons_of_mem item hi))
            · intro i hi
              exact hInv.heap_bound i (hperm.mem_iff.mp (List.mem_cons_of_mem item hi))
            · intro p hp
              rcases hInv.live p hp with ⟨i, hi, hiv, hic⟩ | h
              · left
                have hi2 : i ∈ item :: popRestore st.heap := hperm.mem_iff.mpr hi
                rcases List.mem_cons.mp hi2 with hieq | hi3
                · exfalso
                  have hpv : lookupA st.best_costs p.1 = some p.2 :=
                    lookupA_of_mem hp hInv.keys_nodup
                  rw [hieq] at hiv hic
                  rw [← hiv] at hpv
                  rw [hpc] at hpv
                  have : path_cost = p.2 := Option.some.inj hpv
                  rw [this, ← hic] at hstale
                  exact absurd hstale (lt_irrefl _)
                · exact ⟨i, hi3, hiv, hic⟩
              · exact Or.inr h
          · unfold measureM
            simp only
            omega
        · -- exploration of the popped vertex
          right
          have hu : lookupA st.best_costs item.vertex_id = some path_cost := hpc
          have humem : (item.vertex_id, path_cost) ∈ st.best_costs := lookupA_mem hu
          have hconns1 : ∀ c ∈ vertex.connections, c ∈ connsOf g item.vertex_id := by
            intro c hc
            unfold connsOf
            rw [hvert]
            exact hc
          have hventry : (item.vertex_id, vertex) ∈ g.vertices.entries :=
            lookupA_mem hvert
          have hconnWF1 : ∀ c ∈ vertex.connections, ∃ beam,
              g.get_beam c.beam = some beam ∧
              (g.get_vertex (beam.get_vertex c.end_.opposite)).isSome = true :=
            fun c hc => hWF (item.vertex_id, vertex) hventry c hc
          have hvpos : posOf g item.vertex_id = vertex.position := by
            unfold posOf
            rw [hvert]
          obtain ⟨Pu0, hPu0⟩ := hInv.path_inv (item.vertex_id, path_cost) humem
          obtain ⟨heap3, bc3, hok, hkv3, hknd3, hmono3, hpi3, hhm3, hhn3, hwit3, hcov3,
            hms3⟩ :=
            exploreConnections_spec g d s ep vertex.position item.vertex_id path_cost dmax
              hd hdmax hbig hvpos vertex.connections (popRestore st.heap) st.best_costs
              hconns1 hconnWF1 hInv.keys_vert hInv.keys_nodup hInv.path_inv ⟨Pu0, hPu0⟩
          have hres : searchStep d g e ep st = .next
              { heap := heap3,
                visited := insertSet st.visited item.vertex_id,
                best_costs := bc3 } := by
            simp only [searchStep, hall, hhead, if_true, if_neg hgoal, hvert, hpc]
            rw [if_neg hstale, hok]
          refine ⟨_, hres, ?_, ?_⟩
          · refine ⟨?_, hkv3, hknd3, ?_, ?_, ?_, hpi3, ?_⟩
            · obtain ⟨bs, hbs⟩ := hInv.s_keyed
              obtain ⟨bs2, hbs2, _⟩ := hmono3 s bs hbs
              exact ⟨bs2, hbs2⟩
            · intro i hi
              rcases hhn3 i hi with hi2 | ⟨hiv, _⟩
              · exact hInv.heap_vert i (hperm.mem_iff.mp (List.mem_cons_of_mem item hi2))
              · exact hiv
            · intro i hi
              rcases hhn3 i hi with hi2 | ⟨_, bk, hbk, _⟩
              · obtain ⟨b0, hb0⟩ := hInv.heap_keyed i
                  (hperm.mem_iff.mp (List.mem_cons_of_mem item hi2))
                obtain ⟨b2, hb2, _⟩ := hmono3 i.vertex_id b0 hb0
                exact ⟨b2, hb2⟩
              · exact ⟨bk, hbk⟩
            · intro i hi b hb
              rcases hhn3 i hi with hi2 | ⟨_, bk, hbk, hble⟩
              · have hi3 : i ∈ st.heap := hperm.mem_iff.mp (List.mem_cons_of_mem item hi2)
                obtain ⟨b0, hb0⟩ := hInv.heap_keyed i hi3
                have hb0le : b0 ≤ i.cost := hInv.heap_bound i hi3 b0 hb0
                obtain ⟨b2, hb2, hb2le⟩ := hmono3 i.vertex_id b0 hb0
                rw [hb] at hb2
                have : b = b2 := Option.some.inj hb2
                rw [this]
                exact le_trans hb2le hb0le
              · rw [hb] at hbk
                have : b = bk := Option.some.inj hbk
                rw [this]
                exact hble
            · intro p hp
              have hpl3 : lookupA bc3 p.1 = some p.2 := lookupA_of_mem hp hknd3
              rcases hwit3 p.1 p.2 hpl3 with ⟨i, hi, hiv, hic⟩ | hold
              · exact Or.inl ⟨i, hi, hiv, hic⟩
              · by_cases hpu : p.1 = item.vertex_id
                · refine Or.inr ⟨by rw [hpu]; exact hgoal, ?_⟩
                  intro c hc v hv
                  have hc2 : c ∈ vertex.connections := by
                    unfold connsOf at hc
                    rw [hpu, hvert] at hc
                    exact hc
                  exact hcov3 c hc2 v hv
                · have hpmem : (p.1, p.2) ∈ st.best_costs := lookupA_mem hold
                  rcases hInv.live (p.1, p.2) hpmem with ⟨i, hi, hiv, hic⟩ | ⟨hne2, hcl⟩
                  · left
                    have hi2 : i ∈ item :: popRestore st.heap := hperm.mem_iff.mpr hi
                    rcases List.mem_cons.mp hi2 with hieq | hi3
                    · exfalso
                      rw [hieq] at hiv
                      exact hpu hiv.symm
                    · exact ⟨i, hhm3 i hi3, hiv, hic⟩
                  · refine Or.inr ⟨hne2, ?_⟩
                    intro c hc v hv
                    obtain ⟨b0, hb0⟩ := hcl c hc v hv
                    obtain ⟨b2, hb2, _⟩ := hmono3 v b0 hb0
                    exact ⟨b2, hb2⟩
          · unfold measureM
            simp only
            omega

open Arena in
theorem searchLoop_outcome (g : FrameGraph) (d : Vec3 → Vec3 → ℚ) (dmax : ℚ) (s e : Nat)
    (ep : Vec3)
    (hd : ∀ a b, 0 ≤ d a b) (hdmax : ∀ a b, d a b ≤ dmax)
    (hbig : ((vertexKeysA g).length : ℚ) * dmax + dmax < fMAX)
    (hWF : SearchWF g)
    (hreach : Relation.ReflTransGen (stepTo g) s e) :
    ∀ (fuel : Nat) (st : SearchState), Inv g d s e st →
      searchLoop d g e ep fuel st = .noSplit ∨
      searchLoop d g e ep fuel st = .fuelOut := by
  intro fuel
  induction fuel with
  | zero =>
    intro st _
    exact Or.inr rfl
  | succ fuel ih =>
    intro st hInv
    rcases searchStep_spec g d dmax s e ep hd hdmax hbig hWF hreach st hInv with
      h | ⟨st2, hstep, hInv2, _⟩
    · left
      simp only [searchLoop, h]
    · have hres : searchLoop d g e ep (fuel + 1) st = searchLoop d g e ep fuel st2 := by
        simp only [searchLoop, hstep]
      rw [hres]
      exact ih st2 hInv2

open Arena in
theorem searchLoop_terminates (g : FrameGraph) (d : Vec3 → Vec3 → ℚ) (dmax : ℚ)
    (s e : Nat) (ep : Vec3)
    (hd : ∀ a b, 0 ≤ d a b) (hdmax : ∀ a b, d a b ≤ dmax)
    (hbig : ((vertexKeysA g).length : ℚ) * dmax + dmax < fMAX)
    (hWF : SearchWF g)
    (hreach : Relation.ReflTransGen (stepTo g) s e) :
    ∀ (n : Nat) (st : SearchState), measureM g d st ≤ n → Inv g d s e st →
      searchLoop d g e ep (n + 1) st = .noSplit := by
  intro n
  induction n with
  | zero =>
    intro st hm hInv
    rcases searchStep_spec g d dmax s e ep hd hdmax hbig hWF hreach st hInv with
      h | ⟨st2, hstep, hInv2, hlt⟩
    · simp only [searchLoop, h]
    · exact absurd hlt (by omega)
  | succ n ih =>
    intro st hm hInv
    rcases searchStep_spec g d dmax s e ep hd hdmax hbig hWF hreach st hInv with
      h | ⟨st2, hstep, hInv2, hlt⟩
    · simp only [searchLoop, h]
    · have hres : searchLoop d g e ep (n + 1 + 1) st = searchLoop d g e ep (n + 1) st2 := by
        simp only [searchLoop, hstep]
      rw [hres]
      exact ih st2 (by omega) hInv2

open Arena in
theorem searchLoop_mono (g : FrameGraph) (d : Vec3 → Vec3 → ℚ) (e : Nat) (ep : Vec3) :
    ∀ (fuel : Nat) (st : SearchState), searchLoop d g e ep fuel st = .noSplit →
      ∀ f2, fuel ≤ f2 → searchLoop d g e ep f2 st = .noSplit := by
  intro fuel
  induction fuel with
  | zero =>
    intro st h
    cases h
  | succ fuel ih =>
    intro st h f2 hle
    obtain ⟨f3, rfl⟩ : ∃ f3, f2 = f3 + 1 := ⟨f2 - 1, by omega⟩
    rcases hstep : searchStep d g e ep st with out | st2
    · have h1 : searchLoop d g e ep (fuel + 1) st = out := by
        simp only [searchLoop, hstep]
      rw [h1] at h
      have h2 : searchLoop d g e ep (f3 + 1) st = out := by
        simp only [searchLoop, hstep]
      rw [h2]
      exact h
    · have h1 : searchLoop d g e ep (fuel + 1) st = searchLoop d g e ep fuel st2 := by
        simp only [searchLoop, hstep]
      rw [h1] at h
      have h2 : searchLoop d g e ep (f3 + 1) st = searchLoop d g e ep f3 st2 := by
        simp only [searchLoop, hstep]
      rw [h2]
      exact ih st2 h f3 (by omega)

open Arena in
theorem initial_Inv (g : FrameGraph) (d : Vec3 → Vec3 → ℚ) (s e : Nat)
    (sv ev : Vertex) (hsv : g.get_vertex s = some sv) :
    Inv g d s e { heap := [⟨d sv.position ev.position, 0, s⟩], visited := [],
                  best_costs := [(s, 0)] } := by
  refine ⟨⟨0, by simp [lookupA]⟩, ?_, by simp, ?_, ?_, ?_, ?_, ?_⟩
  · intro p hp
    simp only [List.mem_singleton] at hp
    subst hp
    rw [hsv]
    rfl
  · intro i hi
    simp only [List.mem_singleton] at hi
    subst hi
    rw [hsv]
    rfl
  · intro i hi
    simp only [List.mem_singleton] at hi
    subst hi
    exact ⟨0, by simp [lookupA]⟩
  · intro i hi b hb
    simp only [List.mem_singleton] at hi
    subst hi
    simp only [lookupA, if_pos rfl] at hb
    have hb0 : (0 : ℚ) = b := Option.some.inj hb
    show b ≤ 0
    rw [← hb0]
  · intro p hp
    simp only [List.mem_singleton] at hp
    subst hp
    refine ⟨[s], List.chain'_singleton s, List.nodup_singleton s, rfl, rfl, rfl, ?_, ?_⟩
    · intro x hx
      simp only [List.mem_singleton] at hx
      subst hx
      exact ⟨0, by simp [lookupA]⟩
    · intro n x bx hn hnl htake hbx
      have hn1 : n = 1 := by
        simp only [List.length_singleton] at hnl
        omega
      subst hn1
      have hx : s = x := Option.some.inj htake
      subst hx
      simp only [lookupA, if_pos rfl] at hbx
      have hb0 : (0 : ℚ) = bx := Option.some.inj hbx
      show bx ≤ pathCost g d ([s].take 1)
      rw [← hb0]
      exact le_refl 0
  · intro p hp
    simp only [List.mem_singleton] at hp
    subst hp
    exact Or.inl ⟨⟨d sv.position ev.position, 0, s⟩, by simp, rfl, rfl⟩

open Arena in
/-- C2: when both anchors are stored and the end anchor is reachable from
the start anchor over the beams (the adjacency the search enumerates
from the connection lists), `try_split` returns the no-split outcome
(`None` in the source, whose loop is unbounded; the embedding's `fuelOut`
is the only other possibility and vanishes for every sufficiently large
fuel) and the graph is returned unchanged. Hypotheses: the graph's
connections resolve (the search's unwraps), the metric is nonnegative
and bounded by `dmax`, and path costs stay below `f32::MAX` — the
floating point saturation the rational embedding cannot reproduce. -/
theorem C2_reachable_no_split (g : FrameGraph) (d : Vec3 → Vec3 → ℚ) (dmax : ℚ)
    (s e : Nat)
    (hd : ∀ a b, 0 ≤ d a b) (hdmax : ∀ a b, d a b ≤ dmax)
    (hbig : ((vertexKeysA g).length : ℚ) * dmax + dmax < fMAX)
    (hWF : SearchWF g)
    (hs : (g.get_vertex s).isSome = true) (he : (g.get_vertex e).isSome = true)
    (hreach : Relation.ReflTransGen (stepTo g) s e) :
    (∀ fuel, FrameGraph.try_split g d fuel s e = (.noSplit, g) ∨
      FrameGraph.try_split g d fuel s e = (.fuelOut, g)) ∧
    ∃ N, ∀ fuel, N ≤ fuel → FrameGraph.try_split g d fuel s e = (.noSplit, g) := by
  obtain ⟨sv, hsv⟩ := Option.isSome_iff_exists.mp hs
  obtain ⟨ev, hev⟩ := Option.isSome_iff_exists.mp he
  have hres : ∀ fuel, FrameGraph.try_split g d fuel s e =
      (searchLoop d g e ev.position fuel
        { heap := [⟨d sv.position ev.position, 0, s⟩], visited := [],
          best_costs := [(s, 0)] }, g) := by
    intro fuel
    simp only [FrameGraph.try_split, hsv, hev]
  have hInv0 := initial_Inv g d s e sv ev hsv
  constructor
  · intro fuel
    rcases searchLoop_outcome g d dmax s e ev.position hd hdmax hbig hWF hreach fuel _
        hInv0 with h | h
    · left
      rw [hres fuel, h]
    · right
      rw [hres fuel, h]
  · refine ⟨measureM g d { heap := [⟨d sv.position ev.position, 0, s⟩], visited := [],
                           best_costs := [(s, 0)] } + 1, ?_⟩
    intro fuel hle
    rw [hres fuel]
    have h1 := searchLoop_terminates g d dmax s e ev.position hd hdmax hbig hWF hreach
      (measureM g d { heap := [⟨d sv.position ev.position, 0, s⟩], visited := [],
                      best_costs := [(s, 0)] }) _ (le_refl _) hInv0
    rw [searchLoop_mono g d e ev.position _ _ h1 fuel hle]

theorem C2_reachable_no_split_witness :
    Arena.SearchWF Arena.exA1 ∧
    Relation.ReflTransGen (Arena.stepTo Arena.exA1) 0 1 ∧
    ((∀ fuel, Arena.FrameGraph.try_split Arena.exA1 (fun _ _ => 0) fuel 0 1 =
        (.noSplit, Arena.exA1) ∨
      Arena.FrameGraph.try_split Arena.exA1 (fun _ _ => 0) fuel 0 1 =
        (.fuelOut, Arena.exA1)) ∧
    ∃ N, ∀ fuel, N ≤ fuel →
      Arena.FrameGraph.try_split Arena.exA1 (fun _ _ => 0) fuel 0 1 =
        (.noSplit, Arena.exA1)) := by
  have hWF : Arena.SearchWF Arena.exA1 := by
    intro p hp c hc
    simp only [Arena.exA1, List.mem_cons, List.not_mem_nil, or_false] at hp
    rcases hp with hp | hp
    · subst hp
      simp only [List.mem_singleton] at hc
      subst hc
      exact ⟨⟨0, 1⟩, by decide, by decide⟩
    · subst hp
      simp only [List.mem_singleton] at hc
      subst hc
      exact ⟨⟨0, 1⟩, by decide, by decide⟩
  have hreach : Relation.ReflTransGen (Arena.stepTo Arena.exA1) 0 1 :=
    Relation.ReflTransGen.single ⟨⟨0, .Up⟩, by decide, by decide⟩
  exact ⟨hWF, hreach, C2_reachable_no_split Arena.exA1 (fun _ _ => 0) 0 0 1
    (fun _ _ => le_refl 0) (fun _ _ => le_refl 0)
    (by norm_num [Arena.fMAX]) hWF (by decide) (by decide) hreach⟩
